import Mathlib

/-!
# Dominó (`ejercicio_6/eje_6.cpp`) and the numeric classes: embedding and verified properties

The classes `PiezaDomino`, `Participante`, `ParticipanteHumano` and
`PartidaDomino` are embedded as pure functions with explicit state passing
(namespace `Domino`).  The classes `Matriz` (`ejercicio_2`), `Polinomio`
(`ejercicio_3`), `Complejo` (`ejercicio_4`), `CTermino` and `CPolinomio`
(`ejercicio_5`) follow in the namespaces `Ejercicio2` .. `Ejercicio5`; there
`double` is taken in exact arithmetic (`ℚ`), `int` without overflow, and the
content of fresh memory (`rand()` values, arrays of `new double[..]`) is a
parameter.

Conventions of the embedding:

* `int` pips are `Int` (no arithmetic on them can overflow for the sums of the
  28 tiles); counters that the code never makes negative are `Nat`.
* `std::vector` and `std::deque` are `List`, index 0 first, so `back()` is the
  last element and `push_front` is `::`.
* Console output is dropped.  Console input (`cin`) is a finite list of
  `Pasada` records, one per pass through the menu loop of `realizarJugada`;
  each record holds the results of the reads that the pass may perform.
* `std::shuffle` is a parameter `barajar` of the round.
-/

namespace Domino

/-! ## PiezaDomino -/

/-- Class `PiezaDomino`: the two pip values of a tile. -/
structure PiezaDomino where
  ladoIzquierdo : Int
  ladoDerecho : Int
deriving DecidableEq, Repr

namespace PiezaDomino

/-- Method `totalPuntos`: `ladoIzquierdo + ladoDerecho`. -/
def totalPuntos (p : PiezaDomino) : Int := p.ladoIzquierdo + p.ladoDerecho

/-- Method `voltear`: swaps the two sides. -/
def voltear (p : PiezaDomino) : PiezaDomino := ⟨p.ladoDerecho, p.ladoIzquierdo⟩

/-- Method `esIgualA`: equality regardless of orientation. -/
def esIgualA (p otra : PiezaDomino) : Bool :=
  (p.ladoIzquierdo == otra.ladoIzquierdo && p.ladoDerecho == otra.ladoDerecho) ||
  (p.ladoIzquierdo == otra.ladoDerecho && p.ladoDerecho == otra.ladoIzquierdo)

end PiezaDomino

/-! ## Participante -/

/-- Class `Participante`: display name (field `alias` of the source, read through
`obtenerNombre`; `alias` is a reserved word here) and hand. -/
structure Participante where
  nombre : String
  piezasMano : List PiezaDomino
deriving DecidableEq, Repr

namespace Participante

/-- Method `tomarPieza`: `piezasMano.push_back(p)`. -/
def tomarPieza (j : Participante) (p : PiezaDomino) : Participante :=
  { j with piezasMano := j.piezasMano ++ [p] }

/-- Method `sacarPieza`: erases the tile at `posicion` (the returned copy is the
tile read by the caller beforehand). -/
def sacarPieza (j : Participante) (posicion : Nat) : Participante :=
  { j with piezasMano := j.piezasMano.eraseIdx posicion }

/-- Method `cantidadPiezas`. -/
def cantidadPiezas (j : Participante) : Nat := j.piezasMano.length

/-- Method `limpiarMano`. -/
def limpiarMano (j : Participante) : Participante := { j with piezasMano := [] }

end Participante

/-! ## ParticipanteHumano.realizarJugada -/

/-- The lambda `esJugable` of `realizarJugada`; `vacio` is `tablero.empty()`. -/
def esJugable (vacio : Bool) (extremoIzq extremoDer : Int) (p : PiezaDomino) : Bool :=
  if vacio then true
  else p.ladoIzquierdo == extremoIzq || p.ladoDerecho == extremoIzq ||
       p.ladoIzquierdo == extremoDer || p.ladoDerecho == extremoDer

/-- The inner `for` of the draw loop: `hayJugable`. -/
def hayJugable (vacio : Bool) (extremoIzq extremoDer : Int) (mano : List PiezaDomino) : Bool :=
  mano.any (esJugable vacio extremoIzq extremoDer)

/-- The draw loop `while (true)` of `realizarJugada`, run on the hand and on the
pool listed from its back to its front (so the head is `pozo.back()`).
Result: `false` when the loop leaves through `return false` (forced pass),
`true` when it leaves through `break`; then the hand and what is left of the
pool (still back to front). -/
def robarDesde (vacio : Bool) (extremoIzq extremoDer : Int) :
    List PiezaDomino → List PiezaDomino → Bool × List PiezaDomino × List PiezaDomino
  | mano, [] => (hayJugable vacio extremoIzq extremoDer mano, mano, [])
  | mano, robada :: resto =>
    if hayJugable vacio extremoIzq extremoDer mano then (true, mano, robada :: resto)
    else robarDesde vacio extremoIzq extremoDer (mano ++ [robada]) resto

/-- The draw phase of `realizarJugada` on the hand and the pool (as a vector). -/
def robar (vacio : Bool) (extremoIzq extremoDer : Int) (mano pozo : List PiezaDomino) :
    Bool × List PiezaDomino × List PiezaDomino :=
  let r := robarDesde vacio extremoIzq extremoDer mano pozo.reverse
  (r.1, r.2.1, r.2.2.reverse)

/-- What the reads of one pass through the menu loop deliver: `none` is a failed
read (`cin.fail()`).  `idx` is consulted only after option `p` (or `v`), `lado`
only when an index was accepted and the board is not empty. -/
structure Pasada where
  opcion : Option Char
  idx : Option Int
  lado : Option Char
deriving DecidableEq, Repr

/-- The state `realizarJugada` works on: the acting player's hand and the two
containers it receives by reference. -/
structure Mesa where
  mano : List PiezaDomino
  tablero : List PiezaDomino
  pozo : List PiezaDomino
deriving DecidableEq, Repr

/-- How one pass through the menu loop ends: with `return b` or with `continue`
(also the fall-through to the next pass). -/
inductive Efecto where
  | retorna (jugo : Bool)
  | continua
deriving DecidableEq, Repr

/-- One pass through the menu loop `while (true)` of `realizarJugada`. -/
def unaPasada (extremoIzq extremoDer : Int) (e : Pasada) (m : Mesa) : Efecto × Mesa :=
  match e.opcion with
  | none => (.continua, m)
  | some opcion =>
    if opcion = 'p' then
      match e.idx with
      | none => (.continua, m)
      | some idx =>
        if idx < 0 ∨ idx ≥ (m.mano.length : Int) then (.continua, m)
        else
          match m.mano[idx.toNat]? with
          | none => (.continua, m)
          | some elegida =>
            if m.tablero.isEmpty then
              (.retorna true,
                { m with mano := m.mano.eraseIdx idx.toNat, tablero := m.tablero ++ [elegida] })
            else
              match e.lado with
              | none => (.continua, m)
              | some l =>
                let lado := l.toUpper
                if lado = 'I' then
                  if elegida.ladoDerecho = extremoIzq then
                    (.retorna true,
                      { m with mano := m.mano.eraseIdx idx.toNat, tablero := elegida :: m.tablero })
                  else if elegida.ladoIzquierdo = extremoIzq then
                    (.retorna true,
                      { m with mano := m.mano.eraseIdx idx.toNat,
                               tablero := elegida.voltear :: m.tablero })
                  else (.continua, m)
                else if lado = 'D' then
                  if elegida.ladoIzquierdo = extremoDer then
                    (.retorna true,
                      { m with mano := m.mano.eraseIdx idx.toNat, tablero := m.tablero ++ [elegida] })
                  else if elegida.ladoDerecho = extremoDer then
                    (.retorna true,
                      { m with mano := m.mano.eraseIdx idx.toNat,
                               tablero := m.tablero ++ [elegida.voltear] })
                  else (.continua, m)
                else (.continua, m)
    else if opcion = 'v' then (.continua, m)
    else if opcion = 's' then (.continua, m)
    else if opcion = 'x' then (.retorna false, m)
    else (.continua, m)

/-- The menu loop of `realizarJugada`: passes are made until one returns.  `none`
when the input ends while the loop is still asking. -/
def menu (extremoIzq extremoDer : Int) : List Pasada → Mesa → Option (Bool × Mesa × List Pasada)
  | [], _ => none
  | e :: resto, m =>
    match unaPasada extremoIzq extremoDer e m with
    | (.retorna b, m') => some (b, m', resto)
    | (.continua, m') => menu extremoIzq extremoDer resto m'

/-- The state after `k` tiles went, one at a time, from the back of the pool to
the end of the hand. -/
def trasRobar (m : Mesa) (k : Nat) : Mesa :=
  ⟨m.mano ++ m.pozo.reverse.take k, m.tablero, m.pozo.take (m.pozo.length - k)⟩

/-- Method `ParticipanteHumano::realizarJugada`: draw phase, then the menu. -/
def realizarJugada (m : Mesa) (extremoIzq extremoDer : Int) (entradas : List Pasada) :
    Option (Bool × Mesa × List Pasada) :=
  match robar m.tablero.isEmpty extremoIzq extremoDer m.mano m.pozo with
  | (false, mano, pozo) => some (false, { m with mano := mano, pozo := pozo }, entradas)
  | (true, mano, pozo) => menu extremoIzq extremoDer entradas { m with mano := mano, pozo := pozo }

/-! ## std::map<string,int> -/

/-- A `std::map<string,int>`: its entries in iteration order, that is by
increasing key. -/
abbrev Mapa := List (String × Int)

/-- The key order of the map, `std::less<std::string>`: lexicographic comparison
character by character (`claveMenor_iff` below: it is the order `<` of `String`). -/
def claveMenor (a b : String) : Prop := a.data < b.data

instance (a b : String) : Decidable (claveMenor a b) :=
  inferInstanceAs (Decidable (a.data < b.data))

/-- The assignment `m[k] = v`: replaces the value of an existing key, otherwise
inserts the entry at its place in key order. -/
def asignar : Mapa → String → Int → Mapa
  | [], k, v => [(k, v)]
  | (k', v') :: resto, k, v =>
    if claveMenor k k' then (k, v) :: (k', v') :: resto
    else if k = k' then (k, v) :: resto
    else (k', v') :: asignar resto k v

/-- The value `m[k]` reads: the stored one, or the value-initialised `0` that
`operator[]` inserts for a missing key. -/
def valorEn : Mapa → String → Int
  | [], _ => 0
  | (k', v') :: resto, k => if k = k' then v' else valorEn resto k

/-- The update `m[k] += d`. -/
def sumarEn (m : Mapa) (k : String) (d : Int) : Mapa := asignar m k (valorEn m k + d)

/-! ## PartidaDomino -/

/-- Class `PartidaDomino` (the random engine is replaced by the parameter
`barajar` of the round).  `totalJugadores` is the `int` field of that name; a
value below 1 behaves like 0 in every comparison the round makes. -/
structure PartidaDomino where
  fabricaPiezas : List PiezaDomino
  pozo : List PiezaDomino
  tablero : List PiezaDomino
  jugadores : List Participante
  puntuacionTotal : Mapa
  totalJugadores : Nat
deriving DecidableEq, Repr

/-- The tiles `generarConjuntoCompleto` builds: `for izq in 0..6, for der in izq..6`. -/
def conjuntoCompleto : List PiezaDomino :=
  (List.range 7).flatMap fun izq =>
    (List.range' izq (7 - izq)).map fun der => ⟨(izq : Int), (der : Int)⟩

/-- Method `generarConjuntoCompleto`: clears `fabricaPiezas` and fills it. -/
def generarConjuntoCompleto (p : PartidaDomino) : PartidaDomino :=
  { p with fabricaPiezas := conjuntoCompleto }

/-- Method `mezclarYPreparar`; `barajar` is the effect of `std::shuffle`. -/
def mezclarYPreparar (barajar : List PiezaDomino → List PiezaDomino) (p : PartidaDomino) :
    PartidaDomino :=
  let p1 := generarConjuntoCompleto p
  let mezcladas := barajar p1.fabricaPiezas
  { p1 with fabricaPiezas := mezcladas, pozo := mezcladas }

/-- The inner `for (auto p : jugadores)` of `distribuirPiezas`, on the pool listed
from back to front: each player takes `pozo.back()`; `break` once the pool is
empty. -/
def repartirVuelta : List Participante → List PiezaDomino → List Participante × List PiezaDomino
  | [], pozoInv => ([], pozoInv)
  | j :: js, [] => (j :: js, [])
  | j :: js, pieza :: pozoInv =>
    let r := repartirVuelta js pozoInv
    (j.tomarPieza pieza :: r.1, r.2)

/-- The outer `for (r = 0; r < 7; ++r)` of `distribuirPiezas`, `vueltas` rounds. -/
def repartir : Nat → List Participante → List PiezaDomino → List Participante × List PiezaDomino
  | 0, js, pozoInv => (js, pozoInv)
  | vueltas + 1, js, pozoInv =>
    let r := repartirVuelta js pozoInv
    repartir vueltas r.1 r.2

/-- Method `distribuirPiezas`. -/
def distribuirPiezas (p : PartidaDomino) : PartidaDomino :=
  let r := repartir 7 (p.jugadores.map Participante.limpiarMano) p.pozo.reverse
  { p with jugadores := r.1, tablero := [], pozo := r.2.reverse }

/-- The open ends `valIzq, valDer` computed at the top of each turn: `-1, -1`
on an empty board, else `front().izquierdo, back().derecho`. -/
def extremos (tablero : List PiezaDomino) : Int × Int :=
  match tablero.head?, tablero.getLast? with
  | some primera, some ultima => (primera.ladoIzquierdo, ultima.ladoDerecho)
  | _, _ => (-1, -1)

/-- The board invariant: the right pip of every tile equals the left pip of its
right neighbour. -/
def encadenado : List PiezaDomino → Bool
  | [] => true
  | [_] => true
  | a :: b :: resto => a.ladoDerecho == b.ladoIzquierdo && encadenado (b :: resto)

/-- The orientation of a tile with the smaller pip on the left, as
`generarConjuntoCompleto` builds it. -/
def PiezaDomino.canonica (p : PiezaDomino) : PiezaDomino :=
  if p.ladoIzquierdo ≤ p.ladoDerecho then p else p.voltear

/-- The tiles of all hands, in the order of the players. -/
def manos (jugadores : List Participante) : List PiezaDomino :=
  jugadores.flatMap fun j => j.piezasMano

/-- All tiles of the game: pool, hands and board. -/
def todasLasPiezas (p : PartidaDomino) : List PiezaDomino :=
  p.pozo ++ manos p.jugadores ++ p.tablero

/-- Tile conservation: up to orientation, pool, hands and board together are the
tiles of `generarConjuntoCompleto`, each once. -/
def conserva (p : PartidaDomino) : Prop :=
  ((todasLasPiezas p).map PiezaDomino.canonica).Perm conjuntoCompleto

/-- Tile conservation in the words of the specification: every tile of the
canonical set is matched (`esIgualA`) by exactly one tile of pool, hands and
board; every tile there matches one of the canonical set; and the sizes of pool,
hands and board add up to 28. -/
def cadaUnaUnaVez (p : PartidaDomino) : Prop :=
  (∀ c ∈ conjuntoCompleto, (todasLasPiezas p).countP (fun t => t.esIgualA c) = 1) ∧
  (∀ t ∈ todasLasPiezas p, ∃ c ∈ conjuntoCompleto, t.esIgualA c = true) ∧
  p.pozo.length + (p.jugadores.map Participante.cantidadPiezas).sum + p.tablero.length = 28

/-- Which `return` of `ejecutarRonda` ended the round. -/
inductive FinRonda where
  | gano (nombre : String)
  | bloqueo
deriving DecidableEq, Repr

/-- The string `ejecutarRonda` returns: the winner's name, or `""` for a blockage. -/
def FinRonda.cadena : FinRonda → String
  | .gano nombre => nombre
  | .bloqueo => ""

/-- The state at the top of the turn loop of `ejecutarRonda`. -/
structure Ronda where
  partida : PartidaDomino
  turnoActual : Nat
  pasesConsecutivos : Nat
  entradas : List Pasada
deriving DecidableEq, Repr

/-- The outcome of one turn, and of the loop: the round returned (`fin`), goes on
(`sigue`), waits for input that never comes (`espera`), or indexes `jugadores`
out of range (`indefinido`). -/
inductive Paso where
  | fin (f : FinRonda) (p : PartidaDomino) (resto : List Pasada)
  | sigue (r : Ronda)
  | espera
  | indefinido
deriving DecidableEq, Repr

/-- The game state after `jugadorActual->realizarJugada(tablero, pozo, ..)` left
the state `m`: the acting player's hand, the board and the pool are replaced. -/
def trasJugada (p : PartidaDomino) (turno : Nat) (j : Participante) (m : Mesa) : PartidaDomino :=
  { p with jugadores := p.jugadores.set turno { j with piezasMano := m.mano },
           tablero := m.tablero, pozo := m.pozo }

/-- One pass through the turn loop `while (true)` of `ejecutarRonda`. -/
def pasoRonda (r : Ronda) : Paso :=
  match r.partida.jugadores[r.turnoActual]? with
  | none => .indefinido
  | some jugadorActual =>
    let ext := extremos r.partida.tablero
    match realizarJugada ⟨jugadorActual.piezasMano, r.partida.tablero, r.partida.pozo⟩
        ext.1 ext.2 r.entradas with
    | none => .espera
    | some (jugo, m, resto) =>
      let partida := trasJugada r.partida r.turnoActual jugadorActual m
      if jugo ∧ m.mano.length = 0 then .fin (.gano jugadorActual.nombre) partida resto
      else
        let pases := if jugo then 0 else r.pasesConsecutivos + 1
        if pases ≥ r.partida.totalJugadores then .fin .bloqueo partida resto
        else .sigue ⟨partida, (r.turnoActual + 1) % r.partida.totalJugadores, pases, resto⟩

/-- The turn loop, at most `n` turns: `sigue r` when it is still running. -/
def bucleRonda : Nat → Ronda → Paso
  | 0, r => .sigue r
  | n + 1, r =>
    match pasoRonda r with
    | .sigue r' => bucleRonda n r'
    | otro => otro

/-- The state with which `ejecutarRonda` enters its turn loop. -/
def rondaInicial (barajar : List PiezaDomino → List PiezaDomino) (p : PartidaDomino)
    (entradas : List Pasada) : Ronda :=
  let p1 := distribuirPiezas (mezclarYPreparar barajar p)
  ⟨{ p1 with tablero := [] }, 0, 0, entradas⟩

/-- A number of turns within which the loop started at `r` is over (see
`bucleRonda_termina`). -/
def cotaTurnos (r : Ronda) : Nat :=
  r.entradas.length * (r.partida.totalJugadores + 1) + r.partida.totalJugadores + 1

/-- Method `ejecutarRonda` on the input `entradas`. -/
def ejecutarRonda (barajar : List PiezaDomino → List PiezaDomino) (p : PartidaDomino)
    (entradas : List Pasada) : Paso :=
  let r := rondaInicial barajar p entradas
  bucleRonda (cotaTurnos r) r

/-- The state after `t` turns none of which ended the round. -/
def avanzar : Nat → Ronda → Option Ronda
  | 0, r => some r
  | t + 1, r =>
    match avanzar t r with
    | some r' =>
      match pasoRonda r' with
      | .sigue r'' => some r''
      | _ => none
    | none => none

/-- The turn that starts at `r`: the acting player `jugadores[turnoActual]` and
what that player's `realizarJugada` returns (result, state left, input left).
`none` when the turn does not complete. -/
def turnoDe (r : Ronda) : Option (Participante × Bool × Mesa × List Pasada) :=
  match r.partida.jugadores[r.turnoActual]? with
  | none => none
  | some j =>
    match realizarJugada ⟨j.piezasMano, r.partida.tablero, r.partida.pozo⟩
        (extremos r.partida.tablero).1 (extremos r.partida.tablero).2 r.entradas with
    | none => none
    | some x => some (j, x.1, x.2.1, x.2.2)

/-- The results (`true` played, `false` passed) of the first `t` turns of the
round started at `r0`, in order. -/
def resultados (r0 : Ronda) : Nat → List Bool
  | 0 => []
  | t + 1 =>
    match (avanzar t r0).bind turnoDe with
    | some x => resultados r0 t ++ [x.2.1]
    | none => resultados r0 t

/-- The number of passes at the end of a list of results: the turns resolved as
passed since the last played turn, or since the start. -/
def pasesAlFinal (l : List Bool) : Nat :=
  (l.reverse.takeWhile fun b => b == false).length

/-- The string a finished round returns. -/
def Paso.cadena : Paso → Option String
  | .fin f _ _ => some f.cadena
  | _ => none

/-- The quantity that decreases with every turn that lets the round go on. -/
def medida (r : Ronda) : Nat :=
  r.entradas.length * (r.partida.totalJugadores + 1) +
    (r.partida.totalJugadores - r.pasesConsecutivos)

/-- The names of the players, in the order of the list `jugadores`. -/
def nombres (jugadores : List Participante) : List String :=
  jugadores.map fun j => j.nombre

/-- The game as `configurarParticipantes` leaves it for the two players Ana and
Luis, before any round: no tiles anywhere, both totals 0. -/
def partidaEjemplo : PartidaDomino :=
  ⟨[], [], [], [⟨"Ana", []⟩, ⟨"Luis", []⟩], [("Ana", 0), ("Luis", 0)], 2⟩

/-- The `for` over the hand in `procesarPuntuacion`: `suma += totalPuntos()`. -/
def sumaMano (j : Participante) : Int :=
  j.piezasMano.foldl (fun suma pieza => suma + pieza.totalPuntos) 0

/-- The map `sumasPips` of `procesarPuntuacion`. -/
def sumasPips (jugadores : List Participante) : Mapa :=
  jugadores.foldl (fun m j => asignar m j.nombre (sumaMano j)) []

/-- The loop `for kv : sumasPips, if (kv.first != nombre) puntos += kv.second`. -/
def puntosSin (nombre : String) (sumas : Mapa) : Int :=
  sumas.foldl (fun puntos kv => if kv.1 ≠ nombre then puntos + kv.2 else puntos) 0

/-- The search for `ganadorBloqueo, menorSuma`, started at `"", INT_MAX`. -/
def menorEntrada (sumas : Mapa) : String × Int :=
  sumas.foldl (fun acc kv => if kv.2 < acc.2 then (kv.1, kv.2) else acc) ("", 2147483647)

/-- Method `procesarPuntuacion`: the returned name and the game afterwards. -/
def procesarPuntuacion (p : PartidaDomino) (nombreGanador : String) : String × PartidaDomino :=
  let sumas := sumasPips p.jugadores
  if nombreGanador ≠ "" then
    let puntos := puntosSin nombreGanador sumas
    (nombreGanador, { p with puntuacionTotal := sumarEn p.puntuacionTotal nombreGanador puntos })
  else
    let ganadorBloqueo := (menorEntrada sumas).1
    let puntos := puntosSin ganadorBloqueo sumas
    (ganadorBloqueo, { p with puntuacionTotal := sumarEn p.puntuacionTotal ganadorBloqueo puntos })

/-- The pip sum of a player in the words of the specification: the sum of
`left + right` over the tiles left in the hand. -/
def pipSum (j : Participante) : Int :=
  (j.piezasMano.map fun t => t.ladoIzquierdo + t.ladoDerecho).sum

/-- A shuffle of the 28 tiles for four players: dealt from the back, the hands
begin with the tiles of the train `[0|0][0|1][1|1][1|2] .. [5|5]`, distributed to
the players 0, 3, 2, 1, 0, 3, 2, 1, 0, 3, 2. -/
def mezclaLarga : List PiezaDomino :=
  [⟨6, 6⟩, ⟨3, 5⟩, ⟨1, 6⟩, ⟨0, 5⟩, ⟨5, 6⟩, ⟨2, 6⟩, ⟨1, 5⟩, ⟨0, 4⟩, ⟨4, 6⟩, ⟨2, 5⟩, ⟨1, 4⟩,
   ⟨0, 3⟩, ⟨3, 6⟩, ⟨2, 4⟩, ⟨1, 3⟩, ⟨0, 2⟩, ⟨4, 5⟩, ⟨5, 5⟩, ⟨0, 6⟩, ⟨4, 4⟩, ⟨2, 3⟩, ⟨3, 3⟩,
   ⟨3, 4⟩, ⟨2, 2⟩, ⟨0, 1⟩, ⟨1, 1⟩, ⟨1, 2⟩, ⟨0, 0⟩]

/-- The game as `configurarParticipantes` leaves it for four players. -/
def partidaCuatro : PartidaDomino :=
  ⟨[], [], [], [⟨"Ana", []⟩, ⟨"Luis", []⟩, ⟨"Eva", []⟩, ⟨"Juan", []⟩],
    [("Ana", 0), ("Eva", 0), ("Juan", 0), ("Luis", 0)], 4⟩

/-- Validated choices for the first 33 turns of a round on `mezclaLarga`: every
third turn plays the tile 0 of the hand (on the right side once the board is not
empty), the turns between are voluntary passes; the turns 2 and 7 are forced
passes and read nothing. -/
def entradasLargas : List Pasada :=
  [⟨some 'p', some 0, none⟩, ⟨some 'x', none, none⟩,
   ⟨some 'p', some 0, some 'D'⟩, ⟨some 'x', none, none⟩, ⟨some 'x', none, none⟩,
   ⟨some 'p', some 0, some 'D'⟩, ⟨some 'x', none, none⟩,
   ⟨some 'p', some 0, some 'D'⟩, ⟨some 'x', none, none⟩, ⟨some 'x', none, none⟩,
   ⟨some 'p', some 0, some 'D'⟩, ⟨some 'x', none, none⟩, ⟨some 'x', none, none⟩,
   ⟨some 'p', some 0, some 'D'⟩, ⟨some 'x', none, none⟩, ⟨some 'x', none, none⟩,
   ⟨some 'p', some 0, some 'D'⟩, ⟨some 'x', none, none⟩, ⟨some 'x', none, none⟩,
   ⟨some 'p', some 0, some 'D'⟩, ⟨some 'x', none, none⟩, ⟨some 'x', none, none⟩,
   ⟨some 'p', some 0, some 'D'⟩, ⟨some 'x', none, none⟩, ⟨some 'x', none, none⟩,
   ⟨some 'p', some 0, some 'D'⟩, ⟨some 'x', none, none⟩, ⟨some 'x', none, none⟩,
   ⟨some 'p', some 0, some 'D'⟩, ⟨some 'x', none, none⟩, ⟨some 'x', none, none⟩]

/-- A shuffle that permutes its argument and puts the 28 tiles in the order
`mezclaLarga`. -/
def barajarLarga (l : List PiezaDomino) : List PiezaDomino :=
  if l.Perm conjuntoCompleto then mezclaLarga else l

/-- The local `puntos` of `procesarPuntuacion`: the points of the round, credited
to the name it returns. -/
def puntosDeRonda (p : PartidaDomino) (nombreGanador : String) : Int :=
  puntosSin (procesarPuntuacion p nombreGanador).1 (sumasPips p.jugadores)

/-- The loop of `iniciar` as long as option 1 (another round, scores kept) is
chosen: each round comes with its shuffle and with the input it reads, is run by
`ejecutarRonda` and scored by `procesarPuntuacion`.  Result: the game after the
rounds and, round by round, the name returned and the points of the round.
`none` when a round does not return. -/
def iniciarRondas :
    List ((List PiezaDomino → List PiezaDomino) × List Pasada) → PartidaDomino →
      Option (PartidaDomino × List (String × Int))
  | [], p => some (p, [])
  | (barajar, entradas) :: rondas, p =>
    match ejecutarRonda barajar p entradas with
    | .fin f p' _ =>
      match iniciarRondas rondas (procesarPuntuacion p' f.cadena).2 with
      | some (q, creditos) =>
        some (q, ((procesarPuntuacion p' f.cadena).1, puntosDeRonda p' f.cadena) :: creditos)
      | none => none
    | _ => none

/-- Option 2 of `iniciar`: `for (auto& kv : puntuacionTotal) kv.second = 0`. -/
def reiniciarPuntajes (p : PartidaDomino) : PartidaDomino :=
  { p with puntuacionTotal := p.puntuacionTotal.map fun kv => (kv.1, 0) }

/-- A game of three players two of whom typed the same name, at the end of a
round: the first Ana has emptied the hand, the second Ana holds `[5|5]` and Luis
holds `[1|2]`. -/
def partidaRepetida : PartidaDomino :=
  ⟨[], [⟨5, 1⟩], [], [⟨"Ana", []⟩, ⟨"Ana", [⟨5, 5⟩]⟩, ⟨"Luis", [⟨1, 2⟩]⟩],
    [("Ana", 0), ("Luis", 0)], 3⟩

/-- The turn that starts at `r` is a forced pass: the draw loop of
`realizarJugada` leaves through its `return false` (no playable tile in hand and
the pool empty), so that no choice is asked for. -/
def paseForzado (r : Ronda) : Bool :=
  match r.partida.jugadores[r.turnoActual]? with
  | some j =>
    !(robar r.partida.tablero.isEmpty (extremos r.partida.tablero).1
        (extremos r.partida.tablero).2 j.piezasMano r.partida.pozo).1
  | none => false

/-- The player at position `x` holds no tile that `esJugable` accepts on the
board of `q`. -/
def sinJugada (q : PartidaDomino) (x : Nat) : Bool :=
  match q.jugadores[x]? with
  | some j =>
    !hayJugable q.tablero.isEmpty (extremos q.tablero).1 (extremos q.tablero).2 j.piezasMano
  | none => true

/-- A shuffle of the 28 tiles for two players that allows the train
`[0|0][0|1][1|2][2|0][0|3][3|4][4|0][0|5][5|6][6|0]`: dealt from the back, the
first player gets `[0|0] [1|2] [0|3] [0|4] [5|6] [1|1] [2|2]` and the second
`[0|1] [0|2] [3|4] [0|5] [0|6] [3|3] [4|4]`. -/
def mezclaBloqueo : List PiezaDomino :=
  [⟨6, 6⟩, ⟨5, 5⟩, ⟨4, 6⟩, ⟨4, 5⟩, ⟨3, 6⟩, ⟨3, 5⟩, ⟨2, 6⟩, ⟨2, 5⟩, ⟨2, 4⟩, ⟨2, 3⟩, ⟨1, 6⟩,
   ⟨1, 5⟩, ⟨1, 4⟩, ⟨1, 3⟩, ⟨4, 4⟩, ⟨2, 2⟩, ⟨3, 3⟩, ⟨1, 1⟩, ⟨0, 6⟩, ⟨5, 6⟩, ⟨0, 5⟩, ⟨0, 4⟩,
   ⟨3, 4⟩, ⟨0, 3⟩, ⟨0, 2⟩, ⟨1, 2⟩, ⟨0, 1⟩, ⟨0, 0⟩]

/-- A container access of the core, recorded with the size of the container at
that moment: `pozo.back()` with `pozo.pop_back()`; `piezasMano[idx]` (also the
one inside `sacarPieza(idx)`, with its `erase`); `tablero.front()` or
`tablero.back()`; `jugadores[turnoActual]`. -/
inductive Acceso where
  | pozoBack (tam : Nat)
  | manoIdx (idx : Int) (tam : Nat)
  | tableroExtremo (tam : Nat)
  | jugadorIdx (idx : Int) (tam : Nat)
deriving DecidableEq, Repr

/-- The access is in range: the container is not empty, or the index lies
within `0 .. tam - 1`. -/
def Acceso.enRango : Acceso → Bool
  | .pozoBack tam => decide (0 < tam)
  | .manoIdx idx tam => decide (0 ≤ idx ∧ idx < (tam : Int))
  | .tableroExtremo tam => decide (0 < tam)
  | .jugadorIdx idx tam => decide (0 ≤ idx ∧ idx < (tam : Int))

/-- The accesses of the inner `for` of `distribuirPiezas` (see `repartirVuelta`):
after the test `pozo.empty()`, `pozo.back()` and `pozo.pop_back()`. -/
def accesosRepartirVuelta : List Participante → List PiezaDomino → List Acceso
  | [], _ => []
  | _ :: _, [] => []
  | _ :: js, pieza :: pozoInv =>
    .pozoBack (pieza :: pozoInv).length :: accesosRepartirVuelta js pozoInv

/-- The accesses of the outer `for` of `distribuirPiezas` (see `repartir`). -/
def accesosRepartir : Nat → List Participante → List PiezaDomino → List Acceso
  | 0, _, _ => []
  | vueltas + 1, js, pozoInv =>
    accesosRepartirVuelta js pozoInv ++
      accesosRepartir vueltas (repartirVuelta js pozoInv).1 (repartirVuelta js pozoInv).2

/-- The accesses of `distribuirPiezas`. -/
def accesosDistribuir (p : PartidaDomino) : List Acceso :=
  accesosRepartir 7 (p.jugadores.map Participante.limpiarMano) p.pozo.reverse

/-- The accesses of `mostrarMano`: `piezasMano[i]` for `i < piezasMano.size()`. -/
def accesosMostrarMano (mano : List PiezaDomino) : List Acceso :=
  (List.range mano.length).map fun (i : Nat) => .manoIdx (i : Int) mano.length

/-- The accesses of the draw loop of `realizarJugada` (see `robarDesde`): in the
branch `!pozo.empty()`, `pozo.back()` and `pozo.pop_back()`. -/
def accesosRobarDesde (vacio : Bool) (extremoIzq extremoDer : Int) :
    List PiezaDomino → List PiezaDomino → List Acceso
  | _, [] => []
  | mano, robada :: resto =>
    if hayJugable vacio extremoIzq extremoDer mano then []
    else .pozoBack (robada :: resto).length ::
      accesosRobarDesde vacio extremoIzq extremoDer (mano ++ [robada]) resto

/-- The accesses of one pass through the menu loop (see `unaPasada`): after the
index test, `piezasMano[idx]`; when the tile is placed, `sacarPieza(idx)` and, on
a board that was not empty, `tablero.front()` and `tablero.back()` of the
message; in option `v`, after its index test, `piezasMano[idx]`; in option `s`,
`mostrarMano`. -/
def accesosPasada (extremoIzq extremoDer : Int) (e : Pasada) (m : Mesa) : List Acceso :=
  match e.opcion with
  | none => []
  | some opcion =>
    if opcion = 'p' then
      match e.idx with
      | none => []
      | some idx =>
        if idx < 0 ∨ idx ≥ (m.mano.length : Int) then []
        else
          match m.mano[idx.toNat]? with
          | none => [.manoIdx idx m.mano.length]
          | some elegida =>
            if m.tablero.isEmpty then
              [.manoIdx idx m.mano.length, .manoIdx idx m.mano.length]
            else
              match e.lado with
              | none => [.manoIdx idx m.mano.length]
              | some l =>
                let lado := l.toUpper
                if lado = 'I' then
                  if elegida.ladoDerecho = extremoIzq ∨ elegida.ladoIzquierdo = extremoIzq then
                    [.manoIdx idx m.mano.length, .manoIdx idx m.mano.length,
                     .tableroExtremo (m.tablero.length + 1),
                     .tableroExtremo (m.tablero.length + 1)]
                  else [.manoIdx idx m.mano.length]
                else if lado = 'D' then
                  if elegida.ladoIzquierdo = extremoDer ∨ elegida.ladoDerecho = extremoDer then
                    [.manoIdx idx m.mano.length, .manoIdx idx m.mano.length,
                     .tableroExtremo (m.tablero.length + 1),
                     .tableroExtremo (m.tablero.length + 1)]
                  else [.manoIdx idx m.mano.length]
                else [.manoIdx idx m.mano.length]
    else if opcion = 'v' then
      match e.idx with
      | none => []
      | some idx =>
        if idx < 0 ∨ idx ≥ (m.mano.length : Int) then []
        else [.manoIdx idx m.mano.length]
    else if opcion = 's' then accesosMostrarMano m.mano
    else []

/-- The accesses of the menu loop (see `menu`). -/
def accesosMenu (extremoIzq extremoDer : Int) : List Pasada → Mesa → List Acceso
  | [], _ => []
  | e :: resto, m =>
    accesosPasada extremoIzq extremoDer e m ++
      match unaPasada extremoIzq extremoDer e m with
      | (.retorna _, _) => []
      | (.continua, m') => accesosMenu extremoIzq extremoDer resto m'

/-- The accesses of `realizarJugada`: `mostrarMano`, the draw loop, and the menu
when the draw loop leaves with a playable tile. -/
def accesosJugada (m : Mesa) (extremoIzq extremoDer : Int) (entradas : List Pasada) :
    List Acceso :=
  accesosMostrarMano m.mano ++
  accesosRobarDesde m.tablero.isEmpty extremoIzq extremoDer m.mano m.pozo.reverse ++
  match robar m.tablero.isEmpty extremoIzq extremoDer m.mano m.pozo with
  | (false, _, _) => []
  | (true, mano, pozo) =>
    accesosMenu extremoIzq extremoDer entradas { m with mano := mano, pozo := pozo }

/-- The accesses of one pass through the turn loop of `ejecutarRonda` (see
`pasoRonda`): `jugadores[turnoActual]`; on a board that is not empty,
`tablero.front()` and `tablero.back()`; then those of `realizarJugada`. -/
def accesosTurno (r : Ronda) : List Acceso :=
  .jugadorIdx (r.turnoActual : Int) r.partida.jugadores.length ::
  match r.partida.jugadores[r.turnoActual]? with
  | none => []
  | some jugadorActual =>
    (if r.partida.tablero.isEmpty then []
     else [.tableroExtremo r.partida.tablero.length,
           .tableroExtremo r.partida.tablero.length]) ++
    accesosJugada ⟨jugadorActual.piezasMano, r.partida.tablero, r.partida.pozo⟩
      (extremos r.partida.tablero).1 (extremos r.partida.tablero).2 r.entradas

/-- The accesses of the turn loop, at most `n` turns (see `bucleRonda`). -/
def accesosBucle : Nat → Ronda → List Acceso
  | 0, _ => []
  | n + 1, r =>
    accesosTurno r ++
      match pasoRonda r with
      | .sigue r' => accesosBucle n r'
      | _ => []

/-- The accesses of `ejecutarRonda`: those of `distribuirPiezas`, then those of
the turn loop. -/
def accesosEjecutarRonda (barajar : List PiezaDomino → List PiezaDomino) (p : PartidaDomino)
    (entradas : List Pasada) : List Acceso :=
  accesosDistribuir (mezclarYPreparar barajar p) ++
  accesosBucle (cotaTurnos (rondaInicial barajar p entradas))
    (rondaInicial barajar p entradas)

end Domino

namespace Ejercicio2

/-! ## Matriz (`ejercicio_2/eje_2.cpp`) -/

/-- Class `Matriz`: the size `n` and the rows `elementos[0], .., elementos[n-1]`,
each an array of `n` values; `int` is taken in exact arithmetic. -/
structure Matriz where
  elementos : List (List Int)
  n : Nat
deriving DecidableEq, Repr

namespace Matriz

/-- The layout the constructor allocates: `n` rows of `n` values. -/
def bienFormada (m : Matriz) : Prop :=
  m.elementos.length = m.n ∧ ∀ fila ∈ m.elementos, fila.length = m.n

instance (m : Matriz) : Decidable m.bienFormada :=
  inferInstanceAs (Decidable (_ ∧ _))

/-- The constructor `Matriz(tam)`: every cell gets `rand() % 10`, row by row;
`azar` lists the values that the calls of `rand()` return. -/
def crear (tam : Nat) (azar : Nat → Int) : Matriz :=
  ⟨(List.range tam).map fun i => (List.range tam).map fun j => azar (i * tam + j) % 10, tam⟩

/-- The read `elementos[fila][columna]`. -/
def leer (m : Matriz) (fila columna : Nat) : Int :=
  (m.elementos.getD fila []).getD columna 0

/-- The write `elementos[fila][columna] = valor`. -/
def escribir (m : Matriz) (fila columna : Nat) (valor : Int) : Matriz :=
  { m with elementos := m.elementos.set fila ((m.elementos.getD fila []).set columna valor) }

/-- Method `transpuesta`; `azar` feeds the constructor of the local `t`. -/
def transpuesta (azar : Nat → Int) (m : Matriz) : Matriz :=
  let t := crear m.n azar
  (List.range m.n).foldl
    (fun t i => (List.range m.n).foldl (fun t j => t.escribir i j (m.leer j i)) t) t

/-- Method `multiplicar`; `azar` feeds the constructor of the local `resultado`. -/
def multiplicar (azar : Nat → Int) (m otra : Matriz) : Matriz :=
  let resultado := crear m.n azar
  (List.range m.n).foldl
    (fun resultado i => (List.range m.n).foldl
      (fun resultado j =>
        let suma := (List.range m.n).foldl
          (fun suma k => suma + m.leer i k * otra.leer k j) 0
        resultado.escribir i j suma) resultado) resultado

end Matriz

end Ejercicio2

namespace Ejercicio3

/-! ## Polinomio (`ejercicio_3/eje_3.cpp`) -/

/-- Class `Polinomio`: the array `terminos` of the coefficients, from the
constant one, and the degree `gradoMax`; `double` is taken in exact arithmetic,
as a rational number. -/
structure Polinomio where
  terminos : List ℚ
  gradoMax : Nat
deriving DecidableEq, Repr

/-- The array `new double[tam]`: `tam` cells with whatever values `basura` the
memory holds. -/
def nuevoArreglo (tam : Nat) (basura : Nat → ℚ) : List ℚ := (List.range tam).map basura

namespace Polinomio

/-- The layout the constructor allocates: `gradoMax + 1` coefficients. -/
def bienFormado (p : Polinomio) : Prop := p.terminos.length = p.gradoMax + 1

instance (p : Polinomio) : Decidable p.bienFormado :=
  inferInstanceAs (Decidable (_ = _))

/-- The constructor `Polinomio(grado, coeficientes)`: copies the coefficients
`0 .. grado`. -/
def crear (grado : Nat) (coeficientes : List ℚ) : Polinomio :=
  ⟨(List.range (grado + 1)).map fun i => coeficientes.getD i 0, grado⟩

/-- Method `evaluar`: `resultado += terminos[i] * pow(valorX, i)` for
`i = 0 .. gradoMax`. -/
def evaluar (p : Polinomio) (valorX : ℚ) : ℚ :=
  (List.range (p.gradoMax + 1)).foldl
    (fun resultado i => resultado + p.terminos.getD i 0 * valorX ^ i) 0

/-- The `operator+` of the class; `basura` is the content of the fresh array. -/
def add (basura : Nat → ℚ) (p otro : Polinomio) : Polinomio :=
  let nuevoGrado := max p.gradoMax otro.gradoMax
  let nuevosTerminos := (List.range (nuevoGrado + 1)).foldl
    (fun arreglo i =>
      let a := if i ≤ p.gradoMax then p.terminos.getD i 0 else 0
      let b := if i ≤ otro.gradoMax then otro.terminos.getD i 0 else 0
      arreglo.set i (a + b))
    (nuevoArreglo (nuevoGrado + 1) basura)
  crear nuevoGrado nuevosTerminos

/-- The `operator*` of the class; `basura` is the content of the fresh array. -/
def mul (basura : Nat → ℚ) (p otro : Polinomio) : Polinomio :=
  let nuevoGrado := p.gradoMax + otro.gradoMax
  let nuevosTerminos := (List.range (nuevoGrado + 1)).foldl
    (fun arreglo i => arreglo.set i 0) (nuevoArreglo (nuevoGrado + 1) basura)
  let nuevosTerminos := (List.range (p.gradoMax + 1)).foldl
    (fun arreglo i => (List.range (otro.gradoMax + 1)).foldl
      (fun arreglo j =>
        arreglo.set (i + j)
          (arreglo.getD (i + j) 0 + p.terminos.getD i 0 * otro.terminos.getD j 0))
      arreglo)
    nuevosTerminos
  crear nuevoGrado nuevosTerminos

end Polinomio

end Ejercicio3

namespace Ejercicio4

/-! ## Complejo (`ejercicio_4/eje_4.cpp`) -/

/-- Class `Complejo`: real and imaginary part; `double` is taken in exact
arithmetic, as a rational number. -/
structure Complejo where
  parteReal : ℚ
  parteImag : ℚ
deriving DecidableEq, Repr

namespace Complejo

/-- Method `conjugar`. -/
def conjugar (c : Complejo) : Complejo := ⟨c.parteReal, -c.parteImag⟩

/-- The `operator*` of the class. -/
def mul (c otro : Complejo) : Complejo :=
  let real := c.parteReal * otro.parteReal - c.parteImag * otro.parteImag
  let imag := c.parteReal * otro.parteImag + c.parteImag * otro.parteReal
  ⟨real, imag⟩

/-- The `operator/` of the class. -/
def div (c otro : Complejo) : Complejo :=
  let denominador := otro.parteReal * otro.parteReal + otro.parteImag * otro.parteImag
  let real := (c.parteReal * otro.parteReal + c.parteImag * otro.parteImag) / denominador
  let imag := (c.parteImag * otro.parteReal - c.parteReal * otro.parteImag) / denominador
  ⟨real, imag⟩

end Complejo

end Ejercicio4

namespace Ejercicio5

/-! ## CTermino and CPolinomio (`ejercicio_5/eje_5.cpp`) -/

/-- Class `CTermino`: coefficient and exponent of a term; `double` is taken in
exact arithmetic, as a rational number, and the `int` exponent without
overflow. -/
structure CTermino where
  valorCoef : ℚ
  gradoExp : Int
deriving DecidableEq, Repr

namespace CTermino

/-- Method `compararExp`. -/
def compararExp (t otro : CTermino) : Bool := t.gradoExp == otro.gradoExp

/-- Method `unir`: adds the coefficient of a term of the same exponent. -/
def unir (t otro : CTermino) : CTermino :=
  if t.compararExp otro then { t with valorCoef := t.valorCoef + otro.valorCoef } else t

/-- Method `producto`. -/
def producto (t otro : CTermino) : CTermino :=
  ⟨t.valorCoef * otro.valorCoef, t.gradoExp + otro.gradoExp⟩

end CTermino

/-- Class `CPolinomio`: the vector `listaTerminos`. -/
structure CPolinomio where
  listaTerminos : List CTermino
deriving DecidableEq, Repr

namespace CPolinomio

/-- The constructor `CPolinomio()`: the empty polynomial. -/
def vacio : CPolinomio := ⟨[]⟩

/-- Method `organizar`: `std::sort` by exponent.  The order that `std::sort`
gives to terms of equal exponent is not specified; here they keep their
order. -/
def organizar (p : CPolinomio) : CPolinomio :=
  ⟨p.listaTerminos.insertionSort fun a b => a.gradoExp ≤ b.gradoExp⟩

/-- Method `depurarCeros`: erases the terms of coefficient 0. -/
def depurarCeros (p : CPolinomio) : CPolinomio :=
  ⟨p.listaTerminos.filter fun t => !(t.valorCoef == 0)⟩

/-- The `for` of `insertarTermino`: the first term with the exponent of
`nuevoTermino` is joined with it; the flag is `encontrado`. -/
def buscarYUnir (nuevoTermino : CTermino) : List CTermino → List CTermino × Bool
  | [] => ([], false)
  | t :: resto =>
    if t.gradoExp = nuevoTermino.gradoExp then (t.unir nuevoTermino :: resto, true)
    else ((t :: (buscarYUnir nuevoTermino resto).1), (buscarYUnir nuevoTermino resto).2)

/-- Method `insertarTermino`. -/
def insertarTermino (p : CPolinomio) (nuevoTermino : CTermino) : CPolinomio :=
  if nuevoTermino.valorCoef = 0 then p
  else
    let r := buscarYUnir nuevoTermino p.listaTerminos
    let lista := if r.2 then r.1 else r.1 ++ [nuevoTermino]
    depurarCeros (organizar ⟨lista⟩)

/-- Method `sumar`. -/
def sumar (p otroPoli : CPolinomio) : CPolinomio :=
  otroPoli.listaTerminos.foldl (fun resultado t => resultado.insertarTermino t) p

/-- Method `multiplicar`. -/
def multiplicar (p otroPoli : CPolinomio) : CPolinomio :=
  let resultadoFinal := p.listaTerminos.foldl
    (fun resultadoFinal a => otroPoli.listaTerminos.foldl
      (fun resultadoFinal b => resultadoFinal.insertarTermino (a.producto b)) resultadoFinal)
    vacio
  depurarCeros (organizar resultadoFinal)

/-- The coefficient of `x^e`: the sum of the coefficients of the terms with the
exponent `e` (at most one term in canonical form, none if the power is absent). -/
def coeficiente (p : CPolinomio) (e : Int) : ℚ :=
  ((p.listaTerminos.filter fun t => t.gradoExp == e).map CTermino.valorCoef).sum

/-- Canonical form: exponents strictly increasing, no coefficient 0. -/
def canonico (p : CPolinomio) : Prop :=
  (p.listaTerminos.Pairwise fun a b => a.gradoExp < b.gradoExp) ∧
  ∀ t ∈ p.listaTerminos, t.valorCoef ≠ 0

/-- The polynomials that the calls of `insertarTermino`, `sumar` and
`multiplicar` produce from the empty polynomial. -/
inductive Alcanzable : CPolinomio → Prop
  | vacio : Alcanzable vacio
  | insertarTermino (p : CPolinomio) (t : CTermino) : Alcanzable p →
      Alcanzable (p.insertarTermino t)
  | sumar (p q : CPolinomio) : Alcanzable p → Alcanzable q → Alcanzable (p.sumar q)
  | multiplicar (p q : CPolinomio) : Alcanzable p → Alcanzable q →
      Alcanzable (p.multiplicar q)

end CPolinomio

end Ejercicio5

namespace Domino

/-! # Properties

## One pass of the menu, the menu, the turn -/

/-- The three ways a pass through the menu can end: nothing changed and the loop
goes on; a voluntary pass with nothing changed; or one tile of the hand put on
the board at one end. -/
theorem unaPasada_casos (eI eD : Int) (e : Pasada) (m : Mesa) :
    unaPasada eI eD e m = (.continua, m) ∨
    (unaPasada eI eD e m = (.retorna false, m) ∧ e.opcion = some 'x') ∨
    ∃ (i : Nat) (elegida puesta : PiezaDomino),
      m.mano[i]? = some elegida ∧ e.opcion = some 'p' ∧ e.idx = some (i : Int) ∧
      ((m.tablero = [] ∧ puesta = elegida ∧
          unaPasada eI eD e m = (.retorna true, ⟨m.mano.eraseIdx i, [elegida], m.pozo⟩)) ∨
       (m.tablero ≠ [] ∧ (∃ l, e.lado = some l ∧ l.toUpper = 'I') ∧ puesta.ladoDerecho = eI ∧
          ((elegida.ladoDerecho = eI ∧ puesta = elegida) ∨
           (elegida.ladoDerecho ≠ eI ∧ elegida.ladoIzquierdo = eI ∧ puesta = elegida.voltear)) ∧
          unaPasada eI eD e m = (.retorna true, ⟨m.mano.eraseIdx i, puesta :: m.tablero, m.pozo⟩)) ∨
       (m.tablero ≠ [] ∧ (∃ l, e.lado = some l ∧ l.toUpper = 'D') ∧ puesta.ladoIzquierdo = eD ∧
          ((elegida.ladoIzquierdo = eD ∧ puesta = elegida) ∨
           (elegida.ladoIzquierdo ≠ eD ∧ elegida.ladoDerecho = eD ∧ puesta = elegida.voltear)) ∧
          unaPasada eI eD e m = (.retorna true, ⟨m.mano.eraseIdx i, m.tablero ++ [puesta], m.pozo⟩))) := by
  obtain ⟨mano, tablero, pozo⟩ := m
  obtain ⟨opcion, idx, lado⟩ := e
  unfold unaPasada
  cases opcion with
  | none => left; rfl
  | some c =>
    dsimp only
    by_cases hp : c = 'p'
    · subst hp
      rw [if_pos rfl]
      cases idx with
      | none => left; rfl
      | some n =>
        dsimp only
        by_cases hr : n < 0 ∨ n ≥ (mano.length : Int)
        · rw [if_pos hr]; left; rfl
        · rw [if_neg hr]
          push_neg at hr
          obtain ⟨i, rfl⟩ := Int.eq_ofNat_of_zero_le hr.1
          have hi : i < mano.length := by exact_mod_cast hr.2
          rw [show ((i : Int)).toNat = i from Int.toNat_ofNat i]
          rw [List.getElem?_eq_getElem hi]
          dsimp only
          cases tablero with
          | nil =>
            right; right
            exact ⟨i, mano[i], mano[i], List.getElem?_eq_getElem hi, rfl, rfl, Or.inl ⟨rfl, rfl, rfl⟩⟩
          | cons t ts =>
            rw [show (Mesa.mk mano (t :: ts) pozo).tablero.isEmpty = false from rfl,
              if_neg Bool.false_ne_true]
            cases lado with
            | none => left; rfl
            | some l =>
              dsimp only
              by_cases hI : l.toUpper = 'I'
              · rw [if_pos hI]
                by_cases h1 : mano[i].ladoDerecho = eI
                · rw [if_pos h1]
                  right; right
                  exact ⟨i, mano[i], mano[i], List.getElem?_eq_getElem hi, rfl, rfl,
                    Or.inr (Or.inl ⟨by simp, ⟨l, rfl, hI⟩, h1, Or.inl ⟨h1, rfl⟩, rfl⟩)⟩
                · rw [if_neg h1]
                  by_cases h2 : mano[i].ladoIzquierdo = eI
                  · rw [if_pos h2]
                    right; right
                    exact ⟨i, mano[i], mano[i].voltear, List.getElem?_eq_getElem hi, rfl, rfl,
                      Or.inr (Or.inl ⟨by simp, ⟨l, rfl, hI⟩, h2, Or.inr ⟨h1, h2, rfl⟩, rfl⟩)⟩
                  · rw [if_neg h2]; left; rfl
              · rw [if_neg hI]
                by_cases hD : l.toUpper = 'D'
                · rw [if_pos hD]
                  by_cases h1 : mano[i].ladoIzquierdo = eD
                  · rw [if_pos h1]
                    right; right
                    exact ⟨i, mano[i], mano[i], List.getElem?_eq_getElem hi, rfl, rfl,
                      Or.inr (Or.inr ⟨by simp, ⟨l, rfl, hD⟩, h1, Or.inl ⟨h1, rfl⟩, rfl⟩)⟩
                  · rw [if_neg h1]
                    by_cases h2 : mano[i].ladoDerecho = eD
                    · rw [if_pos h2]
                      right; right
                      exact ⟨i, mano[i], mano[i].voltear, List.getElem?_eq_getElem hi, rfl, rfl,
                        Or.inr (Or.inr ⟨by simp, ⟨l, rfl, hD⟩, h2, Or.inr ⟨h1, h2, rfl⟩, rfl⟩)⟩
                    · rw [if_neg h2]; left; rfl
                · rw [if_neg hD]; left; rfl
    · rw [if_neg hp]
      by_cases hv : c = 'v'
      · rw [if_pos hv]; left; rfl
      · rw [if_neg hv]
        by_cases hs : c = 's'
        · rw [if_pos hs]; left; rfl
        · rw [if_neg hs]
          by_cases hx : c = 'x'
          · rw [if_pos hx]; right; left; exact ⟨rfl, by rw [hx]⟩
          · rw [if_neg hx]; left; rfl

/-- A returning menu stops at the first pass that returns; the passes before it
are consumed and the rest of the input is handed back. -/
theorem menu_some {eI eD : Int} {entradas : List Pasada} {m : Mesa} {b : Bool} {m' : Mesa}
    {resto : List Pasada} (h : menu eI eD entradas m = some (b, m', resto)) :
    ∃ pre e, entradas = pre ++ e :: resto ∧ unaPasada eI eD e m = (.retorna b, m') := by
  induction entradas with
  | nil => simp [menu] at h
  | cons e es ih =>
    rcases unaPasada_casos eI eD e m with hc | ⟨hc, _⟩ | ⟨i, el, pu, _, _, _, hc⟩
    · rw [menu, hc] at h
      obtain ⟨pre, e', hes, he'⟩ := ih h
      exact ⟨e :: pre, e', by rw [hes]; rfl, he'⟩
    · rw [menu, hc] at h
      simp only [Option.some.injEq, Prod.mk.injEq] at h
      obtain ⟨rfl, rfl, rfl⟩ := h
      exact ⟨[], e, rfl, hc⟩
    · rcases hc with ⟨_, _, hc⟩ | ⟨_, _, _, _, hc⟩ | ⟨_, _, _, _, hc⟩ <;>
      · rw [menu, hc] at h
        simp only [Option.some.injEq, Prod.mk.injEq] at h
        obtain ⟨rfl, rfl, rfl⟩ := h
        exact ⟨[], e, rfl, hc⟩

/-- The draw loop on the pool listed back to front: it takes the first `k` tiles,
`k` least with a playable tile in the hand, or all of them. -/
theorem robarDesde_spec (v : Bool) (eI eD : Int) (inv mano : List PiezaDomino) :
    ∃ k, k ≤ inv.length ∧
      robarDesde v eI eD mano inv =
        (hayJugable v eI eD (mano ++ inv.take k), mano ++ inv.take k, inv.drop k) ∧
      (∀ k', k' < k → hayJugable v eI eD (mano ++ inv.take k') = false) ∧
      (hayJugable v eI eD (mano ++ inv.take k) = false → k = inv.length) := by
  induction inv generalizing mano with
  | nil => exact ⟨0, le_refl _, by simp [robarDesde], by simp, fun _ => rfl⟩
  | cons t ts ih =>
    by_cases hj : hayJugable v eI eD mano = true
    · refine ⟨0, Nat.zero_le _, ?_, by simp, ?_⟩
      · simp [robarDesde, hj]
      · simp [hj]
    · obtain ⟨k, hk, hr, hmin, hall⟩ := ih (mano ++ [t])
      refine ⟨k + 1, by simpa using hk, ?_, ?_, ?_⟩
      · rw [robarDesde, if_neg hj, hr]
        simp
      · intro k' hk'
        cases k' with
        | zero => simpa using hj
        | succ n =>
          have := hmin n (by omega)
          simpa using this
      · intro hf
        have : k = ts.length := hall (by simpa using hf)
        simp [this]

/-- The draw phase: `k` tiles go from the back of the pool to the end of the hand,
`k` least with a playable tile in the hand, or the whole pool. -/
theorem robar_spec (v : Bool) (eI eD : Int) (mano pozo : List PiezaDomino) :
    ∃ k, k ≤ pozo.length ∧
      robar v eI eD mano pozo =
        (hayJugable v eI eD (mano ++ pozo.reverse.take k), mano ++ pozo.reverse.take k,
          pozo.take (pozo.length - k)) ∧
      (∀ k', k' < k → hayJugable v eI eD (mano ++ pozo.reverse.take k') = false) ∧
      (hayJugable v eI eD (mano ++ pozo.reverse.take k) = false → k = pozo.length) := by
  obtain ⟨k, hk, hr, hmin, hall⟩ := robarDesde_spec v eI eD pozo.reverse mano
  rw [List.length_reverse] at hk hall
  refine ⟨k, hk, ?_, hmin, hall⟩
  unfold robar
  rw [hr]
  simp only [Prod.mk.injEq, true_and]
  rw [List.drop_reverse, List.reverse_reverse]

/-- The two ways `realizarJugada` returns: a forced pass after the whole pool was
drawn, with no input consumed; or the draw phase stopped at the first playable
tile and a pass of the menu returned. -/
theorem realizarJugada_casos {m : Mesa} {eI eD : Int} {entradas : List Pasada} {b : Bool}
    {m' : Mesa} {resto : List Pasada}
    (h : realizarJugada m eI eD entradas = some (b, m', resto)) :
    ∃ k, (k ≤ m.pozo.length ∧
        robar m.tablero.isEmpty eI eD m.mano m.pozo =
          (hayJugable m.tablero.isEmpty eI eD (trasRobar m k).mano,
            (trasRobar m k).mano, (trasRobar m k).pozo)) ∧
      (∀ k', k' < k → hayJugable m.tablero.isEmpty eI eD (trasRobar m k').mano = false) ∧
      ((hayJugable m.tablero.isEmpty eI eD (trasRobar m k).mano = false ∧ k = m.pozo.length ∧
          b = false ∧ m' = trasRobar m k ∧ resto = entradas) ∨
       (hayJugable m.tablero.isEmpty eI eD (trasRobar m k).mano = true ∧
          ∃ pre e, entradas = pre ++ e :: resto ∧
            unaPasada eI eD e (trasRobar m k) = (.retorna b, m'))) := by
  obtain ⟨k, hk, hr, hmin, hall⟩ := robar_spec m.tablero.isEmpty eI eD m.mano m.pozo
  refine ⟨k, ⟨hk, hr⟩, hmin, ?_⟩
  unfold realizarJugada at h
  rw [hr] at h
  cases hj : hayJugable m.tablero.isEmpty eI eD (m.mano ++ m.pozo.reverse.take k) with
  | false =>
    rw [hj] at h
    simp only [Option.some.injEq, Prod.mk.injEq] at h
    obtain ⟨rfl, rfl, rfl⟩ := h
    exact Or.inl ⟨hj, hall hj, rfl, rfl, rfl⟩
  | true =>
    rw [hj] at h
    exact Or.inr ⟨hj, menu_some h⟩

/-- The open ends handed to the turn are the left pip of the first tile and the
right pip of the last one. -/
theorem extremos_spec (tablero : List PiezaDomino) :
    (∀ y ∈ tablero.head?, y.ladoIzquierdo = (extremos tablero).1) ∧
    (∀ x ∈ tablero.getLast?, x.ladoDerecho = (extremos tablero).2) := by
  cases tablero with
  | nil => simp
  | cons t ts =>
    have hl : (t :: ts).getLast? = some ((t :: ts).getLast (by simp)) :=
      List.getLast?_eq_getLast _ _
    constructor
    · intro y hy
      simp only [List.head?_cons, Option.mem_def, Option.some.injEq] at hy
      subst hy
      simp only [extremos, List.head?_cons, hl]
    · intro x hx
      rw [hl] at hx
      simp only [Option.mem_def, Option.some.injEq] at hx
      subst hx
      simp only [extremos, List.head?_cons, hl]

/-- The check `encadenado` is the chain condition on neighbouring tiles. -/
theorem encadenado_iff (tablero : List PiezaDomino) :
    encadenado tablero = true ↔
      tablero.Chain' fun a b => a.ladoDerecho = b.ladoIzquierdo := by
  induction tablero with
  | nil => simp [encadenado]
  | cons a resto ih =>
    cases resto with
    | nil => simp [encadenado]
    | cons b resto =>
      rw [encadenado, Bool.and_eq_true, ih, List.chain'_cons]
      simp

/-- A returning pass of the menu keeps the board chained when it is given the real
open ends. -/
theorem unaPasada_encadenado {e : Pasada} {m m' : Mesa} {b : Bool}
    (hinv : encadenado m.tablero)
    (h : unaPasada (extremos m.tablero).1 (extremos m.tablero).2 e m = (.retorna b, m')) :
    encadenado m'.tablero := by
  rw [encadenado_iff] at hinv ⊢
  obtain ⟨hI, hD⟩ := extremos_spec m.tablero
  rcases unaPasada_casos (extremos m.tablero).1 (extremos m.tablero).2 e m with
    hc | ⟨hc, _⟩ | ⟨i, el, pu, _, _, _, hc⟩
  · rw [hc] at h; simp at h
  · rw [hc] at h
    simp only [Prod.mk.injEq] at h
    rw [← h.2]; exact hinv
  · rcases hc with ⟨_, _, hc⟩ | ⟨_, _, hp, _, hc⟩ | ⟨_, _, hp, _, hc⟩
    · rw [hc] at h
      simp only [Prod.mk.injEq] at h
      rw [← h.2]; exact List.chain'_singleton _
    · rw [hc] at h
      simp only [Prod.mk.injEq] at h
      rw [← h.2]
      exact List.Chain'.cons' hinv (fun y hy => by rw [hp, hI y hy])
    · rw [hc] at h
      simp only [Prod.mk.injEq] at h
      rw [← h.2]
      refine List.Chain'.append hinv (List.chain'_singleton _) ?_
      intro x hx y hy
      simp only [List.head?_cons, Option.mem_def, Option.some.injEq] at hy
      subst hy
      rw [hp, hD x hx]

/-- The method `realizarJugada` keeps the board chained when it is given the real
open ends, whatever it returns. -/
theorem realizarJugada_encadenado {m m' : Mesa} {entradas resto : List Pasada} {b : Bool}
    (hinv : encadenado m.tablero)
    (h : realizarJugada m (extremos m.tablero).1 (extremos m.tablero).2 entradas
      = some (b, m', resto)) :
    encadenado m'.tablero := by
  obtain ⟨k, _, _, hc | ⟨_, pre, e, _, hc⟩⟩ := realizarJugada_casos h
  · rw [hc.2.2.2.1]; exact hinv
  · exact unaPasada_encadenado (m := trasRobar m k) hinv hc

/-! ## The turn loop -/

/-- The outcomes of one turn of the round, read off `pasoRonda`. -/
theorem pasoRonda_casos (r : Ronda) :
    (r.partida.jugadores[r.turnoActual]? = none ∧ pasoRonda r = .indefinido) ∨
    (∃ j, r.partida.jugadores[r.turnoActual]? = some j ∧
        realizarJugada ⟨j.piezasMano, r.partida.tablero, r.partida.pozo⟩
          (extremos r.partida.tablero).1 (extremos r.partida.tablero).2 r.entradas = none ∧
        pasoRonda r = .espera) ∨
    ∃ j b m resto, r.partida.jugadores[r.turnoActual]? = some j ∧
      realizarJugada ⟨j.piezasMano, r.partida.tablero, r.partida.pozo⟩
        (extremos r.partida.tablero).1 (extremos r.partida.tablero).2 r.entradas
        = some (b, m, resto) ∧
      ((b = true ∧ m.mano = [] ∧
          pasoRonda r = .fin (.gano j.nombre) (trasJugada r.partida r.turnoActual j m) resto) ∨
       (¬(b = true ∧ m.mano = []) ∧
          (if b = true then 0 else r.pasesConsecutivos + 1) ≥ r.partida.totalJugadores ∧
          pasoRonda r = .fin .bloqueo (trasJugada r.partida r.turnoActual j m) resto) ∨
       (¬(b = true ∧ m.mano = []) ∧
          (if b = true then 0 else r.pasesConsecutivos + 1) < r.partida.totalJugadores ∧
          pasoRonda r = .sigue ⟨trasJugada r.partida r.turnoActual j m,
            (r.turnoActual + 1) % r.partida.totalJugadores,
            (if b = true then 0 else r.pasesConsecutivos + 1), resto⟩)) := by
  unfold pasoRonda
  cases hj : r.partida.jugadores[r.turnoActual]? with
  | none => left; exact ⟨rfl, rfl⟩
  | some j =>
    right
    dsimp only
    cases hr : realizarJugada ⟨j.piezasMano, r.partida.tablero, r.partida.pozo⟩
        (extremos r.partida.tablero).1 (extremos r.partida.tablero).2 r.entradas with
    | none => left; exact ⟨j, rfl, hr, rfl⟩
    | some x =>
      obtain ⟨b, m, resto⟩ := x
      right
      refine ⟨j, b, m, resto, rfl, hr, ?_⟩
      dsimp only
      by_cases hw : b = true ∧ m.mano = []
      · left
        refine ⟨hw.1, hw.2, ?_⟩
        rw [if_pos ⟨hw.1, by rw [hw.2]; rfl⟩]
      · right
        have hw' : ¬(b = true ∧ m.mano.length = 0) := by
          rw [List.length_eq_zero]; exact hw
        rw [if_neg hw']
        by_cases hb : (if b = true then 0 else r.pasesConsecutivos + 1) ≥ r.partida.totalJugadores
        · left; exact ⟨hw, hb, by rw [if_pos hb]⟩
        · right; exact ⟨hw, by omega, by rw [if_neg hb]⟩

/-- A turn that lets the round go on: the data of the next state. -/
theorem pasoRonda_sigue {r r' : Ronda} (h : pasoRonda r = .sigue r') :
    ∃ j b m resto, r.partida.jugadores[r.turnoActual]? = some j ∧
      realizarJugada ⟨j.piezasMano, r.partida.tablero, r.partida.pozo⟩
        (extremos r.partida.tablero).1 (extremos r.partida.tablero).2 r.entradas
        = some (b, m, resto) ∧
      ¬(b = true ∧ m.mano = []) ∧
      (if b = true then 0 else r.pasesConsecutivos + 1) < r.partida.totalJugadores ∧
      r' = ⟨trasJugada r.partida r.turnoActual j m,
            (r.turnoActual + 1) % r.partida.totalJugadores,
            (if b = true then 0 else r.pasesConsecutivos + 1), resto⟩ := by
  rcases pasoRonda_casos r with ⟨_, hc⟩ | ⟨_, _, _, hc⟩ | ⟨j, b, m, resto, hj, hr, hc⟩
  · rw [hc] at h; cases h
  · rw [hc] at h; cases h
  · rcases hc with ⟨_, _, hc⟩ | ⟨_, _, hc⟩ | ⟨hw, hlt, hc⟩
    · rw [hc] at h; cases h
    · rw [hc] at h; cases h
    · rw [hc] at h
      injection h with h
      exact ⟨j, b, m, resto, hj, hr, hw, hlt, h.symm⟩

/-- A turn that ends the round: the data of the final state. -/
theorem pasoRonda_fin {r : Ronda} {f : FinRonda} {p : PartidaDomino} {resto : List Pasada}
    (h : pasoRonda r = .fin f p resto) :
    ∃ j b m, r.partida.jugadores[r.turnoActual]? = some j ∧
      realizarJugada ⟨j.piezasMano, r.partida.tablero, r.partida.pozo⟩
        (extremos r.partida.tablero).1 (extremos r.partida.tablero).2 r.entradas
        = some (b, m, resto) ∧
      p = trasJugada r.partida r.turnoActual j m ∧
      ((b = true ∧ m.mano = [] ∧ f = .gano j.nombre) ∨
       (¬(b = true ∧ m.mano = []) ∧
          (if b = true then 0 else r.pasesConsecutivos + 1) ≥ r.partida.totalJugadores ∧
          f = .bloqueo)) := by
  rcases pasoRonda_casos r with ⟨_, hc⟩ | ⟨_, _, _, hc⟩ | ⟨j, b, m, resto', hj, hr, hc⟩
  · rw [hc] at h; cases h
  · rw [hc] at h; cases h
  · rcases hc with ⟨hb, hm, hc⟩ | ⟨hw, hge, hc⟩ | ⟨_, _, hc⟩
    · rw [hc] at h
      injection h with h1 h2 h3
      subst h3
      exact ⟨j, b, m, hj, hr, h2.symm, Or.inl ⟨hb, hm, h1.symm⟩⟩
    · rw [hc] at h
      injection h with h1 h2 h3
      subst h3
      exact ⟨j, b, m, hj, hr, h2.symm, Or.inr ⟨hw, hge, h1.symm⟩⟩
    · rw [hc] at h; cases h

/-- One more turn after `t` turns. -/
theorem avanzar_succ {t : Nat} {r0 r' : Ronda} (h : avanzar (t + 1) r0 = some r') :
    ∃ r, avanzar t r0 = some r ∧ pasoRonda r = .sigue r' := by
  rw [avanzar] at h
  cases ha : avanzar t r0 with
  | none => rw [ha] at h; cases h
  | some r =>
    rw [ha] at h
    dsimp only at h
    cases hp : pasoRonda r with
    | sigue r'' =>
      rw [hp] at h
      injection h with h
      exact ⟨r, rfl, by rw [← h]; exact hp⟩
    | fin f p e => rw [hp] at h; cases h
    | espera => rw [hp] at h; cases h
    | indefinido => rw [hp] at h; cases h

/-- A property of the game state that every call of `realizarJugada` made by the
round preserves holds after any number of turns. -/
theorem avanzar_invariante (P : PartidaDomino → Prop)
    (hpaso : ∀ (p : PartidaDomino) (turno : Nat) (j : Participante) (entradas : List Pasada)
      (b : Bool) (m : Mesa) (resto : List Pasada), P p → p.jugadores[turno]? = some j →
      realizarJugada ⟨j.piezasMano, p.tablero, p.pozo⟩ (extremos p.tablero).1
        (extremos p.tablero).2 entradas = some (b, m, resto) →
      P (trasJugada p turno j m))
    {t : Nat} {r0 r : Ronda} (h0 : P r0.partida) (h : avanzar t r0 = some r) : P r.partida := by
  induction t generalizing r with
  | zero =>
    rw [avanzar] at h
    injection h with h
    rw [← h]; exact h0
  | succ n ih =>
    obtain ⟨r1, h1, hp⟩ := avanzar_succ h
    obtain ⟨j, b, m, resto, hj, hr, _, _, rfl⟩ := pasoRonda_sigue hp
    exact hpaso _ _ _ _ _ _ _ (ih h1) hj hr

/-- Such a property also holds in the state with which the round returns. -/
theorem pasoRonda_fin_invariante (P : PartidaDomino → Prop)
    (hpaso : ∀ (p : PartidaDomino) (turno : Nat) (j : Participante) (entradas : List Pasada)
      (b : Bool) (m : Mesa) (resto : List Pasada), P p → p.jugadores[turno]? = some j →
      realizarJugada ⟨j.piezasMano, p.tablero, p.pozo⟩ (extremos p.tablero).1
        (extremos p.tablero).2 entradas = some (b, m, resto) →
      P (trasJugada p turno j m))
    {r : Ronda} {f : FinRonda} {p : PartidaDomino} {resto : List Pasada}
    (h0 : P r.partida) (h : pasoRonda r = .fin f p resto) : P p := by
  obtain ⟨j, b, m, hj, hr, rfl, _⟩ := pasoRonda_fin h
  exact hpaso _ _ _ _ _ _ _ h0 hj hr

/-! ## C1: adjacency of the board -/

/-- Every call of `realizarJugada` made by the round keeps the board chained. -/
theorem encadenado_paso (p : PartidaDomino) (turno : Nat) (j : Participante)
    (entradas : List Pasada) (b : Bool) (m : Mesa) (resto : List Pasada)
    (hinv : encadenado p.tablero) (_hj : p.jugadores[turno]? = some j)
    (h : realizarJugada ⟨j.piezasMano, p.tablero, p.pozo⟩ (extremos p.tablero).1
        (extremos p.tablero).2 entradas = some (b, m, resto)) :
    encadenado (trasJugada p turno j m).tablero :=
  realizarJugada_encadenado (m := ⟨j.piezasMano, p.tablero, p.pozo⟩) hinv h

/-- C1: board adjacency is preserved by every successful placement.  If each tile
of the board has its right pip equal to the left pip of its right neighbour and
`realizarJugada` is called with the real open ends of the board (as
`ejecutarRonda` computes them) and returns `true`, the resulting board is chained
again; consequently the board is chained after any number of turns of a round,
and in the state with which the round returns. -/
theorem C1_adyacencia_preservada :
    (∀ (m m' : Mesa) (entradas resto : List Pasada),
      encadenado m.tablero →
      realizarJugada m (extremos m.tablero).1 (extremos m.tablero).2 entradas
        = some (true, m', resto) →
      encadenado m'.tablero) ∧
    (∀ (barajar : List PiezaDomino → List PiezaDomino) (p : PartidaDomino)
      (entradas : List Pasada) (t : Nat) (r : Ronda),
      avanzar t (rondaInicial barajar p entradas) = some r →
      encadenado r.partida.tablero ∧
      ∀ (f : FinRonda) (p' : PartidaDomino) (resto : List Pasada),
        pasoRonda r = .fin f p' resto → encadenado p'.tablero) := by
  refine ⟨fun m m' entradas resto hinv h => realizarJugada_encadenado hinv h, ?_⟩
  intro barajar p entradas t r h
  have h0 : encadenado (rondaInicial barajar p entradas).partida.tablero := rfl
  have hr : encadenado r.partida.tablero :=
    avanzar_invariante (fun q => encadenado q.tablero) encadenado_paso h0 h
  exact ⟨hr, fun f p' resto hf =>
    pasoRonda_fin_invariante (fun q => encadenado q.tablero) encadenado_paso hr hf⟩

/-- C1 at a concrete turn: on the board `[1|2]` the tile `[1|5]` is put on the
left, flipped, and the board `[5|1][1|2]` is chained. -/
theorem C1_adyacencia_preservada_witness :
    encadenado [⟨1, 2⟩] ∧
    realizarJugada ⟨[⟨1, 5⟩], [⟨1, 2⟩], []⟩ (extremos [⟨1, 2⟩]).1 (extremos [⟨1, 2⟩]).2
      [⟨some 'p', some 0, some 'i'⟩] = some (true, ⟨[], [⟨5, 1⟩, ⟨1, 2⟩], []⟩, []) ∧
    encadenado [⟨5, 1⟩, ⟨1, 2⟩] :=
  ⟨by decide, by decide,
    C1_adyacencia_preservada.1 ⟨[⟨1, 5⟩], [⟨1, 2⟩], []⟩ ⟨[], [⟨5, 1⟩, ⟨1, 2⟩], []⟩
      [⟨some 'p', some 0, some 'i'⟩] [] (by decide) (by decide)⟩

/-! ## C2: tile conservation -/

theorem canonica_voltear (p : PiezaDomino) : p.voltear.canonica = p.canonica := by
  obtain ⟨a, b⟩ := p
  simp only [PiezaDomino.canonica, PiezaDomino.voltear]
  by_cases h1 : a ≤ b
  · by_cases h2 : b ≤ a
    · have : a = b := le_antisymm h1 h2
      subst this; simp
    · simp [h1, h2]
  · have h2 : b ≤ a := by omega
    simp [h1, h2]

/-- Taking the tile at a valid index out of a list. -/
theorem perm_cons_eraseIdx {α : Type} {l : List α} {i : Nat} {a : α} (h : l[i]? = some a) :
    l.Perm (a :: l.eraseIdx i) := by
  induction l generalizing i with
  | nil => simp at h
  | cons x xs ih =>
    cases i with
    | zero =>
      simp only [List.getElem?_cons_zero, Option.some.injEq] at h
      subst h; simp
    | succ n =>
      simp only [List.getElem?_cons_succ] at h
      simp only [List.eraseIdx_cons_succ]
      exact ((ih h).cons x).trans (List.Perm.swap a x _)

/-- The draw phase only moves tiles from the pool to the hand. -/
theorem trasRobar_perm (m : Mesa) (k : Nat) :
    ((trasRobar m k).mano ++ (trasRobar m k).pozo).Perm (m.mano ++ m.pozo) := by
  unfold trasRobar
  dsimp only
  rw [List.take_reverse, List.append_assoc]
  refine List.Perm.append_left _ ?_
  refine ((List.reverse_perm _).append_right _).trans ?_
  refine List.perm_append_comm.trans ?_
  rw [List.take_append_drop]

theorem trasRobar_tablero (m : Mesa) (k : Nat) : (trasRobar m k).tablero = m.tablero := rfl

/-- A pass through the menu keeps the tiles of hand and board together, up to
orientation, and does not touch the pool. -/
theorem unaPasada_conserva {eI eD : Int} {e : Pasada} {m m' : Mesa} {ef : Efecto}
    (h : unaPasada eI eD e m = (ef, m')) :
    ((m'.mano ++ m'.tablero).map PiezaDomino.canonica).Perm
      ((m.mano ++ m.tablero).map PiezaDomino.canonica) ∧ m'.pozo = m.pozo := by
  rcases unaPasada_casos eI eD e m with hc | ⟨hc, _⟩ | ⟨i, el, pu, hi, _, _, hc⟩
  · rw [hc] at h
    simp only [Prod.mk.injEq] at h
    rw [← h.2]; exact ⟨List.Perm.refl _, rfl⟩
  · rw [hc] at h
    simp only [Prod.mk.injEq] at h
    rw [← h.2]; exact ⟨List.Perm.refl _, rfl⟩
  · have hmano := (perm_cons_eraseIdx hi).map PiezaDomino.canonica
    rcases hc with ⟨ht, _, hc⟩ | ⟨_, _, _, hpu, hc⟩ | ⟨_, _, _, hpu, hc⟩
    · rw [hc] at h
      simp only [Prod.mk.injEq] at h
      rw [← h.2, ht]
      refine ⟨?_, rfl⟩
      simp only [List.map_append, List.map_cons, List.map_nil, List.append_nil]
      exact (List.perm_append_comm.trans (by simpa using hmano.symm))
    · have hcan : pu.canonica = el.canonica := by
        rcases hpu with ⟨_, rfl⟩ | ⟨_, _, rfl⟩
        · rfl
        · exact canonica_voltear el
      rw [hc] at h
      simp only [Prod.mk.injEq] at h
      rw [← h.2]
      refine ⟨?_, rfl⟩
      simp only [List.map_append, List.map_cons, hcan]
      refine List.perm_middle.trans ?_
      rw [← List.cons_append]
      exact List.Perm.append_right _ (by simpa using hmano.symm)
    · have hcan : pu.canonica = el.canonica := by
        rcases hpu with ⟨_, rfl⟩ | ⟨_, _, rfl⟩
        · rfl
        · exact canonica_voltear el
      rw [hc] at h
      simp only [Prod.mk.injEq] at h
      rw [← h.2]
      refine ⟨?_, rfl⟩
      simp only [List.map_append, List.map_cons, List.map_nil, hcan]
      rw [← List.append_assoc]
      refine List.perm_append_comm.trans ?_
      simp only [List.singleton_append]
      refine List.Perm.trans ?_ (List.Perm.append_right _ hmano.symm)
      simp

/-- The method `realizarJugada` keeps the tiles of hand, board and pool together,
up to orientation. -/
theorem realizarJugada_conserva {m m' : Mesa} {eI eD : Int} {entradas resto : List Pasada}
    {b : Bool} (h : realizarJugada m eI eD entradas = some (b, m', resto)) :
    ((m'.mano ++ m'.tablero ++ m'.pozo).map PiezaDomino.canonica).Perm
      ((m.mano ++ m.tablero ++ m.pozo).map PiezaDomino.canonica) := by
  have hrob : ∀ k, (((trasRobar m k).mano ++ (trasRobar m k).tablero ++
      (trasRobar m k).pozo).map PiezaDomino.canonica).Perm
      ((m.mano ++ m.tablero ++ m.pozo).map PiezaDomino.canonica) := by
    intro k
    refine List.Perm.map _ ?_
    have := trasRobar_perm m k
    rw [trasRobar_tablero]
    refine (List.perm_append_comm.append_right _).trans ?_
    rw [List.append_assoc]
    refine (List.Perm.append_left _ this).trans ?_
    rw [← List.append_assoc]
    exact List.perm_append_comm.append_right _
  obtain ⟨k, _, _, hc | ⟨_, pre, e, _, hc⟩⟩ := realizarJugada_casos h
  · rw [hc.2.2.2.1]; exact hrob k
  · obtain ⟨h1, h2⟩ := unaPasada_conserva hc
    refine List.Perm.trans ?_ (hrob k)
    rw [List.map_append, List.map_append _ (_ ++ _), h2]
    exact List.Perm.append_right _ h1

/-- The hands of the players split into the hand of the player at a valid index
and the others; replacing that player only replaces that hand. -/
theorem manos_set {js : List Participante} {i : Nat} {j : Participante}
    (h : js[i]? = some j) :
    ∃ otras : List PiezaDomino, (manos js).Perm (j.piezasMano ++ otras) ∧
      ∀ j' : Participante, (manos (js.set i j')).Perm (j'.piezasMano ++ otras) := by
  induction js generalizing i with
  | nil => simp at h
  | cons x xs ih =>
    cases i with
    | zero =>
      simp only [List.getElem?_cons_zero, Option.some.injEq] at h
      subst h
      exact ⟨manos xs, by simp [manos], fun j' => by simp [manos]⟩
    | succ n =>
      simp only [List.getElem?_cons_succ] at h
      obtain ⟨otras, h1, h2⟩ := ih h
      refine ⟨x.piezasMano ++ otras, ?_, fun j' => ?_⟩
      · simp only [manos, List.flatMap_cons] at h1 ⊢
        refine (List.Perm.append_left _ h1).trans ?_
        rw [← List.append_assoc, ← List.append_assoc]
        exact List.perm_append_comm.append_right _
      · have := h2 j'
        simp only [manos, List.flatMap_cons, List.set_cons_succ] at this ⊢
        refine (List.Perm.append_left _ this).trans ?_
        rw [← List.append_assoc, ← List.append_assoc]
        exact List.perm_append_comm.append_right _

/-- Every call of `realizarJugada` made by the round conserves the tiles. -/
theorem conserva_paso (p : PartidaDomino) (turno : Nat) (j : Participante)
    (entradas : List Pasada) (b : Bool) (m : Mesa) (resto : List Pasada)
    (hinv : conserva p) (hj : p.jugadores[turno]? = some j)
    (h : realizarJugada ⟨j.piezasMano, p.tablero, p.pozo⟩ (extremos p.tablero).1
        (extremos p.tablero).2 entradas = some (b, m, resto)) :
    conserva (trasJugada p turno j m) := by
  obtain ⟨otras, h1, h2⟩ := manos_set hj
  have hm := realizarJugada_conserva h
  dsimp only at hm
  unfold conserva at hinv ⊢
  refine List.Perm.trans ?_ hinv
  have hA : (todasLasPiezas (trasJugada p turno j m)).Perm
      ((m.mano ++ m.tablero ++ m.pozo) ++ otras) := by
    unfold todasLasPiezas trasJugada
    dsimp only
    have := h2 { j with piezasMano := m.mano }
    dsimp only at this
    refine ((List.Perm.append_left _ this).append_right _).trans ?_
    rw [← Multiset.coe_eq_coe]
    simp only [← Multiset.coe_add]
    abel
  have hB : (todasLasPiezas p).Perm ((j.piezasMano ++ p.tablero ++ p.pozo) ++ otras) := by
    unfold todasLasPiezas
    refine ((List.Perm.append_left _ h1).append_right _).trans ?_
    rw [← Multiset.coe_eq_coe]
    simp only [← Multiset.coe_add]
    abel
  refine (hA.map _).trans (List.Perm.trans ?_ (hB.map _).symm)
  rw [List.map_append _ _ otras, List.map_append _ _ otras]
  exact List.Perm.append_right _ hm

/-- One round of dealing only moves tiles from the pool to the hands. -/
theorem repartirVuelta_perm (js : List Participante) (pozoInv : List PiezaDomino) :
    (manos (repartirVuelta js pozoInv).1 ++ (repartirVuelta js pozoInv).2).Perm
      (manos js ++ pozoInv) := by
  induction js generalizing pozoInv with
  | nil => simp [repartirVuelta]
  | cons j js ih =>
    cases pozoInv with
    | nil => simp [repartirVuelta]
    | cons t ts =>
      have := ih ts
      simp only [repartirVuelta, manos, List.flatMap_cons, Participante.tomarPieza] at this ⊢
      rw [← Multiset.coe_eq_coe] at this ⊢
      simp only [← Multiset.coe_add, ← List.singleton_append (l := ts)] at this ⊢
      rw [add_assoc, this]
      abel

/-- Dealing only moves tiles from the pool to the hands. -/
theorem repartir_perm (vueltas : Nat) (js : List Participante) (pozoInv : List PiezaDomino) :
    (manos (repartir vueltas js pozoInv).1 ++ (repartir vueltas js pozoInv).2).Perm
      (manos js ++ pozoInv) := by
  induction vueltas generalizing js pozoInv with
  | zero => exact List.Perm.refl _
  | succ n ih =>
    rw [repartir]
    exact (ih _ _).trans (repartirVuelta_perm js pozoInv)

theorem manos_limpiarMano (js : List Participante) :
    manos (js.map Participante.limpiarMano) = [] := by
  induction js with
  | nil => rfl
  | cons j js ih =>
    simp only [manos, List.map_cons, List.flatMap_cons] at ih ⊢
    rw [ih]; rfl

/-- After `distribuirPiezas` pool, hands and board together are the pool it was
given. -/
theorem distribuirPiezas_perm (p : PartidaDomino) :
    (todasLasPiezas (distribuirPiezas p)).Perm p.pozo := by
  unfold todasLasPiezas distribuirPiezas
  dsimp only
  rw [List.append_nil]
  have := repartir_perm 7 (p.jugadores.map Participante.limpiarMano) p.pozo.reverse
  rw [manos_limpiarMano, List.nil_append] at this
  refine List.Perm.trans ?_ (this.trans (List.reverse_perm _))
  exact ((List.reverse_perm _).append_right _).trans List.perm_append_comm

theorem esIgualA_canonica (t : PiezaDomino) : t.esIgualA t.canonica = true := by
  obtain ⟨a, b⟩ := t
  unfold PiezaDomino.canonica
  by_cases h : a ≤ b <;> simp [h, PiezaDomino.esIgualA, PiezaDomino.voltear]

theorem esIgualA_iff_canonica (t c : PiezaDomino) (hc : c.ladoIzquierdo ≤ c.ladoDerecho) :
    t.esIgualA c = true ↔ t.canonica = c := by
  obtain ⟨a, b⟩ := t
  obtain ⟨x, y⟩ := c
  dsimp only at hc
  unfold PiezaDomino.canonica
  by_cases h : a ≤ b
  · simp only [h, if_true, PiezaDomino.esIgualA, Bool.or_eq_true, Bool.and_eq_true, beq_iff_eq,
      PiezaDomino.mk.injEq]
    constructor
    · rintro (⟨rfl, rfl⟩ | ⟨rfl, rfl⟩)
      · exact ⟨rfl, rfl⟩
      · have : a = b := le_antisymm h hc
        exact ⟨this, this.symm⟩
    · rintro ⟨rfl, rfl⟩; left; exact ⟨rfl, rfl⟩
  · simp only [h, if_false, PiezaDomino.esIgualA, PiezaDomino.voltear, Bool.or_eq_true,
      Bool.and_eq_true, beq_iff_eq, PiezaDomino.mk.injEq]
    constructor
    · rintro (⟨rfl, rfl⟩ | ⟨rfl, rfl⟩)
      · exact absurd hc h
      · exact ⟨rfl, rfl⟩
    · rintro ⟨rfl, rfl⟩; right; exact ⟨rfl, rfl⟩

theorem conjuntoCompleto_length : conjuntoCompleto.length = 28 := by decide

theorem conjuntoCompleto_nodup : conjuntoCompleto.Nodup := by decide

theorem conjuntoCompleto_orientado :
    ∀ c ∈ conjuntoCompleto, c.ladoIzquierdo ≤ c.ladoDerecho := by decide

theorem conjuntoCompleto_canonica :
    conjuntoCompleto.map PiezaDomino.canonica = conjuntoCompleto := by decide

theorem manos_length (js : List Participante) :
    (manos js).length = (js.map Participante.cantidadPiezas).sum := by
  induction js with
  | nil => rfl
  | cons j js ih =>
    simp only [manos, List.flatMap_cons, List.length_append, List.map_cons, List.sum_cons] at ih ⊢
    rw [ih]; rfl

/-- Conservation as a permutation gives conservation in the words of the
specification. -/
theorem conserva_cadaUnaUnaVez {p : PartidaDomino} (h : conserva p) : cadaUnaUnaVez p := by
  unfold conserva at h
  refine ⟨?_, ?_, ?_⟩
  · intro c hc
    have h1 : (todasLasPiezas p).countP (fun t => t.esIgualA c) =
        ((todasLasPiezas p).map PiezaDomino.canonica).count c := by
      rw [List.count, List.countP_map]
      refine List.countP_congr ?_
      intro t _
      simp only [Function.comp_apply, beq_iff_eq]
      exact esIgualA_iff_canonica t c (conjuntoCompleto_orientado c hc)
    rw [h1, h.count_eq]
    exact List.count_eq_one_of_mem conjuntoCompleto_nodup hc
  · intro t ht
    exact ⟨t.canonica, h.mem_iff.mp (List.mem_map_of_mem _ ht), esIgualA_canonica t⟩
  · have := h.length_eq
    rw [List.length_map, conjuntoCompleto_length] at this
    rw [← manos_length, ← this]
    simp only [todasLasPiezas, List.length_append]

/-- C2: tile conservation.  With a shuffle that permutes its argument, in every
round run by `ejecutarRonda`, after `distribuirPiezas` and after every call of
`realizarJugada` (any number of turns, and the last turn of the round) the tiles
of pool, hands and board are, up to orientation, exactly the tiles of
`generarConjuntoCompleto`, each once; their numbers add up to 28. -/
theorem C2_conservacion (barajar : List PiezaDomino → List PiezaDomino)
    (hbarajar : ∀ l, (barajar l).Perm l) (p : PartidaDomino) (entradas : List Pasada) :
    (conserva (distribuirPiezas (mezclarYPreparar barajar p)) ∧
      cadaUnaUnaVez (distribuirPiezas (mezclarYPreparar barajar p))) ∧
    ∀ (t : Nat) (r : Ronda), avanzar t (rondaInicial barajar p entradas) = some r →
      (conserva r.partida ∧ cadaUnaUnaVez r.partida) ∧
      ∀ (f : FinRonda) (p' : PartidaDomino) (resto : List Pasada),
        pasoRonda r = .fin f p' resto → conserva p' ∧ cadaUnaUnaVez p' := by
  have hd : conserva (distribuirPiezas (mezclarYPreparar barajar p)) := by
    unfold conserva
    refine ((distribuirPiezas_perm _).map _).trans ?_
    have : (mezclarYPreparar barajar p).pozo = barajar conjuntoCompleto := rfl
    rw [this]
    refine ((hbarajar _).map _).trans ?_
    rw [conjuntoCompleto_canonica]
  refine ⟨⟨hd, conserva_cadaUnaUnaVez hd⟩, ?_⟩
  intro t r h
  have h0 : conserva (rondaInicial barajar p entradas).partida := hd
  have hr : conserva r.partida := avanzar_invariante conserva conserva_paso h0 h
  refine ⟨⟨hr, conserva_cadaUnaUnaVez hr⟩, fun f p' resto hf => ?_⟩
  have hp' : conserva p' := pasoRonda_fin_invariante conserva conserva_paso hr hf
  exact ⟨hp', conserva_cadaUnaUnaVez hp'⟩

/-- C2 at a concrete round: two players, the identity shuffle; after the deal and
after the first turn (Ana plays her tile 0 on the empty board) every canonical
tile is there exactly once. -/
theorem C2_conservacion_witness :
    cadaUnaUnaVez (distribuirPiezas (mezclarYPreparar id
      partidaEjemplo)) ∧
    ∃ r, avanzar 1 (rondaInicial id
        partidaEjemplo
        [⟨some 'p', some 0, none⟩]) = some r ∧
      r.partida.tablero = [⟨6, 6⟩] ∧ cadaUnaUnaVez r.partida :=
  ⟨(C2_conservacion id (fun l => List.Perm.refl l)
      partidaEjemplo []).1.2,
    _, rfl, rfl,
    ((C2_conservacion id (fun l => List.Perm.refl l)
      partidaEjemplo
      [⟨some 'p', some 0, none⟩]).2 1 _ rfl).1.2⟩

/-! ## C3, C4: what a placement attempt changes -/

/-- C3: a rejected placement is a no-op.  On a non-empty board, for a valid index
`i` of the hand, when the tile at `i` has neither pip equal to the left end and
side I is asked for, or neither pip equal to the right end and side D is asked
for, the pass through the menu ends with `continue` and hand, board and pool are
exactly as before; the menu goes on with the next input on the same state. -/
theorem C3_rechazo_sin_efecto (eI eD : Int) (m : Mesa) (i : Nat) (elegida : PiezaDomino)
    (l : Char) (resto : List Pasada)
    (htablero : m.tablero ≠ [])
    (hi : m.mano[i]? = some elegida)
    (hlado : (l.toUpper = 'I' ∧ elegida.ladoIzquierdo ≠ eI ∧ elegida.ladoDerecho ≠ eI) ∨
             (l.toUpper = 'D' ∧ elegida.ladoIzquierdo ≠ eD ∧ elegida.ladoDerecho ≠ eD)) :
    unaPasada eI eD ⟨some 'p', some (i : Int), some l⟩ m = (.continua, m) ∧
    menu eI eD (⟨some 'p', some (i : Int), some l⟩ :: resto) m = menu eI eD resto m := by
  have h1 : unaPasada eI eD ⟨some 'p', some (i : Int), some l⟩ m = (.continua, m) := by
    rcases unaPasada_casos eI eD ⟨some 'p', some (i : Int), some l⟩ m with
      hc | ⟨_, hx⟩ | ⟨i', el, pu, hi', _, hidx, hc⟩
    · exact hc
    · simp at hx
    · exfalso
      simp only [Option.some.injEq, Nat.cast_inj] at hidx
      subst hidx
      rw [hi] at hi'
      simp only [Option.some.injEq] at hi'
      subst hi'
      rcases hc with ⟨ht, _, _⟩ | ⟨_, ⟨l', hl', hI⟩, _, hpu, _⟩ | ⟨_, ⟨l', hl', hD⟩, _, hpu, _⟩
      · exact htablero ht
      · simp only [Option.some.injEq] at hl'
        subst hl'
        rcases hlado with ⟨_, h2, h3⟩ | ⟨hD, _, _⟩
        · rcases hpu with ⟨h, _⟩ | ⟨_, h, _⟩
          · exact h3 h
          · exact h2 h
        · rw [hI] at hD; exact absurd hD (by decide)
      · simp only [Option.some.injEq] at hl'
        subst hl'
        rcases hlado with ⟨hI, _, _⟩ | ⟨_, h2, h3⟩
        · rw [hD] at hI; exact absurd hI (by decide)
        · rcases hpu with ⟨h, _⟩ | ⟨_, h, _⟩
          · exact h2 h
          · exact h3 h
  exact ⟨h1, by rw [menu, h1]⟩

/-- C3 at a concrete attempt: on the board `[1|2]` the tile `[3|4]` asked for the
left side is rejected; hand, board and pool stay. -/
theorem C3_rechazo_sin_efecto_witness :
    unaPasada 1 2 ⟨some 'p', some 0, some 'i'⟩ ⟨[⟨3, 4⟩], [⟨1, 2⟩], [⟨0, 0⟩]⟩
      = (.continua, ⟨[⟨3, 4⟩], [⟨1, 2⟩], [⟨0, 0⟩]⟩) ∧
    menu 1 2 [⟨some 'p', some 0, some 'i'⟩, ⟨some 'x', none, none⟩]
        ⟨[⟨3, 4⟩], [⟨1, 2⟩], [⟨0, 0⟩]⟩
      = menu 1 2 [⟨some 'x', none, none⟩] ⟨[⟨3, 4⟩], [⟨1, 2⟩], [⟨0, 0⟩]⟩ :=
  C3_rechazo_sin_efecto 1 2 ⟨[⟨3, 4⟩], [⟨1, 2⟩], [⟨0, 0⟩]⟩ 0 ⟨3, 4⟩ 'i'
    [⟨some 'x', none, none⟩] (by decide) (by decide) (by decide)

theorem esIgualA_voltear (p : PiezaDomino) : p.voltear.esIgualA p = true := by
  obtain ⟨a, b⟩ := p
  simp [PiezaDomino.esIgualA, PiezaDomino.voltear]

theorem esIgualA_refl (p : PiezaDomino) : p.esIgualA p = true := by
  obtain ⟨a, b⟩ := p
  simp [PiezaDomino.esIgualA]

/-- C4: a played outcome moves exactly one tile.  Whenever `realizarJugada`
returns `true`, the last pass of the menu was option `p` with an index `i` valid
in the hand left by the draw phase; the final hand is that hand with the tile at
`i` erased (the others in their order), the final board is the old board with one
tile added at its front or at its back, that tile being `esIgualA`-equal to the
chosen one, and the pool is the one left by the draw phase. -/
theorem C4_jugada_mueve_una (m m' : Mesa) (eI eD : Int) (entradas resto : List Pasada)
    (h : realizarJugada m eI eD entradas = some (true, m', resto)) :
    ∃ (i : Nat) (elegida puesta : PiezaDomino) (pre : List Pasada) (e : Pasada),
      entradas = pre ++ e :: resto ∧ e.opcion = some 'p' ∧ e.idx = some (i : Int) ∧
      (robar m.tablero.isEmpty eI eD m.mano m.pozo).2.1[i]? = some elegida ∧
      m'.mano = (robar m.tablero.isEmpty eI eD m.mano m.pozo).2.1.eraseIdx i ∧
      m'.mano.length + 1 = (robar m.tablero.isEmpty eI eD m.mano m.pozo).2.1.length ∧
      (m'.tablero = puesta :: m.tablero ∨ m'.tablero = m.tablero ++ [puesta]) ∧
      puesta.esIgualA elegida = true ∧
      m'.pozo = (robar m.tablero.isEmpty eI eD m.mano m.pozo).2.2 := by
  obtain ⟨k, ⟨_, hrob⟩, _, hc | ⟨_, pre, e, hent, hc⟩⟩ := realizarJugada_casos h
  · exact absurd hc.2.2.1 (by decide)
  · rw [hrob]
    dsimp only
    have hlen : ∀ {i : Nat} {el : PiezaDomino}, (trasRobar m k).mano[i]? = some el →
        ((trasRobar m k).mano.eraseIdx i).length + 1 = (trasRobar m k).mano.length := by
      intro i el hi
      have := (perm_cons_eraseIdx hi).length_eq
      rw [List.length_cons] at this
      exact this.symm
    rcases unaPasada_casos eI eD e (trasRobar m k) with h1 | ⟨h1, _⟩ | ⟨i, el, pu, hi, hop, hidx, h1⟩
    · rw [h1] at hc; simp at hc
    · rw [h1] at hc; simp at hc
    · rcases h1 with ⟨ht, hpu, h1⟩ | ⟨_, _, _, hpu, h1⟩ | ⟨_, _, _, hpu, h1⟩
      · rw [h1] at hc
        simp only [Prod.mk.injEq, true_and] at hc
        subst hc
        refine ⟨i, el, pu, pre, e, hent, hop, hidx, hi, rfl, hlen hi, ?_, ?_, rfl⟩
        · left
          rw [trasRobar_tablero] at ht
          rw [ht, hpu]
        · rw [hpu]; exact esIgualA_refl el
      · rw [h1] at hc
        simp only [Prod.mk.injEq, true_and] at hc
        subst hc
        refine ⟨i, el, pu, pre, e, hent, hop, hidx, hi, rfl, hlen hi, Or.inl rfl, ?_, rfl⟩
        rcases hpu with ⟨_, rfl⟩ | ⟨_, _, rfl⟩
        · exact esIgualA_refl _
        · exact esIgualA_voltear _
      · rw [h1] at hc
        simp only [Prod.mk.injEq, true_and] at hc
        subst hc
        refine ⟨i, el, pu, pre, e, hent, hop, hidx, hi, rfl, hlen hi, Or.inr rfl, ?_, rfl⟩
        rcases hpu with ⟨_, rfl⟩ | ⟨_, _, rfl⟩
        · exact esIgualA_refl _
        · exact esIgualA_voltear _

/-- C4 at a concrete turn: with hand `[3|4][6|2]`, board `[1|2]` and pool `[0|0]`
the player puts tile 1 on the right; it lands flipped as `[2|6]`, the hand keeps
`[3|4]`, the pool is not touched. -/
theorem C4_jugada_mueve_una_witness :
    ∃ (i : Nat) (elegida puesta : PiezaDomino) (pre : List Pasada) (e : Pasada),
      [(⟨some 'p', some 1, some 'D'⟩ : Pasada)] = pre ++ e :: [] ∧
      e.opcion = some 'p' ∧ e.idx = some (i : Int) ∧
      (robar false 1 2 [⟨3, 4⟩, ⟨6, 2⟩] [⟨0, 0⟩]).2.1[i]? = some elegida ∧
      ([⟨3, 4⟩] : List PiezaDomino) = (robar false 1 2 [⟨3, 4⟩, ⟨6, 2⟩] [⟨0, 0⟩]).2.1.eraseIdx i ∧
      1 + 1 = (robar false 1 2 [⟨3, 4⟩, ⟨6, 2⟩] [⟨0, 0⟩]).2.1.length ∧
      (([⟨1, 2⟩, ⟨2, 6⟩] : List PiezaDomino) = puesta :: [⟨1, 2⟩] ∨
        ([⟨1, 2⟩, ⟨2, 6⟩] : List PiezaDomino) = [⟨1, 2⟩] ++ [puesta]) ∧
      puesta.esIgualA elegida = true ∧
      ([⟨0, 0⟩] : List PiezaDomino) = (robar false 1 2 [⟨3, 4⟩, ⟨6, 2⟩] [⟨0, 0⟩]).2.2 :=
  C4_jugada_mueve_una ⟨[⟨3, 4⟩, ⟨6, 2⟩], [⟨1, 2⟩], [⟨0, 0⟩]⟩ ⟨[⟨3, 4⟩], [⟨1, 2⟩, ⟨2, 6⟩], [⟨0, 0⟩]⟩
    1 2 [⟨some 'p', some 1, some 'D'⟩] [] (by decide)

/-! ## C5, C6: the draw phase and the forced pass -/

/-- C5, as the code has it: the draw phase moves `k` tiles, one at a time, from
the back of the pool to the end of the hand, where `k` is the least number for
which the hand extended by the last `k` pool tiles holds a playable tile, or the
size of the pool when there is none.  A hand that already holds a playable tile
draws nothing; on an empty board that is every hand except the empty one. -/
theorem C5_robar_hasta_jugable (v : Bool) (eI eD : Int) (mano pozo : List PiezaDomino) :
    (∃ k, k ≤ pozo.length ∧
      robar v eI eD mano pozo =
        (hayJugable v eI eD (mano ++ pozo.reverse.take k), mano ++ pozo.reverse.take k,
          pozo.take (pozo.length - k)) ∧
      (∀ k', k' < k → hayJugable v eI eD (mano ++ pozo.reverse.take k') = false) ∧
      (hayJugable v eI eD (mano ++ pozo.reverse.take k) = true ∨ k = pozo.length)) ∧
    (hayJugable v eI eD mano = true → robar v eI eD mano pozo = (true, mano, pozo)) ∧
    (v = true → mano ≠ [] → robar v eI eD mano pozo = (true, mano, pozo)) := by
  obtain ⟨k, hk, hr, hmin, hall⟩ := robar_spec v eI eD mano pozo
  have hya : hayJugable v eI eD mano = true → robar v eI eD mano pozo = (true, mano, pozo) := by
    intro hj
    have hk0 : k = 0 := by
      by_contra hne
      have := hmin 0 (Nat.pos_of_ne_zero hne)
      simp only [List.take_zero, List.append_nil] at this
      rw [hj] at this
      exact absurd this (by decide)
    subst hk0
    rw [hr]
    simp only [List.take_zero, List.append_nil, Nat.sub_zero, List.take_length, hj]
  refine ⟨⟨k, hk, hr, hmin, ?_⟩, hya, ?_⟩
  · cases hj : hayJugable v eI eD (mano ++ pozo.reverse.take k) with
    | true => left; rfl
    | false => right; exact hall hj
  · intro hv hne
    apply hya
    subst hv
    cases mano with
    | nil => exact absurd rfl hne
    | cons t ts => simp [hayJugable, esJugable]

/-- C5 at a concrete draw: with open ends 1 and 2, hand `[3|4]` and pool
`[2|2][5|5][6|6]` (back last), the tiles `[6|6]`, `[5|5]`, `[2|2]` are drawn in
that order and the third one is playable. -/
theorem C5_robar_hasta_jugable_witness :
    robar false 1 2 [⟨3, 4⟩] [⟨2, 2⟩, ⟨5, 5⟩, ⟨6, 6⟩]
      = (true, [⟨3, 4⟩, ⟨6, 6⟩, ⟨5, 5⟩, ⟨2, 2⟩], []) ∧
    robar true (-1) (-1) [⟨3, 4⟩] [⟨2, 2⟩] = (true, [⟨3, 4⟩], [⟨2, 2⟩]) :=
  ⟨by decide,
    (C5_robar_hasta_jugable true (-1) (-1) [⟨3, 4⟩] [⟨2, 2⟩]).2.2 rfl (by decide)⟩

/-- C5 as stated fails for the empty hand: on an empty board, with an empty hand
and the pool `[1|2]`, the draw phase draws that tile (and `realizarJugada` then
goes to the menu), so "whenever the board is empty it draws nothing" is false. -/
theorem C5_contraejemplo_mano_vacia :
    robar true (-1) (-1) [] [⟨1, 2⟩] = (true, [⟨1, 2⟩], []) ∧
    realizarJugada ⟨[], [], [⟨1, 2⟩]⟩ (extremos []).1 (extremos []).2 [⟨some 'x', none, none⟩]
      = some (false, ⟨[⟨1, 2⟩], [], []⟩, []) ∧
    ¬ (∀ (eI eD : Int) (mano pozo : List PiezaDomino),
        robar true eI eD mano pozo = (true, mano, pozo)) :=
  ⟨by decide, by decide, fun h => absurd (h (-1) (-1) [] [⟨1, 2⟩]) (by decide)⟩

/-- A returning menu has consumed at least one pass. -/
theorem menu_consume {eI eD : Int} {entradas : List Pasada} {m : Mesa} {b : Bool} {m' : Mesa}
    {resto : List Pasada} (h : menu eI eD entradas m = some (b, m', resto)) :
    resto.length < entradas.length := by
  obtain ⟨pre, e, hent, _⟩ := menu_some h
  rw [hent]
  simp only [List.length_append, List.length_cons]
  omega

/-- C6: the forced pass.  If the draw phase empties the pool and the hand it
leaves holds no playable tile, `realizarJugada` returns `false` with the input
untouched (no choice is asked, also on empty input), the board as before and the
hand followed by the former pool tiles in draw order.  Conversely every `false`
it returns is either such a forced pass (empty pool, no playable tile in the
hand, input untouched) or a voluntary one: a pass of the menu with option `x`
was consumed, and then the hand holds a playable tile. -/
theorem C6_pase_forzado (m : Mesa) (eI eD : Int) (entradas : List Pasada) :
    ((robar m.tablero.isEmpty eI eD m.mano m.pozo).2.2 = [] →
      hayJugable m.tablero.isEmpty eI eD (robar m.tablero.isEmpty eI eD m.mano m.pozo).2.1
        = false →
      realizarJugada m eI eD entradas
        = some (false, ⟨m.mano ++ m.pozo.reverse, m.tablero, []⟩, entradas)) ∧
    (∀ (m' : Mesa) (resto : List Pasada),
      realizarJugada m eI eD entradas = some (false, m', resto) →
      (resto = entradas ∧ m'.pozo = [] ∧
        hayJugable m.tablero.isEmpty eI eD m'.mano = false ∧
        m' = ⟨m.mano ++ m.pozo.reverse, m.tablero, []⟩) ∨
      (resto.length < entradas.length ∧
        hayJugable m.tablero.isEmpty eI eD m'.mano = true ∧
        ∃ pre e, entradas = pre ++ e :: resto ∧ e.opcion = some 'x')) := by
  obtain ⟨k, hk, hr, hmin, hall⟩ := robar_spec m.tablero.isEmpty eI eD m.mano m.pozo
  constructor
  · intro _ hno
    rw [hr] at hno
    dsimp only at hno
    have hk' := hall hno
    subst hk'
    unfold realizarJugada
    rw [hr, hno]
    simp
  · intro m' resto h
    obtain ⟨k', _, _, hc | ⟨hj, pre, e, hent, hc⟩⟩ := realizarJugada_casos h
    · left
      obtain ⟨hno, hk', _, hm', hres⟩ := hc
      subst hk'
      have hm'' : m' = ⟨m.mano ++ m.pozo.reverse, m.tablero, []⟩ := by
        rw [hm']; simp [trasRobar]
      refine ⟨hres, by rw [hm''], ?_, hm''⟩
      rw [hm']; exact hno
    · right
      refine ⟨?_, ?_, pre, e, hent, ?_⟩
      · rw [hent]
        simp only [List.length_append, List.length_cons]
        omega
      · rcases unaPasada_casos eI eD e (trasRobar m k') with h1 | ⟨h1, _⟩ | ⟨_, _, _, _, _, _, h1⟩
        · rw [h1] at hc; simp at hc
        · rw [h1] at hc
          simp only [Prod.mk.injEq, true_and] at hc
          rw [← hc]; exact hj
        · rcases h1 with ⟨_, _, h1⟩ | ⟨_, _, _, _, h1⟩ | ⟨_, _, _, _, h1⟩ <;>
          · rw [h1] at hc; simp at hc
      · rcases unaPasada_casos eI eD e (trasRobar m k') with h1 | ⟨_, hx⟩ | ⟨_, _, _, _, _, _, h1⟩
        · rw [h1] at hc; simp at hc
        · exact hx
        · rcases h1 with ⟨_, _, h1⟩ | ⟨_, _, _, _, h1⟩ | ⟨_, _, _, _, h1⟩ <;>
          · rw [h1] at hc; simp at hc

/-- C6 at a concrete turn: with open ends 1 and 2, hand `[3|4]` and pool
`[5|5][6|6]` nothing playable turns up; the turn is a pass on empty input and
the hand is `[3|4][6|6][5|5]`. -/
theorem C6_pase_forzado_witness :
    realizarJugada ⟨[⟨3, 4⟩], [⟨1, 2⟩], [⟨5, 5⟩, ⟨6, 6⟩]⟩ 1 2 []
      = some (false, ⟨[⟨3, 4⟩, ⟨6, 6⟩, ⟨5, 5⟩], [⟨1, 2⟩], []⟩, []) :=
  (C6_pase_forzado ⟨[⟨3, 4⟩], [⟨1, 2⟩], [⟨5, 5⟩, ⟨6, 6⟩]⟩ 1 2 []).1 (by decide) (by decide)

/-! ## The round as a sequence of turns -/

theorem turnoDe_some {r : Ronda} {j : Participante} {b : Bool} {m : Mesa} {resto : List Pasada} :
    turnoDe r = some (j, b, m, resto) ↔
      r.partida.jugadores[r.turnoActual]? = some j ∧
      realizarJugada ⟨j.piezasMano, r.partida.tablero, r.partida.pozo⟩
        (extremos r.partida.tablero).1 (extremos r.partida.tablero).2 r.entradas
        = some (b, m, resto) := by
  unfold turnoDe
  cases hj : r.partida.jugadores[r.turnoActual]? with
  | none => simp
  | some j' =>
    dsimp only
    cases hr : realizarJugada ⟨j'.piezasMano, r.partida.tablero, r.partida.pozo⟩
        (extremos r.partida.tablero).1 (extremos r.partida.tablero).2 r.entradas with
    | none =>
      constructor
      · intro h; cases h
      · rintro ⟨h1, h⟩
        injection h1 with h1
        subst h1
        rw [hr] at h; cases h
    | some x =>
      obtain ⟨b', m', resto'⟩ := x
      simp only [Option.some.injEq, Prod.mk.injEq]
      constructor
      · rintro ⟨rfl, rfl, rfl, rfl⟩
        exact ⟨rfl, hr⟩
      · rintro ⟨rfl, h⟩
        rw [hr] at h
        simp only [Option.some.injEq, Prod.mk.injEq] at h
        exact ⟨rfl, h⟩

/-- The first turn first: after `t + 1` turns is after `t` turns from the state
the first turn leaves. -/
theorem avanzar_succ_primero (t : Nat) (r0 : Ronda) :
    avanzar (t + 1) r0 =
      match pasoRonda r0 with
      | .sigue r1 => avanzar t r1
      | _ => none := by
  induction t with
  | zero =>
    rw [avanzar, avanzar]
    cases h : pasoRonda r0 <;> simp [avanzar, h]
  | succ n ih =>
    rw [avanzar, ih]
    cases h : pasoRonda r0 with
    | sigue r1 => simp only [avanzar]
    | fin f p e => rfl
    | espera => rfl
    | indefinido => rfl

/-- A loop that returned did so in the last of finitely many turns. -/
theorem bucleRonda_fin {n : Nat} {r0 : Ronda} {f : FinRonda} {p : PartidaDomino}
    {resto : List Pasada} (h : bucleRonda n r0 = .fin f p resto) :
    ∃ t r, t < n ∧ avanzar t r0 = some r ∧ pasoRonda r = .fin f p resto := by
  induction n generalizing r0 with
  | zero => rw [bucleRonda] at h; cases h
  | succ n ih =>
    rw [bucleRonda] at h
    cases hp : pasoRonda r0 with
    | sigue r1 =>
      rw [hp] at h
      obtain ⟨t, r, ht, ha, hr⟩ := ih h
      refine ⟨t + 1, r, by omega, ?_, hr⟩
      rw [avanzar_succ_primero, hp]
      exact ha
    | fin f' p' e' =>
      rw [hp] at h
      exact ⟨0, r0, by omega, rfl, by rw [hp]; exact h⟩
    | espera => rw [hp] at h; cases h
    | indefinido => rw [hp] at h; cases h

/-- The loop run for more turns than the round takes gives the outcome of its
last turn. -/
theorem bucleRonda_of_avanzar {t : Nat} {r0 r : Ronda} (ha : avanzar t r0 = some r)
    {f : FinRonda} {p : PartidaDomino} {resto : List Pasada}
    (hp : pasoRonda r = .fin f p resto) {n : Nat} (hn : t < n) :
    bucleRonda n r0 = .fin f p resto := by
  induction t generalizing r0 n with
  | zero =>
    rw [avanzar] at ha
    injection ha with ha
    subst ha
    obtain ⟨n', rfl⟩ : ∃ n', n = n' + 1 := ⟨n - 1, by omega⟩
    rw [bucleRonda, hp]
  | succ k ih =>
    obtain ⟨n', rfl⟩ : ∃ n', n = n' + 1 := ⟨n - 1, by omega⟩
    rw [avanzar_succ_primero] at ha
    rw [bucleRonda]
    cases h0 : pasoRonda r0 with
    | sigue r1 =>
      rw [h0] at ha
      exact ih ha (by omega)
    | fin f' p' e' => rw [h0] at ha; cases ha
    | espera => rw [h0] at ha; cases ha
    | indefinido => rw [h0] at ha; cases ha

/-- A turn that lets the round go on makes `medida` smaller and keeps
`totalJugadores`. -/
theorem medida_sigue {r r' : Ronda} (h : pasoRonda r = .sigue r') :
    medida r' < medida r ∧ r'.partida.totalJugadores = r.partida.totalJugadores := by
  obtain ⟨j, b, m, resto, _, hr, _, hlt, rfl⟩ := pasoRonda_sigue h
  refine ⟨?_, rfl⟩
  unfold medida
  dsimp only [trasJugada]
  obtain ⟨k, _, _, hc | ⟨_, pre, e, hent, _⟩⟩ := realizarJugada_casos hr
  · obtain ⟨_, _, hb, _, hres⟩ := hc
    subst hb
    rw [hres]
    simp only [Bool.false_eq_true, if_false] at hlt ⊢
    omega
  · have hlen : resto.length + 1 ≤ r.entradas.length := by
      rw [hent]; simp only [List.length_append, List.length_cons]; omega
    have hmul := Nat.mul_le_mul_right (r.partida.totalJugadores + 1) hlen
    rw [Nat.add_mul, Nat.one_mul] at hmul
    generalize resto.length * (r.partida.totalJugadores + 1) = A at hmul ⊢
    generalize r.entradas.length * (r.partida.totalJugadores + 1) = B at hmul ⊢
    omega

/-- After `t` turns the measure has gone down by at least `t`. -/
theorem medida_avanzar {t : Nat} {r0 r : Ronda} (h : avanzar t r0 = some r) :
    t + medida r ≤ medida r0 ∧ r.partida.totalJugadores = r0.partida.totalJugadores := by
  induction t generalizing r with
  | zero =>
    rw [avanzar] at h
    injection h with h
    subst h
    exact ⟨by omega, rfl⟩
  | succ n ih =>
    obtain ⟨r1, h1, hp⟩ := avanzar_succ h
    obtain ⟨hm, ht⟩ := medida_sigue hp
    obtain ⟨hm1, ht1⟩ := ih h1
    exact ⟨by omega, by rw [ht, ht1]⟩

/-- The method `ejecutarRonda` returns `fin f p resto` exactly when some turn of
the round, reached through turns that all let the round go on, ends it so. -/
theorem ejecutarRonda_fin_iff (barajar : List PiezaDomino → List PiezaDomino)
    (p : PartidaDomino) (entradas : List Pasada) (f : FinRonda) (p' : PartidaDomino)
    (resto : List Pasada) :
    ejecutarRonda barajar p entradas = .fin f p' resto ↔
      ∃ t r, avanzar t (rondaInicial barajar p entradas) = some r ∧
        pasoRonda r = .fin f p' resto := by
  unfold ejecutarRonda
  dsimp only
  constructor
  · intro h
    obtain ⟨t, r, _, ha, hp⟩ := bucleRonda_fin h
    exact ⟨t, r, ha, hp⟩
  · rintro ⟨t, r, ha, hp⟩
    refine bucleRonda_of_avanzar ha hp ?_
    have := (medida_avanzar ha).1
    have h0 : medida (rondaInicial barajar p entradas) <
        cotaTurnos (rondaInicial barajar p entradas) := by
      unfold medida cotaTurnos
      omega
    omega

/-- Every turn before a reached state let the round go on. -/
theorem avanzar_antes {t : Nat} {r0 r : Ronda} (h : avanzar t r0 = some r) :
    ∀ s, s < t → ∃ rs rs', avanzar s r0 = some rs ∧ pasoRonda rs = .sigue rs' := by
  induction t generalizing r with
  | zero => intro s hs; omega
  | succ n ih =>
    obtain ⟨r1, h1, hp⟩ := avanzar_succ h
    intro s hs
    by_cases hsn : s = n
    · subst hsn; exact ⟨r1, r, h1, hp⟩
    · exact ih h1 s (by omega)

theorem nombres_set {js : List Participante} {i : Nat} {j : Participante}
    (h : js[i]? = some j) (mano : List PiezaDomino) :
    nombres (js.set i { j with piezasMano := mano }) = nombres js := by
  induction js generalizing i with
  | nil => rfl
  | cons x xs ih =>
    cases i with
    | zero =>
      simp only [List.getElem?_cons_zero, Option.some.injEq] at h
      subst h
      simp [nombres]
    | succ n =>
      simp only [List.getElem?_cons_succ] at h
      have := ih h
      simp only [nombres, List.set_cons_succ, List.map_cons] at this ⊢
      rw [this]

theorem nombres_repartirVuelta (js : List Participante) (pozoInv : List PiezaDomino) :
    nombres (repartirVuelta js pozoInv).1 = nombres js := by
  induction js generalizing pozoInv with
  | nil => rfl
  | cons j js ih =>
    cases pozoInv with
    | nil => rfl
    | cons t ts =>
      have := ih ts
      simp only [nombres, repartirVuelta, List.map_cons] at this ⊢
      rw [this]; rfl

theorem nombres_repartir (vueltas : Nat) (js : List Participante) (pozoInv : List PiezaDomino) :
    nombres (repartir vueltas js pozoInv).1 = nombres js := by
  induction vueltas generalizing js pozoInv with
  | zero => rfl
  | succ n ih => rw [repartir, ih, nombres_repartirVuelta]

/-- The round starts with the players of the game, in their order. -/
theorem nombres_rondaInicial (barajar : List PiezaDomino → List PiezaDomino)
    (p : PartidaDomino) (entradas : List Pasada) :
    nombres (rondaInicial barajar p entradas).partida.jugadores = nombres p.jugadores ∧
    (rondaInicial barajar p entradas).partida.totalJugadores = p.totalJugadores := by
  refine ⟨?_, rfl⟩
  show nombres (repartir 7 _ _).1 = _
  rw [nombres_repartir]
  simp [nombres, mezclarYPreparar, generarConjuntoCompleto, Participante.limpiarMano]

/-- Turns change neither the names nor the order of the players. -/
theorem nombres_avanzar {t : Nat} {r0 r : Ronda} (h : avanzar t r0 = some r) :
    nombres r.partida.jugadores = nombres r0.partida.jugadores := by
  induction t generalizing r with
  | zero =>
    rw [avanzar] at h
    injection h with h
    rw [← h]
  | succ n ih =>
    obtain ⟨r1, h1, hp⟩ := avanzar_succ h
    obtain ⟨j, b, m, resto, hj, _, _, _, rfl⟩ := pasoRonda_sigue hp
    rw [← ih h1]
    exact nombres_set hj m.mano

/-- C7: the Won transition.  `ejecutarRonda` returns through
`return jugadorActual->obtenerNombre()` with the name `n` exactly when, after
some number of turns that all let the round go on, the acting player's
`realizarJugada` returns `true` and leaves that player's hand empty, `n` being
that player's name; each turn before it was a pass or left a non-empty hand;
and in the final state the winner's hand is empty, with pip sum 0. -/
theorem C7_transicion_gano (barajar : List PiezaDomino → List PiezaDomino)
    (p : PartidaDomino) (entradas : List Pasada) :
    (∀ (n : String) (p' : PartidaDomino) (resto : List Pasada),
      ejecutarRonda barajar p entradas = .fin (.gano n) p' resto ↔
        ∃ t r j m, avanzar t (rondaInicial barajar p entradas) = some r ∧
          turnoDe r = some (j, true, m, resto) ∧ m.mano = [] ∧ n = j.nombre ∧
          p' = trasJugada r.partida r.turnoActual j m) ∧
    (∀ (t : Nat) (r : Ronda), avanzar t (rondaInicial barajar p entradas) = some r →
      ∀ s, s < t → ∃ rs j b m resto,
        avanzar s (rondaInicial barajar p entradas) = some rs ∧
        turnoDe rs = some (j, b, m, resto) ∧ (b = false ∨ m.mano ≠ [])) ∧
    (∀ (n : String) (p' : PartidaDomino) (resto : List Pasada),
      ejecutarRonda barajar p entradas = .fin (.gano n) p' resto →
        (ejecutarRonda barajar p entradas).cadena = some n ∧
        ∃ (i : Nat) (j : Participante), p'.jugadores[i]? = some j ∧ j.nombre = n ∧ j.piezasMano = [] ∧
          sumaMano j = 0) := by
  have hkey : ∀ (n : String) (p' : PartidaDomino) (resto : List Pasada) (r : Ronda),
      pasoRonda r = .fin (.gano n) p' resto ↔
        ∃ j m, turnoDe r = some (j, true, m, resto) ∧ m.mano = [] ∧ n = j.nombre ∧
          p' = trasJugada r.partida r.turnoActual j m := by
    intro n p' resto r
    constructor
    · intro h
      obtain ⟨j, b, m, hj, hr, hp', hc | ⟨_, _, hf⟩⟩ := pasoRonda_fin h
      · obtain ⟨hb, hm, hf⟩ := hc
        subst hb
        injection hf with hf
        exact ⟨j, m, turnoDe_some.mpr ⟨hj, hr⟩, hm, hf, hp'⟩
      · cases hf
    · rintro ⟨j, m, ht, hm, rfl, rfl⟩
      obtain ⟨hj, hr⟩ := turnoDe_some.mp ht
      rcases pasoRonda_casos r with ⟨hn, _⟩ | ⟨j', hj', hr', _⟩ | ⟨j', b', m', resto', hj', hr', hc⟩
      · rw [hj] at hn; cases hn
      · rw [hj] at hj'
        injection hj' with hj'
        subst hj'
        rw [hr] at hr'; cases hr'
      · rw [hj] at hj'
        injection hj' with hj'
        subst hj'
        rw [hr] at hr'
        simp only [Option.some.injEq, Prod.mk.injEq] at hr'
        obtain ⟨rfl, rfl, rfl⟩ := hr'
        rcases hc with ⟨_, _, hc⟩ | ⟨hw, _⟩ | ⟨hw, _⟩
        · exact hc
        · exact absurd ⟨rfl, hm⟩ hw
        · exact absurd ⟨rfl, hm⟩ hw
  refine ⟨?_, ?_, ?_⟩
  · intro n p' resto
    rw [ejecutarRonda_fin_iff]
    constructor
    · rintro ⟨t, r, ha, hp⟩
      obtain ⟨j, m, h⟩ := (hkey n p' resto r).mp hp
      exact ⟨t, r, j, m, ha, h⟩
    · rintro ⟨t, r, j, m, ha, h⟩
      exact ⟨t, r, ha, (hkey n p' resto r).mpr ⟨j, m, h⟩⟩
  · intro t r ha s hs
    obtain ⟨rs, rs', has, hps⟩ := avanzar_antes ha s hs
    obtain ⟨j, b, m, resto, hj, hr, hw, _, _⟩ := pasoRonda_sigue hps
    refine ⟨rs, j, b, m, resto, has, turnoDe_some.mpr ⟨hj, hr⟩, ?_⟩
    cases b with
    | false => left; rfl
    | true => right; exact fun hm => hw ⟨rfl, hm⟩
  · intro n p' resto h
    refine ⟨by rw [h]; rfl, ?_⟩
    obtain ⟨t, r, ha, hp⟩ := (ejecutarRonda_fin_iff _ _ _ _ _ _).mp h
    obtain ⟨j, m, ht, hm, rfl, rfl⟩ := (hkey n p' resto r).mp hp
    obtain ⟨hj, _⟩ := turnoDe_some.mp ht
    have hlt : r.turnoActual < r.partida.jugadores.length := by
      by_contra hge
      rw [List.getElem?_eq_none (by omega)] at hj
      cases hj
    refine ⟨r.turnoActual, { j with piezasMano := m.mano }, ?_, rfl, hm, ?_⟩
    · simp only [trasJugada]
      rw [List.getElem?_set_self hlt]
    · rw [sumaMano, hm]; rfl

/-- C7 at a concrete round: two players, the identity shuffle.  Ana plays her
seven tiles in the turns 0, 2, .., 12 while Luis passes voluntarily; the round
returns "Ana" at turn 12 and her hand is empty. -/
theorem C7_transicion_gano_witness :
    (ejecutarRonda id partidaEjemplo
      [⟨some 'p', some 1, none⟩, ⟨some 'x', none, none⟩,
       ⟨some 'p', some 1, some 'D'⟩, ⟨some 'x', none, none⟩,
       ⟨some 'p', some 2, some 'D'⟩, ⟨some 'x', none, none⟩,
       ⟨some 'p', some 1, some 'D'⟩, ⟨some 'x', none, none⟩,
       ⟨some 'p', some 0, some 'D'⟩, ⟨some 'x', none, none⟩,
       ⟨some 'p', some 0, some 'D'⟩, ⟨some 'x', none, none⟩,
       ⟨some 'p', some 0, some 'D'⟩]).cadena = some "Ana" ∧
    ∃ (i : Nat) (j : Participante) (p' : PartidaDomino),
      p'.tablero = [⟨5, 5⟩, ⟨5, 4⟩, ⟨4, 3⟩, ⟨3, 6⟩, ⟨6, 6⟩, ⟨6, 2⟩, ⟨2, 4⟩] ∧
      p'.jugadores[i]? = some j ∧ j.nombre = "Ana" ∧ j.piezasMano = [] ∧ sumaMano j = 0 :=
  have h := (C7_transicion_gano id
      partidaEjemplo
      [⟨some 'p', some 1, none⟩, ⟨some 'x', none, none⟩,
       ⟨some 'p', some 1, some 'D'⟩, ⟨some 'x', none, none⟩,
       ⟨some 'p', some 2, some 'D'⟩, ⟨some 'x', none, none⟩,
       ⟨some 'p', some 1, some 'D'⟩, ⟨some 'x', none, none⟩,
       ⟨some 'p', some 0, some 'D'⟩, ⟨some 'x', none, none⟩,
       ⟨some 'p', some 0, some 'D'⟩, ⟨some 'x', none, none⟩,
       ⟨some 'p', some 0, some 'D'⟩]).2.2 "Ana" _ [] rfl
  ⟨h.1, h.2.choose, h.2.choose_spec.choose, _, rfl, h.2.choose_spec.choose_spec⟩

/-! ## C8, C9: the pass counter and the turn index -/

theorem pasesAlFinal_append (l : List Bool) (b : Bool) :
    pasesAlFinal (l ++ [b]) = if b = true then 0 else pasesAlFinal l + 1 := by
  unfold pasesAlFinal
  rw [List.reverse_append, List.reverse_singleton, List.singleton_append]
  cases b <;> simp [List.takeWhile]

theorem resultados_succ {r0 r : Ronda} {t : Nat} {j : Participante} {b : Bool} {m : Mesa}
    {resto : List Pasada} (ha : avanzar t r0 = some r) (ht : turnoDe r = some (j, b, m, resto)) :
    resultados r0 (t + 1) = resultados r0 t ++ [b] := by
  rw [resultados, ha]
  simp only [Option.some_bind, ht]

/-- The pass counter is the number of passes since the last played turn. -/
theorem pases_avanzar {t : Nat} {r0 r : Ronda} (h0 : r0.pasesConsecutivos = 0)
    (h : avanzar t r0 = some r) : r.pasesConsecutivos = pasesAlFinal (resultados r0 t) := by
  induction t generalizing r with
  | zero =>
    rw [avanzar] at h
    injection h with h
    rw [← h, h0]; rfl
  | succ n ih =>
    obtain ⟨r1, h1, hp⟩ := avanzar_succ h
    obtain ⟨j, b, m, resto, hj, hr, _, _, rfl⟩ := pasoRonda_sigue hp
    rw [resultados_succ h1 (turnoDe_some.mpr ⟨hj, hr⟩), pasesAlFinal_append, ← ih h1]

/-- While the round goes on the pass counter is below `totalJugadores`. -/
theorem pases_lt {t : Nat} {r0 r : Ronda} (h0 : r0.pasesConsecutivos = 0)
    (hT : 1 ≤ r0.partida.totalJugadores) (h : avanzar t r0 = some r) :
    r.pasesConsecutivos < r0.partida.totalJugadores := by
  cases t with
  | zero =>
    rw [avanzar] at h
    injection h with h
    rw [← h, h0]; omega
  | succ n =>
    obtain ⟨r1, h1, hp⟩ := avanzar_succ h
    obtain ⟨j, b, m, resto, _, _, _, hlt, rfl⟩ := pasoRonda_sigue hp
    rw [← (medida_avanzar h1).2]
    exact hlt

/-- The turn at `r` ends the round as blocked exactly when it is not a winning
turn and the counter it leaves is at least `totalJugadores`. -/
theorem pasoRonda_bloqueo_iff (r : Ronda) (p' : PartidaDomino) (resto : List Pasada) :
    pasoRonda r = .fin .bloqueo p' resto ↔
      ∃ j b m, turnoDe r = some (j, b, m, resto) ∧
        p' = trasJugada r.partida r.turnoActual j m ∧ ¬(b = true ∧ m.mano = []) ∧
        (if b = true then 0 else r.pasesConsecutivos + 1) ≥ r.partida.totalJugadores := by
  constructor
  · intro h
    obtain ⟨j, b, m, hj, hr, hp', ⟨_, _, hf⟩ | ⟨hw, hge, _⟩⟩ := pasoRonda_fin h
    · cases hf
    · exact ⟨j, b, m, turnoDe_some.mpr ⟨hj, hr⟩, hp', hw, hge⟩
  · rintro ⟨j, b, m, ht, rfl, hw, hge⟩
    obtain ⟨hj, hr⟩ := turnoDe_some.mp ht
    rcases pasoRonda_casos r with ⟨hn, _⟩ | ⟨j', hj', hr', _⟩ | ⟨j', b', m', resto', hj', hr', hc⟩
    · rw [hj] at hn; cases hn
    · rw [hj] at hj'
      injection hj' with hj'
      subst hj'
      rw [hr] at hr'; cases hr'
    · rw [hj] at hj'
      injection hj' with hj'
      subst hj'
      rw [hr] at hr'
      simp only [Option.some.injEq, Prod.mk.injEq] at hr'
      obtain ⟨rfl, rfl, rfl⟩ := hr'
      rcases hc with ⟨hb, hm, _⟩ | ⟨_, _, hc⟩ | ⟨_, hlt, _⟩
      · exact absurd ⟨hb, hm⟩ hw
      · exact hc
      · omega

/-- C8: the Blocked transition.  Throughout a round the pass counter equals the
number of turns resolved as passed since the last played turn (or since the
start).  With at least one player counted in `totalJugadores`, `ejecutarRonda`
returns through `return ""` exactly at the turn after which that number equals
`totalJugadores`, and before every turn the round reaches the number is below
`totalJugadores`.  When no player has the empty name, the string returned is
`""` only for a blocked round. -/
theorem C8_transicion_bloqueo (barajar : List PiezaDomino → List PiezaDomino)
    (p : PartidaDomino) (entradas : List Pasada) :
    (∀ (t : Nat) (r : Ronda), avanzar t (rondaInicial barajar p entradas) = some r →
      r.pasesConsecutivos = pasesAlFinal (resultados (rondaInicial barajar p entradas) t)) ∧
    (1 ≤ p.totalJugadores → ∀ (p' : PartidaDomino) (resto : List Pasada),
      ejecutarRonda barajar p entradas = .fin .bloqueo p' resto ↔
        ∃ t r j b m, avanzar t (rondaInicial barajar p entradas) = some r ∧
          turnoDe r = some (j, b, m, resto) ∧
          p' = trasJugada r.partida r.turnoActual j m ∧
          pasesAlFinal (resultados (rondaInicial barajar p entradas) (t + 1))
            = p.totalJugadores) ∧
    (1 ≤ p.totalJugadores → ∀ (t : Nat) (r : Ronda),
      avanzar t (rondaInicial barajar p entradas) = some r →
      pasesAlFinal (resultados (rondaInicial barajar p entradas) t) < p.totalJugadores) ∧
    ((∀ n ∈ nombres p.jugadores, n ≠ "") →
      ((ejecutarRonda barajar p entradas).cadena = some "" ↔
        ∃ p' resto, ejecutarRonda barajar p entradas = .fin .bloqueo p' resto)) := by
  have h0 : (rondaInicial barajar p entradas).pasesConsecutivos = 0 := rfl
  have hT0 : (rondaInicial barajar p entradas).partida.totalJugadores = p.totalJugadores := rfl
  refine ⟨fun t r h => pases_avanzar h0 h, ?_, ?_, ?_⟩
  · intro hT p' resto
    rw [ejecutarRonda_fin_iff]
    constructor
    · rintro ⟨t, r, ha, hp⟩
      obtain ⟨j, b, m, ht, hp', hw, hge⟩ := (pasoRonda_bloqueo_iff r p' resto).mp hp
      refine ⟨t, r, j, b, m, ha, ht, hp', ?_⟩
      rw [resultados_succ ha ht, pasesAlFinal_append, ← pases_avanzar h0 ha]
      have hlt := pases_lt h0 (by rw [hT0]; exact hT) ha
      rw [(medida_avanzar ha).2, hT0] at hge
      rw [hT0] at hlt
      cases b with
      | true => simp only [if_true] at hge; omega
      | false => simp only [Bool.false_eq_true, if_false] at hge ⊢; omega
    · rintro ⟨t, r, j, b, m, ha, ht, hp', hcnt⟩
      refine ⟨t, r, ha, (pasoRonda_bloqueo_iff r p' resto).mpr ⟨j, b, m, ht, hp', ?_, ?_⟩⟩
      · rw [resultados_succ ha ht, pasesAlFinal_append] at hcnt
        rintro ⟨hb, _⟩
        rw [if_pos hb] at hcnt
        omega
      · rw [resultados_succ ha ht, pasesAlFinal_append, ← pases_avanzar h0 ha] at hcnt
        rw [(medida_avanzar ha).2, hT0, hcnt]
  · intro hT t r ha
    rw [← pases_avanzar h0 ha, ← hT0]
    exact pases_lt h0 (by rw [hT0]; exact hT) ha
  · intro hnom
    constructor
    · intro hc
      cases he : ejecutarRonda barajar p entradas with
      | fin f p' resto =>
        cases f with
        | bloqueo => exact ⟨p', resto, rfl⟩
        | gano n =>
          exfalso
          rw [he] at hc
          simp only [Paso.cadena, FinRonda.cadena, Option.some.injEq] at hc
          subst hc
          obtain ⟨t, r, ha, hp⟩ := (ejecutarRonda_fin_iff _ _ _ _ _ _).mp he
          obtain ⟨j, b, m, hj, _, _, ⟨_, _, hf⟩ | ⟨_, _, hf⟩⟩ := pasoRonda_fin hp
          · injection hf with hf
            have hmem : j.nombre ∈ nombres r.partida.jugadores :=
              List.mem_map_of_mem _ (List.getElem?_mem hj)
            rw [nombres_avanzar ha, (nombres_rondaInicial barajar p entradas).1] at hmem
            exact hnom _ hmem hf.symm
          · cases hf
      | sigue r => rw [he] at hc; cases hc
      | espera => rw [he] at hc; cases hc
      | indefinido => rw [he] at hc; cases hc
    · rintro ⟨p', resto, he⟩
      rw [he]; rfl

/-- C8 at a concrete round: two players, the identity shuffle, both pass
voluntarily; the round is blocked at turn 1, when two passes have been made. -/
theorem C8_transicion_bloqueo_witness :
    ∃ p', ejecutarRonda id partidaEjemplo
        [⟨some 'x', none, none⟩, ⟨some 'x', none, none⟩] = .fin .bloqueo p' [] ∧
      ∃ t r j b m, avanzar t (rondaInicial id partidaEjemplo
          [⟨some 'x', none, none⟩, ⟨some 'x', none, none⟩]) = some r ∧
        turnoDe r = some (j, b, m, []) ∧
        p' = trasJugada r.partida r.turnoActual j m ∧
        pasesAlFinal (resultados (rondaInicial id partidaEjemplo
          [⟨some 'x', none, none⟩, ⟨some 'x', none, none⟩]) (t + 1)) = 2 :=
  ⟨_, rfl, ((C8_transicion_bloqueo id partidaEjemplo
      [⟨some 'x', none, none⟩, ⟨some 'x', none, none⟩]).2.1 (by decide) _ []).mp rfl⟩

/-- C9: turn rotation.  After `t` turns of a round the turn index is
`t mod totalJugadores`, whatever the earlier turns were; names and order of the
players are those of the game, so the `t`-th turn is taken by the player at
position `t mod totalJugadores` of `jugadores`; with at least one player
counted the index stays below `totalJugadores`. -/
theorem C9_rotacion_turnos (barajar : List PiezaDomino → List PiezaDomino)
    (p : PartidaDomino) (entradas : List Pasada) :
    (∀ (t : Nat) (r : Ronda), avanzar t (rondaInicial barajar p entradas) = some r →
      r.turnoActual = t % p.totalJugadores ∧
      nombres r.partida.jugadores = nombres p.jugadores ∧
      ∀ (j : Participante) (b : Bool) (m : Mesa) (resto : List Pasada),
        turnoDe r = some (j, b, m, resto) →
        r.partida.jugadores[t % p.totalJugadores]? = some j ∧
        (nombres p.jugadores)[t % p.totalJugadores]? = some j.nombre) ∧
    (1 ≤ p.totalJugadores → ∀ (t : Nat) (r : Ronda),
      avanzar t (rondaInicial barajar p entradas) = some r →
      r.turnoActual < p.totalJugadores) := by
  have hT0 : (rondaInicial barajar p entradas).partida.totalJugadores = p.totalJugadores := rfl
  have hturno : ∀ (t : Nat) (r : Ronda),
      avanzar t (rondaInicial barajar p entradas) = some r →
      r.turnoActual = t % p.totalJugadores := by
    intro t
    induction t with
    | zero =>
      intro r h
      rw [avanzar] at h
      injection h with h
      rw [← h]
      simp [rondaInicial]
    | succ n ih =>
      intro r h
      obtain ⟨r1, h1, hp⟩ := avanzar_succ h
      obtain ⟨j, b, m, resto, _, _, _, _, rfl⟩ := pasoRonda_sigue hp
      dsimp only
      rw [ih r1 h1, (medida_avanzar h1).2, hT0, Nat.mod_add_mod]
  refine ⟨?_, ?_⟩
  · intro t r ha
    have hn : nombres r.partida.jugadores = nombres p.jugadores := by
      rw [nombres_avanzar ha, (nombres_rondaInicial barajar p entradas).1]
    refine ⟨hturno t r ha, hn, ?_⟩
    intro j b m resto ht
    obtain ⟨hj, _⟩ := turnoDe_some.mp ht
    rw [hturno t r ha] at hj
    refine ⟨hj, ?_⟩
    rw [← hn, nombres, List.getElem?_map, hj]
    rfl
  · intro hT t r ha
    rw [hturno t r ha]
    exact Nat.mod_lt _ (by omega)

/-- C9 at a concrete round: two players; after a play, a pass and a play the
turn index is `3 mod 2 = 1` and the players are still Ana, Luis. -/
theorem C9_rotacion_turnos_witness :
    ∃ r, avanzar 3 (rondaInicial id partidaEjemplo
        [⟨some 'p', some 1, none⟩, ⟨some 'x', none, none⟩, ⟨some 'p', some 1, some 'D'⟩])
        = some r ∧
      r.turnoActual = 1 ∧ nombres r.partida.jugadores = ["Ana", "Luis"] ∧
      r.turnoActual < 2 :=
  ⟨_, rfl,
    ((C9_rotacion_turnos id partidaEjemplo
      [⟨some 'p', some 1, none⟩, ⟨some 'x', none, none⟩, ⟨some 'p', some 1, some 'D'⟩]).1
      3 _ rfl).1,
    ((C9_rotacion_turnos id partidaEjemplo
      [⟨some 'p', some 1, none⟩, ⟨some 'x', none, none⟩, ⟨some 'p', some 1, some 'D'⟩]).1
      3 _ rfl).2.1,
    (C9_rotacion_turnos id partidaEjemplo
      [⟨some 'p', some 1, none⟩, ⟨some 'x', none, none⟩, ⟨some 'p', some 1, some 'D'⟩]).2
      (by decide) 3 _ rfl⟩

/-! ## C10: scoring with a winner -/

/-- Key order agrees with the order of `String`. -/
theorem claveMenor_iff (a b : String) : claveMenor a b ↔ a < b :=
  String.lt_iff_toList_lt.symm

theorem valorEn_asignar (m : Mapa) (k : String) (v : Int) : valorEn (asignar m k v) k = v := by
  induction m with
  | nil => simp [asignar, valorEn]
  | cons kv resto ih =>
    obtain ⟨k', v'⟩ := kv
    rw [asignar]
    by_cases h1 : claveMenor k k'
    · rw [if_pos h1]; simp [valorEn]
    · rw [if_neg h1]
      by_cases h2 : k = k'
      · rw [if_pos h2]; simp [valorEn]
      · rw [if_neg h2, valorEn, if_neg h2, ih]

/-- Assigning to a key that is not in the map adds one entry. -/
theorem asignar_perm {m : Mapa} {k : String} (v : Int) (h : k ∉ m.map Prod.fst) :
    (asignar m k v).Perm ((k, v) :: m) := by
  induction m with
  | nil => exact List.Perm.refl _
  | cons kv resto ih =>
    obtain ⟨k', v'⟩ := kv
    simp only [List.map_cons, List.mem_cons, not_or] at h
    rw [asignar]
    by_cases h1 : claveMenor k k'
    · rw [if_pos h1]
    · rw [if_neg h1, if_neg h.1]
      exact ((ih h.2).cons _).trans (List.Perm.swap _ _ _)

/-- With pairwise distinct names the map `sumasPips` holds one entry per
player: the name and the pip sum of the hand. -/
theorem sumasPips_perm_aux (js : List Participante) (m : Mapa)
    (hnodup : (nombres js).Nodup) (hdisj : ∀ n ∈ nombres js, n ∉ m.map Prod.fst) :
    (js.foldl (fun m j => asignar m j.nombre (sumaMano j)) m).Perm
      (js.map (fun j => (j.nombre, sumaMano j)) ++ m) := by
  induction js generalizing m with
  | nil => exact List.Perm.refl _
  | cons j js ih =>
    simp only [nombres, List.map_cons, List.nodup_cons] at hnodup
    have hj : j.nombre ∉ m.map Prod.fst := hdisj _ (by simp [nombres])
    have hp := asignar_perm (sumaMano j) hj
    rw [List.foldl_cons]
    refine (ih _ hnodup.2 ?_).trans ?_
    · intro n hn hmem
      have hmem' := (hp.map Prod.fst).mem_iff.mp hmem
      simp only [List.map_cons, List.mem_cons] at hmem'
      rcases hmem' with rfl | hmem'
      · exact hnodup.1 hn
      · exact hdisj n (by simp only [nombres, List.map_cons, List.mem_cons]; exact Or.inr hn) hmem'
    · rw [List.map_cons]
      exact (List.Perm.append_left _ hp).trans List.perm_middle

theorem sumasPips_perm (js : List Participante) (hnodup : (nombres js).Nodup) :
    (sumasPips js).Perm (js.map fun j => (j.nombre, sumaMano j)) := by
  have := sumasPips_perm_aux js [] hnodup (by simp)
  rwa [List.append_nil] at this

theorem puntosSin_eq_aux (w : String) (m : Mapa) (a : Int) :
    m.foldl (fun puntos kv => if kv.1 ≠ w then puntos + kv.2 else puntos) a =
      a + ((m.filter fun kv => kv.1 ≠ w).map Prod.snd).sum := by
  induction m generalizing a with
  | nil => simp
  | cons kv resto ih =>
    rw [List.foldl_cons, ih]
    by_cases h : kv.1 ≠ w
    · rw [if_pos h, List.filter_cons_of_pos (by simpa using h)]
      simp only [List.map_cons, List.sum_cons]
      omega
    · rw [if_neg h, List.filter_cons_of_neg (by simpa using h)]

/-- The loop that adds up the others' points is the sum over the entries with
another key. -/
theorem puntosSin_eq (w : String) (m : Mapa) :
    puntosSin w m = ((m.filter fun kv => kv.1 ≠ w).map Prod.snd).sum := by
  rw [puntosSin, puntosSin_eq_aux, zero_add]

theorem sumaMano_eq (j : Participante) :
    sumaMano j = (j.piezasMano.map fun t => t.ladoIzquierdo + t.ladoDerecho).sum := by
  have h : ∀ (l : List PiezaDomino) (a : Int),
      l.foldl (fun suma pieza => suma + pieza.totalPuntos) a =
        a + (l.map fun t => t.ladoIzquierdo + t.ladoDerecho).sum := by
    intro l
    induction l with
    | nil => simp
    | cons t ts ih =>
      intro a
      rw [List.foldl_cons, ih]
      simp only [List.map_cons, List.sum_cons, PiezaDomino.totalPuntos]
      omega
  rw [sumaMano, h, zero_add]

/-- With pairwise distinct names, the points of a round for `w` are the pip sums
of the hands of all players not named `w`. -/
theorem puntosSin_sumasPips (js : List Participante) (w : String)
    (hnodup : (nombres js).Nodup) :
    puntosSin w (sumasPips js) =
      ((js.filter fun j => j.nombre ≠ w).map fun j =>
        (j.piezasMano.map fun t => t.ladoIzquierdo + t.ladoDerecho).sum).sum := by
  rw [puntosSin_eq]
  have hp := ((sumasPips_perm js hnodup).filter fun kv => kv.1 ≠ w).map Prod.snd
  rw [hp.sum_eq, List.filter_map, List.map_map]
  congr 1
  show List.map (fun j => sumaMano j) (js.filter fun j => decide (j.nombre ≠ w)) = _
  exact List.map_congr_left fun j _ => sumaMano_eq j

/-- C10: scoring with a winner.  For players with pairwise distinct names and
any hands, `procesarPuntuacion(w)` returns `w` and increases the cumulative total
of `w` by exactly the sum, over the players not named `w`, of the pip sums of
their hands: for every non-empty `w`, and so, no player having the empty name
(`configurarParticipantes` replaces an empty name by `Jugador<i>`), for every
winner name `w` that is one of the players. -/
theorem C10_puntuacion_con_ganador (p : PartidaDomino)
    (hnodup : (nombres p.jugadores).Nodup) :
    (∀ w : String, w ≠ "" →
      (procesarPuntuacion p w).1 = w ∧
      valorEn (procesarPuntuacion p w).2.puntuacionTotal w =
        valorEn p.puntuacionTotal w +
          ((p.jugadores.filter fun j => j.nombre ≠ w).map fun j =>
            (j.piezasMano.map fun t => t.ladoIzquierdo + t.ladoDerecho).sum).sum) ∧
    ((∀ j ∈ p.jugadores, j.nombre ≠ "") → ∀ w ∈ nombres p.jugadores,
      (procesarPuntuacion p w).1 = w ∧
      valorEn (procesarPuntuacion p w).2.puntuacionTotal w =
        valorEn p.puntuacionTotal w +
          ((p.jugadores.filter fun j => j.nombre ≠ w).map pipSum).sum) := by
  have hgeneral : ∀ w : String, w ≠ "" →
      (procesarPuntuacion p w).1 = w ∧
      valorEn (procesarPuntuacion p w).2.puntuacionTotal w =
        valorEn p.puntuacionTotal w +
          ((p.jugadores.filter fun j => j.nombre ≠ w).map fun j =>
            (j.piezasMano.map fun t => t.ladoIzquierdo + t.ladoDerecho).sum).sum := by
    intro w hw
    unfold procesarPuntuacion
    rw [if_pos hw]
    refine ⟨rfl, ?_⟩
    dsimp only
    rw [sumarEn, valorEn_asignar, puntosSin_sumasPips _ _ hnodup]
  refine ⟨hgeneral, ?_⟩
  intro hnombres w hw
  obtain ⟨j, hj, hjw⟩ := List.mem_map.mp hw
  exact hgeneral w (hjw ▸ hnombres j hj)

/-- C10 at the example of the specification: the winner has no tiles left, the
two others hold pip sums 12 and 5; the winner gains exactly 17. -/
theorem C10_puntuacion_con_ganador_witness :
    (procesarPuntuacion
      ⟨[], [], [], [⟨"Ana", []⟩, ⟨"Luis", [⟨6, 6⟩]⟩, ⟨"Eva", [⟨2, 3⟩]⟩],
        [("Ana", 4), ("Eva", 0), ("Luis", 0)], 3⟩ "Ana").1 = "Ana" ∧
    valorEn (procesarPuntuacion
      ⟨[], [], [], [⟨"Ana", []⟩, ⟨"Luis", [⟨6, 6⟩]⟩, ⟨"Eva", [⟨2, 3⟩]⟩],
        [("Ana", 4), ("Eva", 0), ("Luis", 0)], 3⟩ "Ana").2.puntuacionTotal "Ana" = 4 + 17 :=
  (C10_puntuacion_con_ganador
    ⟨[], [], [], [⟨"Ana", []⟩, ⟨"Luis", [⟨6, 6⟩]⟩, ⟨"Eva", [⟨2, 3⟩]⟩],
      [("Ana", 4), ("Eva", 0), ("Luis", 0)], 3⟩ (by decide)).2 (by decide) "Ana" (by decide)

/-! ## The round always comes to an end -/

/-- Run for more turns than `medida` allows, the loop is over: it has returned,
waits for input, or has indexed out of range. -/
theorem bucleRonda_termina (n : Nat) (r0 : Ronda) (h : medida r0 < n) (r : Ronda) :
    bucleRonda n r0 ≠ .sigue r := by
  induction n generalizing r0 with
  | zero => omega
  | succ k ih =>
    rw [bucleRonda]
    cases hp : pasoRonda r0 with
    | sigue r1 =>
      have := (medida_sigue hp).1
      exact ih r1 (by omega)
    | fin f p e => intro hc; cases hc
    | espera => intro hc; cases hc
    | indefinido => intro hc; cases hc

/-- The method `ejecutarRonda` never runs out of its bound on the turns. -/
theorem ejecutarRonda_termina (barajar : List PiezaDomino → List PiezaDomino)
    (p : PartidaDomino) (entradas : List Pasada) (r : Ronda) :
    ejecutarRonda barajar p entradas ≠ .sigue r := by
  unfold ejecutarRonda
  exact bucleRonda_termina _ _ (by unfold medida cotaTurnos; omega) r

/-! ## C17, C18: equality and flip of tiles -/

/-- C17: tile equality is unordered-pair equality.  For all tiles `a`, `b`,
`a.esIgualA(b)` holds exactly when the unordered pairs of their pips are equal;
so `esIgualA` is reflexive, symmetric and transitive.  `[3|5]` equals `[5|3]`
and does not equal `[3|6]`. -/
theorem C17_esIgualA_par_no_ordenado :
    (∀ a b : PiezaDomino, a.esIgualA b = true ↔
      s(a.ladoIzquierdo, a.ladoDerecho) = s(b.ladoIzquierdo, b.ladoDerecho)) ∧
    (∀ a : PiezaDomino, a.esIgualA a = true) ∧
    (∀ a b : PiezaDomino, a.esIgualA b = true → b.esIgualA a = true) ∧
    (∀ a b c : PiezaDomino, a.esIgualA b = true → b.esIgualA c = true →
      a.esIgualA c = true) ∧
    PiezaDomino.esIgualA ⟨3, 5⟩ ⟨5, 3⟩ = true ∧
    PiezaDomino.esIgualA ⟨3, 5⟩ ⟨3, 6⟩ = false := by
  have hiff : ∀ a b : PiezaDomino, a.esIgualA b = true ↔
      s(a.ladoIzquierdo, a.ladoDerecho) = s(b.ladoIzquierdo, b.ladoDerecho) := by
    intro a b
    rw [Sym2.eq_iff]
    simp only [PiezaDomino.esIgualA, Bool.or_eq_true, Bool.and_eq_true, beq_iff_eq]
  refine ⟨hiff, ?_, ?_, ?_, by decide, by decide⟩
  · intro a
    rw [hiff]
  · intro a b h
    rw [hiff] at h ⊢
    exact h.symm
  · intro a b c h1 h2
    rw [hiff] at h1 h2 ⊢
    exact h1.trans h2

/-- C18: flip is an involution that preserves identity.  Flipping a tile twice
gives back the same left and right pips; after one or two flips the tile is
still `esIgualA`-equal to the original, and it is `esIgualA`-equal to exactly
the same tiles as before. -/
theorem C18_voltear_involucion :
    (∀ t : PiezaDomino, t.voltear.voltear = t) ∧
    (∀ t : PiezaDomino, t.voltear.esIgualA t = true ∧ t.voltear.voltear.esIgualA t = true) ∧
    (∀ t u : PiezaDomino, t.voltear.esIgualA u = t.esIgualA u ∧
      u.esIgualA t.voltear = u.esIgualA t ∧
      t.voltear.voltear.esIgualA u = t.esIgualA u) := by
  refine ⟨fun t => rfl, fun t => ⟨esIgualA_voltear t, esIgualA_refl t⟩, ?_⟩
  intro t u
  obtain ⟨a, b⟩ := t
  obtain ⟨c, d⟩ := u
  refine ⟨?_, ?_, rfl⟩
  · rw [Bool.eq_iff_iff]
    simp only [PiezaDomino.esIgualA, PiezaDomino.voltear, Bool.or_eq_true, Bool.and_eq_true,
      beq_iff_eq]
    tauto
  · simp only [PiezaDomino.esIgualA, PiezaDomino.voltear]
    rw [Bool.or_comm]

/-! ## C15: the canonical set -/

theorem mem_conjuntoCompleto (t : PiezaDomino) :
    t ∈ conjuntoCompleto ↔
      0 ≤ t.ladoIzquierdo ∧ t.ladoIzquierdo ≤ t.ladoDerecho ∧ t.ladoDerecho ≤ 6 := by
  constructor
  · revert t
    decide
  · obtain ⟨a, b⟩ := t
    rintro ⟨h0, h1, h2⟩
    dsimp only at h0 h1 h2
    have ha : a ≤ 6 := le_trans h1 h2
    interval_cases a <;> interval_cases b <;> decide

/-- C15: the canonical tile set.  On every call, whatever `fabricaPiezas` held,
`generarConjuntoCompleto` leaves exactly 28 tiles: each pair `(i, j)` with
`0 ≤ i ≤ j ≤ 6` once and nothing else, no two of them `esIgualA`-equal; and
after `mezclarYPreparar` (with a shuffle that permutes its argument) the pool
is a permutation of that set. -/
theorem C15_conjunto_canonico :
    (∀ p : PartidaDomino, (generarConjuntoCompleto p).fabricaPiezas = conjuntoCompleto ∧
      generarConjuntoCompleto (generarConjuntoCompleto p) = generarConjuntoCompleto p) ∧
    conjuntoCompleto.length = 28 ∧
    (∀ t : PiezaDomino, t ∈ conjuntoCompleto ↔
      0 ≤ t.ladoIzquierdo ∧ t.ladoIzquierdo ≤ t.ladoDerecho ∧ t.ladoDerecho ≤ 6) ∧
    (∀ i j : Int, 0 ≤ i → i ≤ j → j ≤ 6 → conjuntoCompleto.count ⟨i, j⟩ = 1) ∧
    conjuntoCompleto.Pairwise (fun a b => a.esIgualA b = false) ∧
    (∀ (barajar : List PiezaDomino → List PiezaDomino), (∀ l, (barajar l).Perm l) →
      ∀ p : PartidaDomino, (mezclarYPreparar barajar p).pozo.Perm conjuntoCompleto ∧
        (mezclarYPreparar barajar p).fabricaPiezas = (mezclarYPreparar barajar p).pozo) := by
  refine ⟨fun p => ⟨rfl, rfl⟩, conjuntoCompleto_length, mem_conjuntoCompleto, ?_, ?_, ?_⟩
  · intro i j h0 h1 h2
    exact List.count_eq_one_of_mem conjuntoCompleto_nodup
      ((mem_conjuntoCompleto ⟨i, j⟩).mpr ⟨h0, h1, h2⟩)
  · refine conjuntoCompleto_nodup.imp_of_mem ?_
    intro a b ha hb hne
    cases h : a.esIgualA b with
    | false => rfl
    | true =>
      exfalso
      have h1 := (esIgualA_iff_canonica a b (conjuntoCompleto_orientado b hb)).mp h
      have h2 : a.canonica = a := by
        unfold PiezaDomino.canonica
        rw [if_pos (conjuntoCompleto_orientado a ha)]
      exact hne (h2.symm.trans h1)
  · intro barajar hb p
    exact ⟨hb conjuntoCompleto, rfl⟩

/-! ## C19, C20: orientation on placement, first placement -/

/-- Option `p` with a valid index and a side, on a non-empty board: the pass
through the menu written out. -/
theorem unaPasada_jugar (eI eD : Int) (m : Mesa) (i : Nat) (elegida : PiezaDomino) (l : Char)
    (htablero : m.tablero ≠ []) (hi : m.mano[i]? = some elegida) :
    unaPasada eI eD ⟨some 'p', some (i : Int), some l⟩ m =
      if l.toUpper = 'I' then
        if elegida.ladoDerecho = eI then
          (.retorna true, ⟨m.mano.eraseIdx i, elegida :: m.tablero, m.pozo⟩)
        else if elegida.ladoIzquierdo = eI then
          (.retorna true, ⟨m.mano.eraseIdx i, elegida.voltear :: m.tablero, m.pozo⟩)
        else (.continua, m)
      else if l.toUpper = 'D' then
        if elegida.ladoIzquierdo = eD then
          (.retorna true, ⟨m.mano.eraseIdx i, m.tablero ++ [elegida], m.pozo⟩)
        else if elegida.ladoDerecho = eD then
          (.retorna true, ⟨m.mano.eraseIdx i, m.tablero ++ [elegida.voltear], m.pozo⟩)
        else (.continua, m)
      else (.continua, m) := by
  obtain ⟨mano, tablero, pozo⟩ := m
  dsimp only at htablero hi
  have hlt : i < mano.length := by
    by_contra hge
    rw [List.getElem?_eq_none (by omega)] at hi
    cases hi
  have hr : ¬((i : Int) < 0 ∨ (i : Int) ≥ (mano.length : Int)) := by
    push_neg
    exact ⟨by omega, by exact_mod_cast hlt⟩
  have hvacio : tablero.isEmpty = false := by
    cases tablero with
    | nil => exact absurd rfl htablero
    | cons t ts => rfl
  unfold unaPasada
  dsimp only
  rw [if_pos rfl, if_neg hr, show ((i : Int)).toNat = i from Int.toNat_ofNat i, hi]
  dsimp only
  rw [hvacio, if_neg Bool.false_ne_true]

theorem extremos_cons (t : PiezaDomino) (tablero : List PiezaDomino) (h : tablero ≠ []) :
    extremos (t :: tablero) = (t.ladoIzquierdo, (extremos tablero).2) := by
  cases tablero with
  | nil => exact absurd rfl h
  | cons u us =>
    have h1 : (t :: u :: us).getLast? = some ((u :: us).getLast (by simp)) := by
      rw [List.getLast?_eq_getLast _ (by simp), List.getLast_cons (by simp)]
    have h2 : (u :: us).getLast? = some ((u :: us).getLast (by simp)) :=
      List.getLast?_eq_getLast _ _
    simp only [extremos, List.head?_cons, h1, h2]

theorem extremos_concat (t : PiezaDomino) (tablero : List PiezaDomino) (h : tablero ≠ []) :
    extremos (tablero ++ [t]) = ((extremos tablero).1, t.ladoDerecho) := by
  cases tablero with
  | nil => exact absurd rfl h
  | cons u us =>
    have h1 : (u :: us ++ [t]).getLast? = some t := List.getLast?_concat (u :: us)
    have h2 : (u :: us).getLast? = some ((u :: us).getLast (by simp)) :=
      List.getLast?_eq_getLast _ _
    simp only [extremos, List.cons_append, List.head?_cons, h2]
    rw [← List.cons_append, h1]

/-- C19: orientation correction on placement.  On a non-empty board with open
ends `(L, R)`, for the tile `(a, b)` at a valid index: on side I, if `b = L` it
goes to the front as `(a, b)`, otherwise if `a = L` it goes to the front flipped
as `(b, a)`; on side D, if `a = R` it goes to the back as `(a, b)`, otherwise if
`b = R` it goes to the back flipped as `(b, a)`.  After the placement the open
end on the played side is the other pip of the tile and the opposite open end
is unchanged. -/
theorem C19_orientacion_al_colocar (m : Mesa) (i : Nat) (a b : Int) (l : Char)
    (htablero : m.tablero ≠ []) (hi : m.mano[i]? = some ⟨a, b⟩) :
    (l.toUpper = 'I' → b = (extremos m.tablero).1 →
      unaPasada (extremos m.tablero).1 (extremos m.tablero).2 ⟨some 'p', some (i : Int), some l⟩ m
        = (.retorna true, ⟨m.mano.eraseIdx i, ⟨a, b⟩ :: m.tablero, m.pozo⟩) ∧
      extremos (⟨a, b⟩ :: m.tablero) = (a, (extremos m.tablero).2)) ∧
    (l.toUpper = 'I' → b ≠ (extremos m.tablero).1 → a = (extremos m.tablero).1 →
      unaPasada (extremos m.tablero).1 (extremos m.tablero).2 ⟨some 'p', some (i : Int), some l⟩ m
        = (.retorna true, ⟨m.mano.eraseIdx i, ⟨b, a⟩ :: m.tablero, m.pozo⟩) ∧
      extremos (⟨b, a⟩ :: m.tablero) = (b, (extremos m.tablero).2)) ∧
    (l.toUpper = 'D' → a = (extremos m.tablero).2 →
      unaPasada (extremos m.tablero).1 (extremos m.tablero).2 ⟨some 'p', some (i : Int), some l⟩ m
        = (.retorna true, ⟨m.mano.eraseIdx i, m.tablero ++ [⟨a, b⟩], m.pozo⟩) ∧
      extremos (m.tablero ++ [⟨a, b⟩]) = ((extremos m.tablero).1, b)) ∧
    (l.toUpper = 'D' → a ≠ (extremos m.tablero).2 → b = (extremos m.tablero).2 →
      unaPasada (extremos m.tablero).1 (extremos m.tablero).2 ⟨some 'p', some (i : Int), some l⟩ m
        = (.retorna true, ⟨m.mano.eraseIdx i, m.tablero ++ [⟨b, a⟩], m.pozo⟩) ∧
      extremos (m.tablero ++ [⟨b, a⟩]) = ((extremos m.tablero).1, a)) := by
  have hu := unaPasada_jugar (extremos m.tablero).1 (extremos m.tablero).2 m i ⟨a, b⟩ l
    htablero hi
  dsimp only at hu
  have hID : ('D' : Char) ≠ 'I' := by decide
  refine ⟨?_, ?_, ?_, ?_⟩
  · intro hl hb
    rw [hu, if_pos hl, if_pos hb]
    exact ⟨rfl, extremos_cons _ _ htablero⟩
  · intro hl hb ha
    rw [hu, if_pos hl, if_neg hb, if_pos ha]
    exact ⟨rfl, extremos_cons _ _ htablero⟩
  · intro hl ha
    rw [hu, if_neg (by rw [hl]; exact hID), if_pos hl, if_pos ha]
    exact ⟨rfl, extremos_concat _ _ htablero⟩
  · intro hl ha hb
    rw [hu, if_neg (by rw [hl]; exact hID), if_pos hl, if_neg ha, if_pos hb]
    exact ⟨rfl, extremos_concat _ _ htablero⟩

/-- C19 at a concrete placement: on the board `[1|2]` the tile `[1|5]` asked for
side I does not fit as given and goes to the front as `[5|1]`; the open ends
become 5 and 2. -/
theorem C19_orientacion_al_colocar_witness :
    unaPasada 1 2 ⟨some 'p', some 0, some 'i'⟩ ⟨[⟨1, 5⟩], [⟨1, 2⟩], []⟩
      = (.retorna true, ⟨[], [⟨5, 1⟩, ⟨1, 2⟩], []⟩) ∧
    extremos [⟨5, 1⟩, ⟨1, 2⟩] = (5, 2) :=
  (C19_orientacion_al_colocar ⟨[⟨1, 5⟩], [⟨1, 2⟩], []⟩ 0 1 5 'i' (by decide) (by decide)).2.1
    (by decide) (by decide) (by decide)

/-- A hand that holds a playable tile draws nothing. -/
theorem robar_nada {v : Bool} {eI eD : Int} {mano : List PiezaDomino}
    (h : hayJugable v eI eD mano = true) (pozo : List PiezaDomino) :
    robar v eI eD mano pozo = (true, mano, pozo) := by
  unfold robar
  cases hp : pozo.reverse with
  | nil =>
    have : pozo = [] := List.reverse_eq_nil_iff.mp hp
    simp [robarDesde, h, this]
  | cons t ts =>
    rw [robarDesde, if_pos h]
    dsimp only
    rw [← hp, List.reverse_reverse]

/-- C20: first placement on an empty board.  For the tile `(a, b)` at any valid
index of the hand, option `p` on the empty board succeeds whatever the read of
the side would deliver (it is not asked for): nothing is drawn, the tile goes on
the board as given, the board is `[(a, b)]` and the open ends computed for the
next turn are `a` and `b`; on the empty board they are `-1` and `-1`. -/
theorem C20_primera_colocacion (mano pozo : List PiezaDomino) (i : Nat) (a b : Int)
    (lado : Option Char) (eI eD : Int) (resto : List Pasada)
    (hi : mano[i]? = some ⟨a, b⟩) :
    unaPasada eI eD ⟨some 'p', some (i : Int), lado⟩ ⟨mano, [], pozo⟩
      = (.retorna true, ⟨mano.eraseIdx i, [⟨a, b⟩], pozo⟩) ∧
    realizarJugada ⟨mano, [], pozo⟩ eI eD (⟨some 'p', some (i : Int), lado⟩ :: resto)
      = some (true, ⟨mano.eraseIdx i, [⟨a, b⟩], pozo⟩, resto) ∧
    extremos [] = (-1, -1) ∧
    extremos [⟨a, b⟩] = (a, b) := by
  have hlt : i < mano.length := by
    by_contra hge
    rw [List.getElem?_eq_none (by omega)] at hi
    cases hi
  have hr : ¬((i : Int) < 0 ∨ (i : Int) ≥ (mano.length : Int)) := by
    push_neg
    exact ⟨by omega, by exact_mod_cast hlt⟩
  have h1 : unaPasada eI eD ⟨some 'p', some (i : Int), lado⟩ ⟨mano, [], pozo⟩
      = (.retorna true, ⟨mano.eraseIdx i, [⟨a, b⟩], pozo⟩) := by
    unfold unaPasada
    dsimp only
    rw [if_pos rfl, if_neg hr, show ((i : Int)).toNat = i from Int.toNat_ofNat i, hi]
    rfl
  refine ⟨h1, ?_, rfl, rfl⟩
  have hj : hayJugable true eI eD mano = true := by
    cases mano with
    | nil => simp at hi
    | cons t ts => simp [hayJugable, esJugable]
  unfold realizarJugada
  rw [show (Mesa.mk mano [] pozo).tablero.isEmpty = true from rfl, robar_nada hj]
  dsimp only
  rw [menu, h1]

/-- C20 at a concrete turn: the hand `[3|4][6|2]` plays tile 1 on the empty
board; the board is `[6|2]` and the next open ends are 6 and 2. -/
theorem C20_primera_colocacion_witness :
    realizarJugada ⟨[⟨3, 4⟩, ⟨6, 2⟩], [], [⟨0, 0⟩]⟩ (-1) (-1) [⟨some 'p', some 1, none⟩]
      = some (true, ⟨[⟨3, 4⟩], [⟨6, 2⟩], [⟨0, 0⟩]⟩, []) ∧
    extremos [⟨6, 2⟩] = (6, 2) :=
  ⟨(C20_primera_colocacion [⟨3, 4⟩, ⟨6, 2⟩] [⟨0, 0⟩] 1 6 2 none (-1) (-1) [] (by decide)).2.1,
    (C20_primera_colocacion [⟨3, 4⟩, ⟨6, 2⟩] [⟨0, 0⟩] 1 6 2 none (-1) (-1) [] (by decide)).2.2.2⟩

/-! ## C11, C12: scoring a blocked round -/

theorem sumaMano_eq_pipSum (j : Participante) : sumaMano j = pipSum j := sumaMano_eq j

theorem mem_asignar {m : Mapa} {k : String} {v : Int} {x : String × Int}
    (h : x ∈ asignar m k v) : x = (k, v) ∨ x ∈ m := by
  induction m with
  | nil => simpa [asignar] using h
  | cons kv resto ih =>
    obtain ⟨k', v'⟩ := kv
    rw [asignar] at h
    by_cases h1 : claveMenor k k'
    · rw [if_pos h1] at h
      simpa using h
    · rw [if_neg h1] at h
      by_cases h2 : k = k'
      · rw [if_pos h2] at h
        rcases List.mem_cons.mp h with h | h
        · exact Or.inl h
        · exact Or.inr (List.mem_cons_of_mem _ h)
      · rw [if_neg h2] at h
        rcases List.mem_cons.mp h with h | h
        · exact Or.inr (h ▸ List.mem_cons_self _ _)
        · rcases ih h with h | h
          · exact Or.inl h
          · exact Or.inr (List.mem_cons_of_mem _ h)

/-- Assignment keeps the entries of the map in increasing key order. -/
theorem asignar_ordenado {m : Mapa} (k : String) (v : Int)
    (h : m.Pairwise fun x y => x.1 < y.1) :
    (asignar m k v).Pairwise fun x y => x.1 < y.1 := by
  induction m with
  | nil => simp [asignar]
  | cons kv resto ih =>
    obtain ⟨k', v'⟩ := kv
    rw [List.pairwise_cons] at h
    rw [asignar]
    by_cases h1 : claveMenor k k'
    · rw [if_pos h1]
      have hk : k < k' := (claveMenor_iff k k').mp h1
      refine List.pairwise_cons.mpr ⟨?_, List.pairwise_cons.mpr h⟩
      intro y hy
      rcases List.mem_cons.mp hy with rfl | hy
      · exact hk
      · exact lt_trans hk (h.1 y hy)
    · rw [if_neg h1]
      by_cases h2 : k = k'
      · rw [if_pos h2]
        subst h2
        exact List.pairwise_cons.mpr ⟨fun y hy => h.1 y hy, h.2⟩
      · rw [if_neg h2]
        have hk : k' < k := by
          rcases lt_trichotomy k k' with h3 | h3 | h3
          · exact absurd ((claveMenor_iff k k').mpr h3) h1
          · exact absurd h3 h2
          · exact h3
        refine List.pairwise_cons.mpr ⟨?_, ih h.2⟩
        intro y hy
        rcases mem_asignar hy with rfl | hy
        · exact hk
        · exact h.1 y hy

/-- The map `sumasPips` is in increasing key order. -/
theorem sumasPips_ordenado (js : List Participante) :
    (sumasPips js).Pairwise fun x y => x.1 < y.1 := by
  have h : ∀ (js : List Participante) (m : Mapa), (m.Pairwise fun x y => x.1 < y.1) →
      (js.foldl (fun m j => asignar m j.nombre (sumaMano j)) m).Pairwise
        fun x y => x.1 < y.1 := by
    intro js
    induction js with
    | nil => intro m hm; exact hm
    | cons j js ih =>
      intro m hm
      rw [List.foldl_cons]
      exact ih _ (asignar_ordenado _ _ hm)
  exact h js [] List.Pairwise.nil

/-- The search for the smallest value: either nothing is below the start value,
or the result is the first entry with the smallest value. -/
theorem menor_foldl (m : Mapa) (acc : String × Int) :
    (m.foldl (fun acc kv => if kv.2 < acc.2 then (kv.1, kv.2) else acc) acc = acc ∧
      ∀ x ∈ m, acc.2 ≤ x.2) ∨
    ∃ pre post,
      m = pre ++ m.foldl (fun acc kv => if kv.2 < acc.2 then (kv.1, kv.2) else acc) acc :: post ∧
      (m.foldl (fun acc kv => if kv.2 < acc.2 then (kv.1, kv.2) else acc) acc).2 < acc.2 ∧
      (∀ x ∈ pre,
        (m.foldl (fun acc kv => if kv.2 < acc.2 then (kv.1, kv.2) else acc) acc).2 < x.2) ∧
      ∀ x ∈ post,
        (m.foldl (fun acc kv => if kv.2 < acc.2 then (kv.1, kv.2) else acc) acc).2 ≤ x.2 := by
  induction m generalizing acc with
  | nil => left; exact ⟨rfl, by simp⟩
  | cons x xs ih =>
    rw [List.foldl_cons]
    by_cases hx : x.2 < acc.2
    · rw [if_pos hx]
      right
      rcases ih (x.1, x.2) with ⟨hr, hall⟩ | ⟨pre, post, hm, hlt, hpre, hpost⟩
      · rw [hr]
        exact ⟨[], xs, rfl, hx, by simp, hall⟩
      · refine ⟨x :: pre, post, ?_, lt_trans hlt hx, ?_, hpost⟩
        · rw [List.cons_append, ← hm]
        · intro y hy
          rcases List.mem_cons.mp hy with rfl | hy
          · exact hlt
          · exact hpre y hy
    · rw [if_neg hx]
      rcases ih acc with ⟨hr, hall⟩ | ⟨pre, post, hm, hlt, hpre, hpost⟩
      · left
        refine ⟨hr, ?_⟩
        intro y hy
        rcases List.mem_cons.mp hy with rfl | hy
        · exact not_lt.mp hx
        · exact hall y hy
      · right
        refine ⟨x :: pre, post, ?_, hlt, ?_, hpost⟩
        · rw [List.cons_append, ← hm]
        · intro y hy
          rcases List.mem_cons.mp hy with rfl | hy
          · exact lt_of_lt_of_le hlt (not_lt.mp hx)
          · exact hpre y hy

/-- On a non-empty map in key order whose values are below `INT_MAX`, the search
returns an entry of the map with the smallest value, and among the entries with
that value the one with the smallest key. -/
theorem menorEntrada_spec {m : Mapa} (hne : m ≠ []) (hcota : ∀ x ∈ m, x.2 < 2147483647)
    (hord : m.Pairwise fun x y => x.1 < y.1) :
    menorEntrada m ∈ m ∧ (∀ x ∈ m, (menorEntrada m).2 ≤ x.2) ∧
    ∀ x ∈ m, x.2 = (menorEntrada m).2 → (menorEntrada m).1 ≤ x.1 := by
  unfold menorEntrada
  rcases menor_foldl m ("", 2147483647) with ⟨_, hall⟩ | ⟨pre, post, hm, _, hpre, hpost⟩
  · exfalso
    cases m with
    | nil => exact hne rfl
    | cons x xs =>
      have h1 := hall x (List.mem_cons_self _ _)
      have h2 := hcota x (List.mem_cons_self _ _)
      dsimp only at h1
      omega
  · generalize m.foldl (fun acc kv => if kv.2 < acc.2 then (kv.1, kv.2) else acc)
      ("", 2147483647) = r at hm hpre hpost
    subst hm
    refine ⟨by simp, ?_, ?_⟩
    · intro x hx
      rcases List.mem_append.mp hx with hx | hx
      · exact le_of_lt (hpre x hx)
      · rcases List.mem_cons.mp hx with rfl | hx
        · exact le_refl _
        · exact hpost x hx
    · intro x hx heq
      rcases List.mem_append.mp hx with hx | hx
      · exact absurd heq (ne_of_gt (hpre x hx))
      · rcases List.mem_cons.mp hx with rfl | hx
        · exact le_refl _
        · have := (List.pairwise_append.mp hord).2.1
          exact le_of_lt ((List.pairwise_cons.mp this).1 x hx)

/-- Scoring a blocked round, for players with pairwise distinct names and pip
sums below `INT_MAX`: the entry found by the search belongs to a player with the
smallest pip sum, whose name is the smallest among the players with that sum;
that player's name is returned and that player's total grows by the pip sums of
the players with another name. -/
theorem bloqueo_ganador (p : PartidaDomino) (hne : p.jugadores ≠ [])
    (hnodup : (nombres p.jugadores).Nodup)
    (hcota : ∀ j ∈ p.jugadores, pipSum j < 2147483647) :
    ∃ g ∈ p.jugadores, (procesarPuntuacion p "").1 = g.nombre ∧
      (∀ j ∈ p.jugadores, pipSum g ≤ pipSum j) ∧
      (∀ j ∈ p.jugadores, pipSum j = pipSum g → g.nombre ≤ j.nombre) ∧
      valorEn (procesarPuntuacion p "").2.puntuacionTotal g.nombre =
        valorEn p.puntuacionTotal g.nombre +
          ((p.jugadores.filter fun j => j.nombre ≠ g.nombre).map pipSum).sum := by
  have hperm := sumasPips_perm p.jugadores hnodup
  have hmem : ∀ x, x ∈ sumasPips p.jugadores ↔
      ∃ j ∈ p.jugadores, (j.nombre, pipSum j) = x := by
    intro x
    rw [hperm.mem_iff, List.mem_map]
    constructor
    · rintro ⟨j, hj, rfl⟩
      exact ⟨j, hj, by rw [sumaMano_eq_pipSum]⟩
    · rintro ⟨j, hj, rfl⟩
      exact ⟨j, hj, by rw [sumaMano_eq_pipSum]⟩
  have hne' : sumasPips p.jugadores ≠ [] := by
    intro h
    have := hperm.length_eq
    rw [h, List.length_map] at this
    exact hne (List.length_eq_zero.mp this.symm)
  have hcota' : ∀ x ∈ sumasPips p.jugadores, x.2 < 2147483647 := by
    intro x hx
    obtain ⟨j, hj, rfl⟩ := (hmem x).mp hx
    exact hcota j hj
  obtain ⟨hin, hmin, hkey⟩ := menorEntrada_spec hne' hcota' (sumasPips_ordenado p.jugadores)
  obtain ⟨g, hg, hge⟩ := (hmem _).mp hin
  have hres : (procesarPuntuacion p "").1 = g.nombre := by
    unfold procesarPuntuacion
    rw [if_neg (by simp)]
    dsimp only
    rw [← hge]
  refine ⟨g, hg, hres, ?_, ?_, ?_⟩
  · intro j hj
    have := hmin (j.nombre, pipSum j) ((hmem _).mpr ⟨j, hj, rfl⟩)
    rw [← hge] at this
    exact this
  · intro j hj heq
    have := hkey (j.nombre, pipSum j) ((hmem _).mpr ⟨j, hj, rfl⟩) (by rw [← hge]; exact heq)
    rw [← hge] at this
    exact this
  · have h2 : (procesarPuntuacion p "").2.puntuacionTotal =
        sumarEn p.puntuacionTotal g.nombre (puntosSin g.nombre (sumasPips p.jugadores)) := by
      unfold procesarPuntuacion
      rw [if_neg (by simp)]
      dsimp only
      rw [← hge]
    rw [h2, sumarEn, valorEn_asignar, puntosSin_sumasPips _ _ hnodup]
    rfl

/-- C11: blocked scoring.  For a non-empty list of players with pairwise distinct
names, whatever their hands (pip sums below `INT_MAX`, as the sums of domino
tiles are), `procesarPuntuacion("")` returns the name of a player whose pip sum
is at most every player's pip sum and increases that player's cumulative total
by exactly the sum of the pip sums of all the other players. -/
theorem C11_puntuacion_bloqueo (p : PartidaDomino) (hne : p.jugadores ≠ [])
    (hnodup : (nombres p.jugadores).Nodup)
    (hcota : ∀ j ∈ p.jugadores, pipSum j < 2147483647) :
    ∃ g ∈ p.jugadores, (procesarPuntuacion p "").1 = g.nombre ∧
      (∀ j ∈ p.jugadores, pipSum g ≤ pipSum j) ∧
      valorEn (procesarPuntuacion p "").2.puntuacionTotal g.nombre =
        valorEn p.puntuacionTotal g.nombre +
          ((p.jugadores.filter fun j => j.nombre ≠ g.nombre).map pipSum).sum := by
  obtain ⟨g, hg, hres, hmin, _, hval⟩ := bloqueo_ganador p hne hnodup hcota
  exact ⟨g, hg, hres, hmin, hval⟩

/-- C11 at a concrete blockage: Ana holds 3 pips, Luis 12, Eva 5; Ana is returned
and gains 17. -/
theorem C11_puntuacion_bloqueo_witness :
    (procesarPuntuacion ⟨[], [], [],
      [⟨"Ana", [⟨1, 2⟩]⟩, ⟨"Luis", [⟨6, 6⟩]⟩, ⟨"Eva", [⟨2, 3⟩]⟩],
      [("Ana", 4), ("Eva", 0), ("Luis", 0)], 3⟩ "") =
      ("Ana", ⟨[], [], [], [⟨"Ana", [⟨1, 2⟩]⟩, ⟨"Luis", [⟨6, 6⟩]⟩, ⟨"Eva", [⟨2, 3⟩]⟩],
        [("Ana", 21), ("Eva", 0), ("Luis", 0)], 3⟩) ∧
    ∃ g ∈ [(⟨"Ana", [⟨1, 2⟩]⟩ : Participante), ⟨"Luis", [⟨6, 6⟩]⟩, ⟨"Eva", [⟨2, 3⟩]⟩],
      (procesarPuntuacion ⟨[], [], [],
        [⟨"Ana", [⟨1, 2⟩]⟩, ⟨"Luis", [⟨6, 6⟩]⟩, ⟨"Eva", [⟨2, 3⟩]⟩],
        [("Ana", 4), ("Eva", 0), ("Luis", 0)], 3⟩ "").1 = g.nombre ∧
      (∀ j ∈ [(⟨"Ana", [⟨1, 2⟩]⟩ : Participante), ⟨"Luis", [⟨6, 6⟩]⟩, ⟨"Eva", [⟨2, 3⟩]⟩],
        pipSum g ≤ pipSum j) ∧
      valorEn (procesarPuntuacion ⟨[], [], [],
        [⟨"Ana", [⟨1, 2⟩]⟩, ⟨"Luis", [⟨6, 6⟩]⟩, ⟨"Eva", [⟨2, 3⟩]⟩],
        [("Ana", 4), ("Eva", 0), ("Luis", 0)], 3⟩ "").2.puntuacionTotal g.nombre =
        valorEn [("Ana", 4), ("Eva", 0), ("Luis", 0)] g.nombre +
          (([(⟨"Ana", [⟨1, 2⟩]⟩ : Participante), ⟨"Luis", [⟨6, 6⟩]⟩,
            ⟨"Eva", [⟨2, 3⟩]⟩].filter fun j => j.nombre ≠ g.nombre).map pipSum).sum :=
  ⟨by decide, C11_puntuacion_bloqueo ⟨[], [], [],
    [⟨"Ana", [⟨1, 2⟩]⟩, ⟨"Luis", [⟨6, 6⟩]⟩, ⟨"Eva", [⟨2, 3⟩]⟩],
    [("Ana", 4), ("Eva", 0), ("Luis", 0)], 3⟩ (by decide) (by decide) (by decide)⟩

/-- A hand is a part of the tiles of all hands. -/
theorem mano_sublist_manos {js : List Participante} {j : Participante} (hj : j ∈ js) :
    j.piezasMano.Sublist (manos js) := by
  induction js with
  | nil => cases hj
  | cons x xs ih =>
    simp only [manos, List.flatMap_cons] at ih ⊢
    rcases List.mem_cons.mp hj with rfl | hj
    · exact List.sublist_append_left _ _
    · exact (ih hj).trans (List.sublist_append_right _ _)

theorem totalPuntos_canonica (t : PiezaDomino) : t.canonica.totalPuntos = t.totalPuntos := by
  unfold PiezaDomino.canonica
  by_cases h : t.ladoIzquierdo ≤ t.ladoDerecho
  · rw [if_pos h]
  · rw [if_neg h]
    simp only [PiezaDomino.totalPuntos, PiezaDomino.voltear]
    omega

/-- In a game that conserves the 28 tiles no hand has a pip sum above 168. -/
theorem conserva_pipSum_cota {p : PartidaDomino} (h : conserva p) :
    ∀ j ∈ p.jugadores, pipSum j ≤ 168 := by
  intro j hj
  have hsub : j.piezasMano.Sublist (todasLasPiezas p) :=
    ((mano_sublist_manos hj).trans (List.sublist_append_right _ _)).trans
      (List.sublist_append_left _ _)
  have hnn : ∀ a ∈ (todasLasPiezas p).map PiezaDomino.totalPuntos, 0 ≤ a := by
    intro a ha
    obtain ⟨t, ht, rfl⟩ := List.mem_map.mp ha
    have hc : t.canonica ∈ conjuntoCompleto := h.mem_iff.mp (List.mem_map_of_mem _ ht)
    obtain ⟨h0, h1, _⟩ := (mem_conjuntoCompleto _).mp hc
    rw [← totalPuntos_canonica, PiezaDomino.totalPuntos]
    omega
  have h1 := (hsub.map PiezaDomino.totalPuntos).sum_le_sum hnn
  have h2 : ((todasLasPiezas p).map PiezaDomino.totalPuntos).sum = 168 := by
    have := (h.map PiezaDomino.totalPuntos).sum_eq
    rw [List.map_map] at this
    have hfun : PiezaDomino.totalPuntos ∘ PiezaDomino.canonica = PiezaDomino.totalPuntos :=
      funext totalPuntos_canonica
    rw [hfun] at this
    rw [this]
    decide
  rw [h2] at h1
  exact h1

/-- C12, as the code has it: the blockage tie-break goes by name.  For players
with pairwise distinct names (pip sums below `INT_MAX`), `procesarPuntuacion("")`
returns a player with the smallest pip sum whose name is the smallest, in the
key order of the map, among the players with that sum.  For three players with
pip sums 4, 9 and 4 the winner is the first or the third, whichever has the
smaller name, and gains exactly 9 + 4 = 13. -/
theorem C12_desempate_por_nombre (p : PartidaDomino) (hne : p.jugadores ≠ [])
    (hnodup : (nombres p.jugadores).Nodup)
    (hcota : ∀ j ∈ p.jugadores, pipSum j < 2147483647) :
    (∃ g ∈ p.jugadores, (procesarPuntuacion p "").1 = g.nombre ∧
      (∀ j ∈ p.jugadores, pipSum g ≤ pipSum j) ∧
      ∀ j ∈ p.jugadores, pipSum j = pipSum g → ¬ claveMenor j.nombre g.nombre) ∧
    (∀ j1 j2 j3 : Participante, p.jugadores = [j1, j2, j3] →
      pipSum j1 = 4 → pipSum j2 = 9 → pipSum j3 = 4 →
      (procesarPuntuacion p "").1 =
        (if claveMenor j1.nombre j3.nombre then j1.nombre else j3.nombre) ∧
      valorEn (procesarPuntuacion p "").2.puntuacionTotal (procesarPuntuacion p "").1 =
        valorEn p.puntuacionTotal (procesarPuntuacion p "").1 + 13) := by
  obtain ⟨g, hg, hres, hmin, hkey, hval⟩ := bloqueo_ganador p hne hnodup hcota
  refine ⟨⟨g, hg, hres, hmin, ?_⟩, ?_⟩
  · intro j hj heq hlt
    exact absurd ((claveMenor_iff _ _).mp hlt) (not_lt.mpr (hkey j hj heq))
  · intro j1 j2 j3 hjs h1 h2 h3
    rw [hjs] at hg hmin hkey hval hnodup
    simp only [nombres, List.map_cons, List.map_nil, List.nodup_cons, List.mem_cons,
      List.mem_singleton, not_or, List.not_mem_nil, not_false_eq_true, List.nodup_nil,
      and_true] at hnodup
    obtain ⟨⟨h12, h13⟩, h23⟩ := hnodup
    have hg4 : pipSum g = 4 := by
      have ha := hmin j1 (by simp)
      rcases List.mem_cons.mp hg with rfl | hg'
      · exact h1
      · rcases List.mem_cons.mp hg' with rfl | hg''
        · omega
        · rcases List.mem_cons.mp hg'' with rfl | hg'''
          · exact h3
          · cases hg'''
    have hne2 : g ≠ j2 := by
      rintro rfl
      omega
    rw [hres]
    by_cases hc : claveMenor j1.nombre j3.nombre
    · rw [if_pos hc]
      have hg1 : g = j1 := by
        rcases List.mem_cons.mp hg with rfl | hg'
        · rfl
        · rcases List.mem_cons.mp hg' with rfl | hg''
          · exact absurd rfl hne2
          · rcases List.mem_cons.mp hg'' with rfl | hg'''
            · exfalso
              have := hkey j1 (by simp) (by rw [h1, hg4])
              exact absurd ((claveMenor_iff _ _).mp hc) (not_lt.mpr this)
            · cases hg'''
      subst hg1
      refine ⟨rfl, ?_⟩
      rw [hval]
      have hf : ([g, j2, j3].filter fun j => j.nombre ≠ g.nombre) = [j2, j3] := by
        simp [List.filter_cons, Ne.symm h12, Ne.symm h13]
      rw [hf]
      simp only [List.map_cons, List.map_nil, List.sum_cons, List.sum_nil, h2, h3]
      norm_num
    · rw [if_neg hc]
      have hg3 : g = j3 := by
        rcases List.mem_cons.mp hg with rfl | hg'
        · exfalso
          have := hkey j3 (by simp) (by rw [h3, hg4])
          rcases lt_or_eq_of_le this with hlt | heq
          · exact hc ((claveMenor_iff _ _).mpr hlt)
          · exact h13 heq
        · rcases List.mem_cons.mp hg' with rfl | hg''
          · exact absurd rfl hne2
          · rcases List.mem_cons.mp hg'' with rfl | hg'''
            · rfl
            · cases hg'''
      subst hg3
      refine ⟨rfl, ?_⟩
      rw [hval]
      have hf : ([j1, j2, g].filter fun j => j.nombre ≠ g.nombre) = [j1, j2] := by
        simp [List.filter_cons, h13, h23]
      rw [hf]
      simp only [List.map_cons, List.map_nil, List.sum_cons, List.sum_nil, h1, h2]
      norm_num

/-- C12 at a concrete blockage: Zoe, Bob and Ana, in this order, hold 4, 9 and 4
pips; the third player, Ana, is returned and gains 13. -/
theorem C12_desempate_por_nombre_witness :
    (procesarPuntuacion ⟨[], [], [],
      [⟨"Zoe", [⟨1, 3⟩]⟩, ⟨"Bob", [⟨4, 5⟩]⟩, ⟨"Ana", [⟨2, 2⟩]⟩],
      [("Ana", 0), ("Bob", 0), ("Zoe", 0)], 3⟩ "").1 =
      (if claveMenor "Zoe" "Ana" then "Zoe" else "Ana") ∧
    valorEn (procesarPuntuacion ⟨[], [], [],
      [⟨"Zoe", [⟨1, 3⟩]⟩, ⟨"Bob", [⟨4, 5⟩]⟩, ⟨"Ana", [⟨2, 2⟩]⟩],
      [("Ana", 0), ("Bob", 0), ("Zoe", 0)], 3⟩ "").2.puntuacionTotal
      (procesarPuntuacion ⟨[], [], [],
        [⟨"Zoe", [⟨1, 3⟩]⟩, ⟨"Bob", [⟨4, 5⟩]⟩, ⟨"Ana", [⟨2, 2⟩]⟩],
        [("Ana", 0), ("Bob", 0), ("Zoe", 0)], 3⟩ "").1 =
      valorEn [("Ana", 0), ("Bob", 0), ("Zoe", 0)]
        (procesarPuntuacion ⟨[], [], [],
          [⟨"Zoe", [⟨1, 3⟩]⟩, ⟨"Bob", [⟨4, 5⟩]⟩, ⟨"Ana", [⟨2, 2⟩]⟩],
          [("Ana", 0), ("Bob", 0), ("Zoe", 0)], 3⟩ "").1 + 13 :=
  (C12_desempate_por_nombre ⟨[], [], [],
    [⟨"Zoe", [⟨1, 3⟩]⟩, ⟨"Bob", [⟨4, 5⟩]⟩, ⟨"Ana", [⟨2, 2⟩]⟩],
    [("Ana", 0), ("Bob", 0), ("Zoe", 0)], 3⟩ (by decide) (by decide) (by decide)).2
    ⟨"Zoe", [⟨1, 3⟩]⟩ ⟨"Bob", [⟨4, 5⟩]⟩ ⟨"Ana", [⟨2, 2⟩]⟩ rfl (by decide) (by decide) (by decide)

/-- C12 as stated fails: with the players Zoe, Bob and Ana, in this order,
holding 4, 9 and 4 pips, `procesarPuntuacion("")` returns the third player, Ana,
and credits the 13 points to Ana; the first player, Zoe, keeps 0. -/
theorem C12_contraejemplo_orden_de_lista :
    (nombres [⟨"Zoe", [⟨1, 3⟩]⟩, ⟨"Bob", [⟨4, 5⟩]⟩, ⟨"Ana", [⟨2, 2⟩]⟩]).Nodup ∧
    [(⟨"Zoe", [⟨1, 3⟩]⟩ : Participante), ⟨"Bob", [⟨4, 5⟩]⟩, ⟨"Ana", [⟨2, 2⟩]⟩].map pipSum
      = [4, 9, 4] ∧
    procesarPuntuacion ⟨[], [], [],
      [⟨"Zoe", [⟨1, 3⟩]⟩, ⟨"Bob", [⟨4, 5⟩]⟩, ⟨"Ana", [⟨2, 2⟩]⟩],
      [("Ana", 0), ("Bob", 0), ("Zoe", 0)], 3⟩ "" =
      ("Ana", ⟨[], [], [], [⟨"Zoe", [⟨1, 3⟩]⟩, ⟨"Bob", [⟨4, 5⟩]⟩, ⟨"Ana", [⟨2, 2⟩]⟩],
        [("Ana", 13), ("Bob", 0), ("Zoe", 0)], 3⟩) ∧
    (procesarPuntuacion ⟨[], [], [],
      [⟨"Zoe", [⟨1, 3⟩]⟩, ⟨"Bob", [⟨4, 5⟩]⟩, ⟨"Ana", [⟨2, 2⟩]⟩],
      [("Ana", 0), ("Bob", 0), ("Zoe", 0)], 3⟩ "").1 ≠ "Zoe" := by
  decide

/-! ## C14: detection of a blockage -/

/-- With an empty pool and no playable tile in hand the turn is a forced pass
that changes nothing. -/
theorem realizarJugada_bloqueado {mano tablero : List PiezaDomino} {eI eD : Int}
    (h : hayJugable tablero.isEmpty eI eD mano = false) (entradas : List Pasada) :
    realizarJugada ⟨mano, tablero, []⟩ eI eD entradas
      = some (false, ⟨mano, tablero, []⟩, entradas) := by
  unfold realizarJugada
  have : robar tablero.isEmpty eI eD mano [] = (false, mano, []) := by
    simp [robar, robarDesde, h]
  dsimp only
  rw [this]

/-- Writing back the element that is already there changes nothing. -/
theorem set_mismo {α : Type} {l : List α} {i : Nat} {a : α} (h : l[i]? = some a) :
    l.set i a = l := by
  induction l generalizing i with
  | nil => rfl
  | cons x xs ih =>
    cases i with
    | zero =>
      simp only [List.getElem?_cons_zero, Option.some.injEq] at h
      rw [List.set_cons_zero, h]
    | succ n =>
      simp only [List.getElem?_cons_succ] at h
      rw [List.set_cons_succ, ih h]

/-- One turn of a blocked game: the acting player passes, the game is as before;
the round ends when the counter reaches `totalJugadores` and goes on to the next
player otherwise. -/
theorem pasoRonda_bloqueado (p : PartidaDomino) (i k : Nat) (entradas : List Pasada)
    (hi : i < p.jugadores.length) (htablero : p.tablero ≠ []) (hpozo : p.pozo = [])
    (hnada : ∀ j ∈ p.jugadores, ∀ t ∈ j.piezasMano,
      t.ladoIzquierdo ≠ (extremos p.tablero).1 ∧ t.ladoDerecho ≠ (extremos p.tablero).1 ∧
      t.ladoIzquierdo ≠ (extremos p.tablero).2 ∧ t.ladoDerecho ≠ (extremos p.tablero).2) :
    turnoDe ⟨p, i, k, entradas⟩ =
      some (p.jugadores[i], false, ⟨p.jugadores[i].piezasMano, p.tablero, []⟩, entradas) ∧
    pasoRonda ⟨p, i, k, entradas⟩ =
      if k + 1 ≥ p.totalJugadores then .fin .bloqueo p entradas
      else .sigue ⟨p, (i + 1) % p.totalJugadores, k + 1, entradas⟩ := by
  have hj : p.jugadores[i]? = some p.jugadores[i] := List.getElem?_eq_getElem hi
  have hvacio : p.tablero.isEmpty = false := by
    cases h : p.tablero with
    | nil => exact absurd h htablero
    | cons t ts => rfl
  have hno : hayJugable p.tablero.isEmpty (extremos p.tablero).1 (extremos p.tablero).2
      p.jugadores[i].piezasMano = false := by
    rw [hvacio, hayJugable, List.any_eq_false]
    intro t ht
    obtain ⟨h1, h2, h3, h4⟩ := hnada _ (List.getElem_mem hi) t ht
    simp [esJugable, h1, h2, h3, h4]
  have hr : realizarJugada ⟨p.jugadores[i].piezasMano, p.tablero, p.pozo⟩
      (extremos p.tablero).1 (extremos p.tablero).2 entradas
      = some (false, ⟨p.jugadores[i].piezasMano, p.tablero, p.pozo⟩, entradas) := by
    rw [hpozo]
    exact realizarJugada_bloqueado hno entradas
  have htras : trasJugada p i p.jugadores[i]
      ⟨p.jugadores[i].piezasMano, p.tablero, p.pozo⟩ = p := by
    unfold trasJugada
    dsimp only
    rw [set_mismo hj]
  constructor
  · rw [turnoDe_some]
    exact ⟨hj, by rw [hr, hpozo]⟩
  · unfold pasoRonda
    dsimp only
    rw [hj]
    dsimp only
    rw [hr]
    dsimp only
    rw [if_neg (by simp), htras]
    simp only [Bool.false_eq_true, if_false]

/-- C14: blockage detection.  From a state of the round with as many players as
`totalJugadores` counts, a valid turn index, a non-empty board, an empty pool, a
pass counter of 0 and no tile in any hand with a pip equal to either open end,
the engine takes exactly `totalJugadores` further turns: each of them is a pass
that leaves board, pool and all hands unchanged, the first `totalJugadores - 1`
let the round go on, and the last one makes `ejecutarRonda` return `""`. -/
theorem C14_deteccion_bloqueo (r : Ronda)
    (hjug : r.partida.jugadores.length = r.partida.totalJugadores)
    (hturno : r.turnoActual < r.partida.totalJugadores)
    (htablero : r.partida.tablero ≠ []) (hpozo : r.partida.pozo = [])
    (hpases : r.pasesConsecutivos = 0)
    (hnada : ∀ j ∈ r.partida.jugadores, ∀ t ∈ j.piezasMano,
      t.ladoIzquierdo ≠ (extremos r.partida.tablero).1 ∧
      t.ladoDerecho ≠ (extremos r.partida.tablero).1 ∧
      t.ladoIzquierdo ≠ (extremos r.partida.tablero).2 ∧
      t.ladoDerecho ≠ (extremos r.partida.tablero).2) :
    (∀ k, k < r.partida.totalJugadores →
      ∃ rk j, avanzar k r = some rk ∧ rk.partida = r.partida ∧ rk.entradas = r.entradas ∧
        rk.pasesConsecutivos = k ∧
        rk.turnoActual = (r.turnoActual + k) % r.partida.totalJugadores ∧
        turnoDe rk = some (j, false, ⟨j.piezasMano, r.partida.tablero, []⟩, r.entradas) ∧
        (k + 1 < r.partida.totalJugadores → ∃ r', pasoRonda rk = .sigue r') ∧
        (k + 1 = r.partida.totalJugadores →
          pasoRonda rk = .fin .bloqueo r.partida r.entradas)) ∧
    (∀ n, r.partida.totalJugadores ≤ n →
      bucleRonda n r = .fin .bloqueo r.partida r.entradas ∧
      (bucleRonda n r).cadena = some "") := by
  obtain ⟨p, i0, k0, entradas⟩ := r
  dsimp only at hjug hturno htablero hpozo hpases hnada ⊢
  subst hpases
  have hT : 0 < p.totalJugadores := by omega
  have hav : ∀ k, k < p.totalJugadores →
      avanzar k ⟨p, i0, 0, entradas⟩ =
        some ⟨p, (i0 + k) % p.totalJugadores, k, entradas⟩ := by
    intro k
    induction k with
    | zero =>
      intro _
      rw [avanzar, Nat.add_zero, Nat.mod_eq_of_lt hturno]
    | succ n ih =>
      intro hk
      rw [avanzar, ih (by omega)]
      dsimp only
      have hi : (i0 + n) % p.totalJugadores < p.jugadores.length := by
        rw [hjug]; exact Nat.mod_lt _ hT
      rw [(pasoRonda_bloqueado p _ n entradas hi htablero hpozo hnada).2,
        if_neg (by omega)]
      dsimp only
      rw [Nat.mod_add_mod, Nat.add_assoc]
  constructor
  · intro k hk
    have hi : (i0 + k) % p.totalJugadores < p.jugadores.length := by
      rw [hjug]; exact Nat.mod_lt _ hT
    obtain ⟨ht, hp⟩ := pasoRonda_bloqueado p _ k entradas hi htablero hpozo hnada
    refine ⟨_, _, hav k hk, rfl, rfl, rfl, rfl, ht, ?_, ?_⟩
    · intro hlt
      rw [hp, if_neg (by omega)]
      exact ⟨_, rfl⟩
    · intro heq
      rw [hp, if_pos (by omega)]
  · intro n hn
    have hi : (i0 + (p.totalJugadores - 1)) % p.totalJugadores < p.jugadores.length := by
      rw [hjug]; exact Nat.mod_lt _ hT
    have hp := (pasoRonda_bloqueado p _ (p.totalJugadores - 1) entradas hi htablero hpozo
      hnada).2
    rw [if_pos (by omega)] at hp
    have hb := bucleRonda_of_avanzar (hav (p.totalJugadores - 1) (by omega)) hp
      (n := n) (by omega)
    exact ⟨hb, by rw [hb]; rfl⟩

/-- C14 at a concrete state: board `[1|2]`, empty pool, Ana holds `[3|4]`, Luis
`[5|6]`; Ana and Luis pass and the round returns `""` after two turns. -/
theorem C14_deteccion_bloqueo_witness :
    bucleRonda 2 ⟨⟨[], [], [⟨1, 2⟩], [⟨"Ana", [⟨3, 4⟩]⟩, ⟨"Luis", [⟨5, 6⟩]⟩],
        [("Ana", 0), ("Luis", 0)], 2⟩, 1, 0, []⟩
      = .fin .bloqueo ⟨[], [], [⟨1, 2⟩], [⟨"Ana", [⟨3, 4⟩]⟩, ⟨"Luis", [⟨5, 6⟩]⟩],
        [("Ana", 0), ("Luis", 0)], 2⟩ [] ∧
    (bucleRonda 2 ⟨⟨[], [], [⟨1, 2⟩], [⟨"Ana", [⟨3, 4⟩]⟩, ⟨"Luis", [⟨5, 6⟩]⟩],
        [("Ana", 0), ("Luis", 0)], 2⟩, 1, 0, []⟩).cadena = some "" :=
  (C14_deteccion_bloqueo ⟨⟨[], [], [⟨1, 2⟩], [⟨"Ana", [⟨3, 4⟩]⟩, ⟨"Luis", [⟨5, 6⟩]⟩],
      [("Ana", 0), ("Luis", 0)], 2⟩, 1, 0, []⟩
    (by decide) (by decide) (by decide) (by decide) (by decide) (by decide)).2 2 (by decide)

/-! ## C16: dealing -/

/-- One round of dealing with enough tiles for everybody: player `i` takes the
tile `i` of the pool counted from its back. -/
theorem repartirVuelta_lleno (js : List Participante) (pozoInv : List PiezaDomino)
    (h : js.length ≤ pozoInv.length) :
    repartirVuelta js pozoInv =
      (List.zipWith Participante.tomarPieza js pozoInv, pozoInv.drop js.length) := by
  induction js generalizing pozoInv with
  | nil => rfl
  | cons j js ih =>
    cases pozoInv with
    | nil => simp at h
    | cons t ts =>
      rw [repartirVuelta, ih ts (by simpa using h)]
      rfl

/-- Dealing `vueltas` full rounds: the pool loses its last `vueltas * n` tiles and
player `i` gets, after the tiles already in hand, the tiles `r * n + i`
(`r = 0, 1, ..`) of the pool counted from its back. -/
theorem repartir_lleno (vueltas : Nat) (js : List Participante) (pozoInv : List PiezaDomino)
    (h : vueltas * js.length ≤ pozoInv.length) :
    (repartir vueltas js pozoInv).2 = pozoInv.drop (vueltas * js.length) ∧
    (repartir vueltas js pozoInv).1.length = js.length ∧
    ∀ (i : Nat) (j : Participante), js[i]? = some j →
      (repartir vueltas js pozoInv).1[i]? =
        some ⟨j.nombre, j.piezasMano ++
          (List.range vueltas).filterMap fun r => pozoInv[r * js.length + i]?⟩ := by
  induction vueltas generalizing js pozoInv with
  | zero =>
    refine ⟨by simp [repartir], rfl, ?_⟩
    intro i j hj
    simp [repartir, hj]
  | succ v ih =>
    have hn : js.length ≤ pozoInv.length := by
      have : js.length ≤ (v + 1) * js.length := Nat.le_mul_of_pos_left _ (by omega)
      omega
    have hlen : (List.zipWith Participante.tomarPieza js pozoInv).length = js.length := by
      rw [List.length_zipWith]; omega
    have hv : v * (List.zipWith Participante.tomarPieza js pozoInv).length ≤
        (pozoInv.drop js.length).length := by
      rw [hlen, List.length_drop]
      have : (v + 1) * js.length = v * js.length + js.length := Nat.succ_mul _ _
      omega
    obtain ⟨h1, h2, h3⟩ := ih _ _ hv
    rw [repartir, repartirVuelta_lleno js pozoInv hn]
    dsimp only
    refine ⟨?_, by rw [h2, hlen], ?_⟩
    · rw [h1, hlen, List.drop_drop]
      have : js.length + v * js.length = (v + 1) * js.length := by
        rw [Nat.succ_mul]; omega
      rw [this]
    · intro i j hj
      have hi : i < js.length := by
        by_contra hge
        rw [List.getElem?_eq_none (by omega)] at hj
        cases hj
      have hpi : pozoInv[i]? = some pozoInv[i] := List.getElem?_eq_getElem (by omega)
      have hz : (List.zipWith Participante.tomarPieza js pozoInv)[i]? =
          some (j.tomarPieza pozoInv[i]) := by
        rw [List.getElem?_zipWith, hj, hpi]
      simp only [hlen] at h3
      rw [h3 i _ hz]
      congr 2
      simp only [Participante.tomarPieza, List.append_assoc]
      congr 1
      rw [List.range_succ_eq_map, List.filterMap_cons, Nat.zero_mul, Nat.zero_add, hpi,
        List.filterMap_map]
      simp only [List.singleton_append, List.cons.injEq, true_and]
      refine List.filterMap_congr ?_
      intro r _
      simp only [Function.comp_apply, List.getElem?_drop]
      congr 1
      rw [Nat.succ_mul]
      omega

/-- Collecting `f 0, .., f (v - 1)` when all of them are there. -/
theorem filterMap_range_some {α : Type} (f : Nat → Option α) (v : Nat)
    (h : ∀ r, r < v → ∃ a, f r = some a) :
    ((List.range v).filterMap f).length = v ∧
    ∀ r, r < v → ((List.range v).filterMap f)[r]? = f r := by
  induction v with
  | zero => exact ⟨rfl, fun r hr => absurd hr (Nat.not_lt_zero r)⟩
  | succ n ih =>
    obtain ⟨h1, h2⟩ := ih (fun r hr => h r (by omega))
    obtain ⟨a, ha⟩ := h n (by omega)
    have hl : (List.range (n + 1)).filterMap f = (List.range n).filterMap f ++ [a] := by
      rw [List.range_succ, List.filterMap_append]
      simp [ha]
    rw [hl]
    refine ⟨by rw [List.length_append, h1]; rfl, ?_⟩
    intro r hr
    by_cases hrn : r < n
    · rw [List.getElem?_append_left (by omega), h2 r hrn]
    · have : r = n := by omega
      subst this
      rw [List.getElem?_append_right (by omega), h1, Nat.sub_self, ha]
      rfl

/-- C16: dealing.  For at most four players (in particular 2, 3 or 4) and a pool
of 28 tiles, whatever the hands were before, after `distribuirPiezas` the board
is empty, the pool is the unchanged prefix of `28 - 7n` tiles, the players are
the same in the same order, each holds exactly 7 tiles, and tile `r` of player
`j` is the pool tile at position `27 - (r * n + j)`. -/
theorem C16_reparto (p : PartidaDomino) (n : Nat) (hn : n ≤ 4)
    (hjug : p.jugadores.length = n) (hpozo : p.pozo.length = 28) :
    (distribuirPiezas p).tablero = [] ∧
    (distribuirPiezas p).pozo = p.pozo.take (28 - 7 * n) ∧
    (distribuirPiezas p).pozo.length = 28 - 7 * n ∧
    nombres (distribuirPiezas p).jugadores = nombres p.jugadores ∧
    (distribuirPiezas p).jugadores.length = n ∧
    ∀ j, j < n → ∃ jug, (distribuirPiezas p).jugadores[j]? = some jug ∧
      jug.piezasMano.length = 7 ∧
      ∀ r, r < 7 → jug.piezasMano[r]? = p.pozo[27 - (r * n + j)]? := by
  have hlen : (p.jugadores.map Participante.limpiarMano).length = n := by
    rw [List.length_map, hjug]
  have hrev : p.pozo.reverse.length = 28 := by rw [List.length_reverse, hpozo]
  obtain ⟨h1, h2, h3⟩ := repartir_lleno 7 (p.jugadores.map Participante.limpiarMano)
    p.pozo.reverse (by rw [hlen, hrev]; omega)
  rw [hlen] at h1 h2
  simp only [hlen] at h3
  have hpz : (distribuirPiezas p).pozo = p.pozo.take (28 - 7 * n) := by
    show (repartir 7 _ _).2.reverse = _
    rw [h1, List.drop_reverse, List.reverse_reverse, hpozo]
  refine ⟨rfl, hpz, ?_, ?_, h2, ?_⟩
  · rw [hpz, List.length_take, hpozo]
    omega
  · show nombres (repartir 7 _ _).1 = _
    rw [nombres_repartir]
    simp [nombres, Participante.limpiarMano]
  · intro j hj
    have hjj : j < p.jugadores.length := by omega
    have hget : (p.jugadores.map Participante.limpiarMano)[j]? =
        some p.jugadores[j].limpiarMano := by
      rw [List.getElem?_map, List.getElem?_eq_getElem hjj]
      rfl
    have hres := h3 j _ hget
    have hsome : ∀ r, r < 7 → ∃ a, p.pozo.reverse[r * n + j]? = some a := by
      intro r hr
      have hb : r * n + j < p.pozo.reverse.length := by
        rw [hrev]
        have : r * n ≤ 6 * n := Nat.mul_le_mul_right n (by omega)
        omega
      exact ⟨_, List.getElem?_eq_getElem hb⟩
    obtain ⟨hl, hidx⟩ := filterMap_range_some (fun r => p.pozo.reverse[r * n + j]?) 7 hsome
    refine ⟨_, hres, ?_, ?_⟩
    · simp only [Participante.limpiarMano, List.nil_append]
      exact hl
    · intro r hr
      simp only [Participante.limpiarMano, List.nil_append]
      rw [hidx r hr]
      have hb : r * n + j < p.pozo.length := by
        rw [hpozo]
        have : r * n ≤ 6 * n := Nat.mul_le_mul_right n (by omega)
        omega
      rw [List.getElem?_reverse hb, hpozo]

/-- C16 at a concrete deal: two players with old hands, the 28 tiles in the
order of `generarConjuntoCompleto`; Luis (player 1) gets as tile 2 the pool
tile at position `27 - (2 * 2 + 1) = 22`, which is `[4|4]`, and 14 tiles stay. -/
theorem C16_reparto_witness :
    (distribuirPiezas ⟨[], conjuntoCompleto, [⟨0, 0⟩],
      [⟨"Ana", [⟨1, 1⟩]⟩, ⟨"Luis", [⟨2, 2⟩, ⟨3, 3⟩]⟩], [], 2⟩).pozo.length = 28 - 7 * 2 ∧
    ∃ jug, (distribuirPiezas ⟨[], conjuntoCompleto, [⟨0, 0⟩],
        [⟨"Ana", [⟨1, 1⟩]⟩, ⟨"Luis", [⟨2, 2⟩, ⟨3, 3⟩]⟩], [], 2⟩).jugadores[1]? = some jug ∧
      jug.piezasMano.length = 7 ∧
      ∀ r, r < 7 → jug.piezasMano[r]? = conjuntoCompleto[27 - (r * 2 + 1)]? :=
  ⟨(C16_reparto ⟨[], conjuntoCompleto, [⟨0, 0⟩],
      [⟨"Ana", [⟨1, 1⟩]⟩, ⟨"Luis", [⟨2, 2⟩, ⟨3, 3⟩]⟩], [], 2⟩ 2 (by decide) rfl rfl).2.2.1,
    (C16_reparto ⟨[], conjuntoCompleto, [⟨0, 0⟩],
      [⟨"Ana", [⟨1, 1⟩]⟩, ⟨"Luis", [⟨2, 2⟩, ⟨3, 3⟩]⟩], [], 2⟩ 2 (by decide) rfl rfl).2.2.2.2.2
      1 (by decide)⟩

/-! ## C13: how many turns a round can take -/

/-- A played turn makes the board one tile longer, a pass leaves it. -/
theorem realizarJugada_tablero_length {m m' : Mesa} {eI eD : Int}
    {entradas resto : List Pasada} {b : Bool}
    (h : realizarJugada m eI eD entradas = some (b, m', resto)) :
    m'.tablero.length = m.tablero.length + (if b = true then 1 else 0) := by
  obtain ⟨k, _, _, hc | ⟨_, pre, e, _, hc⟩⟩ := realizarJugada_casos h
  · obtain ⟨_, _, hb, hm', _⟩ := hc
    rw [hb, hm']
    rfl
  · rcases unaPasada_casos eI eD e (trasRobar m k) with h1 | ⟨h1, _⟩ | ⟨i, el, pu, _, _, _, h1⟩
    · rw [h1] at hc; simp at hc
    · rw [h1] at hc
      simp only [Prod.mk.injEq, Efecto.retorna.injEq] at hc
      rw [← hc.1, ← hc.2]
      rfl
    · rcases h1 with ⟨ht, _, h1⟩ | ⟨_, _, _, _, h1⟩ | ⟨_, _, _, _, h1⟩
      · rw [h1] at hc
        simp only [Prod.mk.injEq, Efecto.retorna.injEq] at hc
        rw [← hc.1, ← hc.2]
        rw [trasRobar_tablero] at ht
        rw [ht]
        rfl
      · rw [h1] at hc
        simp only [Prod.mk.injEq, Efecto.retorna.injEq] at hc
        rw [← hc.1, ← hc.2]
        rfl
      · rw [h1] at hc
        simp only [Prod.mk.injEq, Efecto.retorna.injEq] at hc
        rw [← hc.1, ← hc.2]
        simp [trasRobar]

/-- After a turn that leaves the acting player with a tile, in a game that
conserves the 28 tiles, the board holds at most 27 tiles. -/
theorem tablero_le_27 {p : PartidaDomino} {i : Nat} {j : Participante} {m : Mesa}
    (hj : p.jugadores[i]? = some j) (hmano : m.mano ≠ [])
    (hc : conserva (trasJugada p i j m)) :
    (trasJugada p i j m).tablero.length ≤ 27 := by
  have h28 := (conserva_cadaUnaUnaVez hc).2.2
  obtain ⟨otras, _, h2⟩ := manos_set hj
  have hlen := (h2 { j with piezasMano := m.mano }).length_eq
  rw [List.length_append] at hlen
  have hpos : 0 < m.mano.length := List.length_pos.mpr hmano
  rw [← manos_length] at h28
  have hjug : (trasJugada p i j m).jugadores = p.jugadores.set i { j with piezasMano := m.mano } :=
    rfl
  rw [hjug] at h28
  dsimp only at hlen
  omega

/-- The turns of a round are counted by the tiles on the board and the passes
since the last play: after `t` turns of a round that conserves the 28 tiles,
`t` is at most `board * totalJugadores + passes`, with at most 27 tiles on the
board and fewer than `totalJugadores` passes. -/
theorem turnos_cota {t : Nat} {r0 r : Ronda} (h0c : conserva r0.partida)
    (h0t : r0.partida.tablero = []) (h0p : r0.pasesConsecutivos = 0)
    (hT : 1 ≤ r0.partida.totalJugadores) (h : avanzar t r0 = some r) :
    r.partida.tablero.length ≤ 27 ∧
    t ≤ r.partida.tablero.length * r0.partida.totalJugadores + r.pasesConsecutivos ∧
    t + 1 ≤ 28 * r0.partida.totalJugadores := by
  have hinv : r.partida.tablero.length ≤ 27 ∧
      t ≤ r.partida.tablero.length * r0.partida.totalJugadores + r.pasesConsecutivos := by
    induction t generalizing r with
    | zero =>
      rw [avanzar] at h
      injection h with h
      rw [← h, h0t, h0p]
      exact ⟨by simp, by simp⟩
    | succ n ih =>
      obtain ⟨r1, h1, hp⟩ := avanzar_succ h
      obtain ⟨ih1, ih2⟩ := ih h1
      have hlt1 := pases_lt h0p hT h1
      have hc1 : conserva r1.partida := avanzar_invariante conserva conserva_paso h0c h1
      obtain ⟨j, b, m, resto, hj, hr, hw, _, rfl⟩ := pasoRonda_sigue hp
      have hlen := realizarJugada_tablero_length hr
      dsimp only at hlen
      have htab : (trasJugada r1.partida r1.turnoActual j m).tablero = m.tablero := rfl
      dsimp only
      rw [htab, hlen]
      cases b with
      | false =>
        simp only [Bool.false_eq_true, if_false, Nat.add_zero]
        exact ⟨ih1, by omega⟩
      | true =>
        simp only [if_true]
        have hmano : m.mano ≠ [] := fun hm => hw ⟨rfl, hm⟩
        have h27 := tablero_le_27 hj hmano (conserva_paso _ _ _ _ _ _ _ hc1 hj hr)
        rw [htab, hlen] at h27
        simp only [if_true] at h27
        refine ⟨h27, ?_⟩
        rw [Nat.succ_mul]
        omega
  refine ⟨hinv.1, hinv.2, ?_⟩
  have hlt := pases_lt h0p hT h
  have hmul := Nat.mul_le_mul_right r0.partida.totalJugadores hinv.1
  generalize r.partida.tablero.length * r0.partida.totalJugadores = A at hinv hmul
  omega

/-- The turn index after `t` turns. -/
theorem turno_avanzar {t : Nat} {r0 r : Ronda} (h0 : r0.turnoActual = 0)
    (h : avanzar t r0 = some r) : r.turnoActual = t % r0.partida.totalJugadores := by
  induction t generalizing r with
  | zero =>
    rw [avanzar] at h
    injection h with h
    rw [← h, h0]
    simp
  | succ n ih =>
    obtain ⟨r1, h1, hp⟩ := avanzar_succ h
    obtain ⟨j, b, m, resto, _, _, _, _, rfl⟩ := pasoRonda_sigue hp
    dsimp only
    rw [ih h1, (medida_avanzar h1).2, Nat.mod_add_mod]

/-- The players of a round are as many as the players of the game. -/
theorem jugadores_length_avanzar {t : Nat} {r0 r : Ronda} (h : avanzar t r0 = some r) :
    r.partida.jugadores.length = r0.partida.jugadores.length := by
  have := congrArg List.length (nombres_avanzar h)
  simpa [nombres] using this

/-- A loop that is over was ended by the last of finitely many turns. -/
theorem bucleRonda_resultado {n : Nat} {r0 : Ronda} {x : Paso}
    (h : bucleRonda n r0 = x) (hx : ∀ r, x ≠ .sigue r) :
    ∃ t r, t < n ∧ avanzar t r0 = some r ∧ pasoRonda r = x := by
  induction n generalizing r0 with
  | zero => rw [bucleRonda] at h; exact absurd h.symm (hx r0)
  | succ n ih =>
    rw [bucleRonda] at h
    cases hp : pasoRonda r0 with
    | sigue r1 =>
      rw [hp] at h
      obtain ⟨t, r, ht, ha, hr⟩ := ih h
      refine ⟨t + 1, r, by omega, ?_, hr⟩
      rw [avanzar_succ_primero, hp]
      exact ha
    | fin f' p' e' =>
      rw [hp] at h
      exact ⟨0, r0, by omega, rfl, by rw [hp]; exact h⟩
    | espera =>
      rw [hp] at h
      exact ⟨0, r0, by omega, rfl, by rw [hp]; exact h⟩
    | indefinido =>
      rw [hp] at h
      exact ⟨0, r0, by omega, rfl, by rw [hp]; exact h⟩

theorem barajarLarga_perm (l : List PiezaDomino) : (barajarLarga l).Perm l := by
  unfold barajarLarga
  by_cases h : l.Perm conjuntoCompleto
  · rw [if_pos h]
    exact (show mezclaLarga.Perm conjuntoCompleto by decide).trans h.symm
  · rw [if_neg h]

/-- C13, as the code has it: a bound on the turns of a round.  For 2, 3 or 4
players, every shuffle that permutes the tiles and every input, each turn of the
round is among the first `28 * n` calls of `realizarJugada`; `ejecutarRonda`
never indexes `jugadores` out of range and does not run on: it returns (Won or
Blocked) within `28 * n` turns, or the input ends while a player is asked. -/
theorem C13_cota_de_turnos (barajar : List PiezaDomino → List PiezaDomino)
    (hbarajar : ∀ l, (barajar l).Perm l) (p : PartidaDomino) (entradas : List Pasada)
    (n : Nat) (hn : n = 2 ∨ n = 3 ∨ n = 4) (htotal : p.totalJugadores = n)
    (hjug : p.jugadores.length = n) :
    (∀ (t : Nat) (r : Ronda), avanzar t (rondaInicial barajar p entradas) = some r →
      t + 1 ≤ 28 * n) ∧
    ((∃ f p' resto, ejecutarRonda barajar p entradas = .fin f p' resto) ∨
      ejecutarRonda barajar p entradas = .espera) ∧
    (∀ (f : FinRonda) (p' : PartidaDomino) (resto : List Pasada),
      ejecutarRonda barajar p entradas = .fin f p' resto →
      ∃ t r, t + 1 ≤ 28 * n ∧ avanzar t (rondaInicial barajar p entradas) = some r ∧
        pasoRonda r = .fin f p' resto) := by
  have hT : 1 ≤ (rondaInicial barajar p entradas).partida.totalJugadores := by
    show 1 ≤ p.totalJugadores
    omega
  have hT0 : (rondaInicial barajar p entradas).partida.totalJugadores = n := htotal
  have hc0 : conserva (rondaInicial barajar p entradas).partida := by
    show conserva (distribuirPiezas (mezclarYPreparar barajar p))
    unfold conserva
    refine ((distribuirPiezas_perm _).map _).trans ?_
    have : (mezclarYPreparar barajar p).pozo = barajar conjuntoCompleto := rfl
    rw [this]
    refine ((hbarajar _).map _).trans ?_
    rw [conjuntoCompleto_canonica]
  have hcota : ∀ (t : Nat) (r : Ronda),
      avanzar t (rondaInicial barajar p entradas) = some r → t + 1 ≤ 28 * n := by
    intro t r h
    have := (turnos_cota hc0 rfl rfl hT h).2.2
    rw [hT0] at this
    exact this
  refine ⟨hcota, ?_, ?_⟩
  · cases he : ejecutarRonda barajar p entradas with
    | fin f p' resto => exact Or.inl ⟨f, p', resto, rfl⟩
    | espera => exact Or.inr rfl
    | sigue r => exact absurd he (ejecutarRonda_termina barajar p entradas r)
    | indefinido =>
      exfalso
      unfold ejecutarRonda at he
      obtain ⟨t, r, _, ha, hp⟩ := bucleRonda_resultado he (fun r hr => by cases hr)
      rcases pasoRonda_casos r with ⟨hnone, _⟩ | ⟨_, _, _, hc⟩ | ⟨_, _, _, _, _, _, hc⟩
      · have hturno := turno_avanzar
          (show (rondaInicial barajar p entradas).turnoActual = 0 from rfl) ha
        have hlen := jugadores_length_avanzar ha
        have hlen0 : (rondaInicial barajar p entradas).partida.jugadores.length = n := by
          have := congrArg List.length (nombres_rondaInicial barajar p entradas).1
          simp only [nombres, List.length_map] at this
          rw [this, hjug]
        rw [hT0] at hturno
        have hlt : r.turnoActual < r.partida.jugadores.length := by
          rw [hlen, hlen0, hturno]
          exact Nat.mod_lt _ (by omega)
        rw [List.getElem?_eq_getElem hlt] at hnone
        cases hnone
      · rw [hc] at hp; cases hp
      · rcases hc with ⟨_, _, hc⟩ | ⟨_, _, hc⟩ | ⟨_, _, hc⟩ <;>
        · rw [hc] at hp; cases hp
  · intro f p' resto he
    obtain ⟨t, r, ha, hp⟩ := (ejecutarRonda_fin_iff _ _ _ _ _ _).mp he
    exact ⟨t, r, hcota t r ha, ha, hp⟩

/-- C13 at a concrete round: four players, the shuffle `barajarLarga`, the
choices `entradasLargas`; the round is in progress after 33 turns, and 34 is
within `28 * 4`. -/
theorem C13_cota_de_turnos_witness :
    ∃ r, avanzar 33 (rondaInicial barajarLarga partidaCuatro entradasLargas) = some r ∧
      33 + 1 ≤ 28 * 4 :=
  ⟨_, rfl, (C13_cota_de_turnos barajarLarga barajarLarga_perm partidaCuatro entradasLargas 4
    (by decide) rfl rfl).1 33 _ rfl⟩

/-- C13 as stated fails: with four players, the shuffle `barajarLarga` (a
permutation of the 28 tiles) and the validated choices `entradasLargas` (a play
every third turn, passes between), the round has reached neither Won nor Blocked
after 33 turns, more than 28 + 4. -/
theorem C13_contraejemplo_pases_voluntarios :
    (barajarLarga conjuntoCompleto).Perm conjuntoCompleto ∧
    partidaCuatro.totalJugadores = 4 ∧ partidaCuatro.jugadores.length = 4 ∧
    28 + 4 < 33 ∧
    ∃ r, avanzar 33 (rondaInicial barajarLarga partidaCuatro entradasLargas) = some r ∧
      r.partida.tablero.length = 11 ∧ r.pasesConsecutivos = 2 ∧
      r.partida.jugadores.map Participante.cantidadPiezas = [4, 5, 4, 4] :=
  ⟨barajarLarga_perm conjuntoCompleto, rfl, rfl, by decide, _, rfl, rfl, rfl, rfl⟩

/-! ## C21, C29: legality of a tile -/

/-- C21: move legality.  The predicate `esJugable` holds for the tile `(a, b)`
with open ends `(L, R)` exactly when the board is empty or one of `a`, `b` equals
`L` or `R`; on an empty board every tile is legal; and a tile is legal exactly
when its flipped copy is. -/
theorem C21_legalidad :
    (∀ (vacio : Bool) (L R a b : Int), esJugable vacio L R ⟨a, b⟩ = true ↔
      (vacio = true ∨ a = L ∨ b = L ∨ a = R ∨ b = R)) ∧
    (∀ (L R : Int) (t : PiezaDomino), esJugable true L R t = true) ∧
    (∀ (vacio : Bool) (L R : Int) (t : PiezaDomino),
      esJugable vacio L R t.voltear = esJugable vacio L R t) := by
  refine ⟨?_, ?_, ?_⟩
  · intro vacio L R a b
    cases vacio <;>
      simp [esJugable, or_assoc]
  · intro L R t
    simp [esJugable]
  · intro vacio L R t
    obtain ⟨a, b⟩ := t
    cases vacio
    · rw [Bool.eq_iff_iff]
      simp only [esJugable, PiezaDomino.voltear, Bool.false_eq_true, if_false, Bool.or_eq_true,
        beq_iff_eq]
      tauto
    · simp [esJugable]

theorem esJugable_iff (L R : Int) (t : PiezaDomino) :
    esJugable false L R t = true ↔
      (t.ladoIzquierdo = L ∨ t.ladoDerecho = L ∨ t.ladoIzquierdo = R ∨ t.ladoDerecho = R) := by
  simp [esJugable, or_assoc]

/-- On a non-empty board, asking for side I with a tile at a valid index succeeds
exactly when one of its pips equals the left end, for side D the right end. -/
theorem unaPasada_lado (eI eD : Int) (m : Mesa) (i : Nat) (t : PiezaDomino)
    (htablero : m.tablero ≠ []) (hi : m.mano[i]? = some t) :
    ((unaPasada eI eD ⟨some 'p', some (i : Int), some 'I'⟩ m).1 = .retorna true ↔
      (t.ladoDerecho = eI ∨ t.ladoIzquierdo = eI)) ∧
    ((unaPasada eI eD ⟨some 'p', some (i : Int), some 'D'⟩ m).1 = .retorna true ↔
      (t.ladoIzquierdo = eD ∨ t.ladoDerecho = eD)) := by
  have hI := unaPasada_jugar eI eD m i t 'I' htablero hi
  have hD := unaPasada_jugar eI eD m i t 'D' htablero hi
  rw [if_pos (by decide)] at hI
  rw [if_neg (by decide), if_pos (by decide)] at hD
  constructor
  · rw [hI]
    by_cases h1 : t.ladoDerecho = eI
    · rw [if_pos h1]; simp [h1]
    · rw [if_neg h1]
      by_cases h2 : t.ladoIzquierdo = eI
      · rw [if_pos h2]; simp [h2]
      · rw [if_neg h2]; simp [h1, h2]
  · rw [hD]
    by_cases h1 : t.ladoIzquierdo = eD
    · rw [if_pos h1]; simp [h1]
    · rw [if_neg h1]
      by_cases h2 : t.ladoDerecho = eD
      · rw [if_pos h2]; simp [h2]
      · rw [if_neg h2]; simp [h1, h2]

/-- C29: legality agrees with placeability.  On a non-empty board with open ends
`(L, R)`, a tile of the hand is `esJugable` exactly when option `p` with its
index succeeds on side I or on side D.  Hence when the draw phase ends with a
playable tile in hand some choice of index and side makes `realizarJugada`
return `true`, and when no tile of the hand is playable every pass of the menu
with option `p` ends with `continue` and changes nothing. -/
theorem C29_legal_sii_colocable (m : Mesa) (eI eD : Int) (htablero : m.tablero ≠ []) :
    (∀ (i : Nat) (t : PiezaDomino), m.mano[i]? = some t →
      (esJugable false eI eD t = true ↔
        ((unaPasada eI eD ⟨some 'p', some (i : Int), some 'I'⟩ m).1 = .retorna true ∨
         (unaPasada eI eD ⟨some 'p', some (i : Int), some 'D'⟩ m).1 = .retorna true))) ∧
    ((robar false eI eD m.mano m.pozo).1 = true →
      ∃ (i : Nat) (l : Char) (m' : Mesa), (l = 'I' ∨ l = 'D') ∧
        ∀ resto : List Pasada,
          realizarJugada m eI eD (⟨some 'p', some (i : Int), some l⟩ :: resto)
            = some (true, m', resto)) ∧
    (hayJugable false eI eD m.mano = false →
      ∀ e : Pasada, e.opcion = some 'p' → unaPasada eI eD e m = (.continua, m)) := by
  have hvacio : m.tablero.isEmpty = false := by
    cases h : m.tablero with
    | nil => exact absurd h htablero
    | cons t ts => rfl
  refine ⟨?_, ?_, ?_⟩
  · intro i t hi
    obtain ⟨hI, hD⟩ := unaPasada_lado eI eD m i t htablero hi
    rw [hI, hD, esJugable_iff]
    tauto
  · intro hrob
    obtain ⟨k, _, hr, _, _⟩ := robar_spec false eI eD m.mano m.pozo
    rw [hr] at hrob
    dsimp only at hrob
    have hany := hrob
    rw [hayJugable, List.any_eq_true] at hany
    obtain ⟨t, ht, hjug⟩ := hany
    obtain ⟨i, hi⟩ := List.mem_iff_getElem?.mp ht
    have htab' : (trasRobar m k).tablero ≠ [] := htablero
    have hi' : (trasRobar m k).mano[i]? = some t := hi
    obtain ⟨hI, hD⟩ := unaPasada_lado eI eD (trasRobar m k) i t htab' hi'
    have hmenu : ∀ (l : Char) (m' : Mesa) (resto : List Pasada),
        unaPasada eI eD ⟨some 'p', some (i : Int), some l⟩ (trasRobar m k)
          = (.retorna true, m') →
        realizarJugada m eI eD (⟨some 'p', some (i : Int), some l⟩ :: resto)
          = some (true, m', resto) := by
      intro l m' resto hu
      unfold realizarJugada
      rw [hvacio, hr, hrob]
      dsimp only
      rw [menu]
      have : (Mesa.mk (m.mano ++ List.take k m.pozo.reverse) m.tablero
          (List.take (m.pozo.length - k) m.pozo)) = trasRobar m k := rfl
      rw [this, hu]
    rw [esJugable_iff] at hjug
    by_cases hl : t.ladoDerecho = eI ∨ t.ladoIzquierdo = eI
    · have h1 := hI.mpr hl
      refine ⟨i, 'I', (unaPasada eI eD ⟨some 'p', some (i : Int), some 'I'⟩ (trasRobar m k)).2,
        Or.inl rfl, fun resto => hmenu 'I' _ resto ?_⟩
      rw [← h1]
    · have h1 := hD.mpr (by tauto)
      refine ⟨i, 'D', (unaPasada eI eD ⟨some 'p', some (i : Int), some 'D'⟩ (trasRobar m k)).2,
        Or.inr rfl, fun resto => hmenu 'D' _ resto ?_⟩
      rw [← h1]
  · intro hno e he
    rcases unaPasada_casos eI eD e m with hc | ⟨_, hx⟩ | ⟨i, el, pu, hi, _, _, hc⟩
    · exact hc
    · rw [he] at hx
      exact absurd hx (by decide)
    · exfalso
      have hel : esJugable false eI eD el = false := by
        rw [hayJugable, List.any_eq_false] at hno
        have := hno el (List.getElem?_mem hi)
        simpa using this
      have hnot : ¬(el.ladoIzquierdo = eI ∨ el.ladoDerecho = eI ∨ el.ladoIzquierdo = eD ∨
          el.ladoDerecho = eD) := by
        rw [← esJugable_iff, hel]
        exact Bool.false_ne_true
      rcases hc with ⟨ht, _, _⟩ | ⟨_, _, _, hpu, _⟩ | ⟨_, _, _, hpu, _⟩
      · exact htablero ht
      · rcases hpu with ⟨h, _⟩ | ⟨_, h, _⟩ <;> exact hnot (by tauto)
      · rcases hpu with ⟨h, _⟩ | ⟨_, h, _⟩ <;> exact hnot (by tauto)

/-- C29 at a concrete board: on `[1|2]` the tile `[5|1]` is playable and side I
accepts it; the tile `[3|4]` is not playable and both sides reject it. -/
theorem C29_legal_sii_colocable_witness :
    (esJugable false 1 2 ⟨5, 1⟩ = true ↔
      ((unaPasada 1 2 ⟨some 'p', some 0, some 'I'⟩ ⟨[⟨5, 1⟩, ⟨3, 4⟩], [⟨1, 2⟩], []⟩).1
          = .retorna true ∨
       (unaPasada 1 2 ⟨some 'p', some 0, some 'D'⟩ ⟨[⟨5, 1⟩, ⟨3, 4⟩], [⟨1, 2⟩], []⟩).1
          = .retorna true)) ∧
    (esJugable false 1 2 ⟨3, 4⟩ = true ↔
      ((unaPasada 1 2 ⟨some 'p', some 1, some 'I'⟩ ⟨[⟨5, 1⟩, ⟨3, 4⟩], [⟨1, 2⟩], []⟩).1
          = .retorna true ∨
       (unaPasada 1 2 ⟨some 'p', some 1, some 'D'⟩ ⟨[⟨5, 1⟩, ⟨3, 4⟩], [⟨1, 2⟩], []⟩).1
          = .retorna true)) :=
  ⟨(C29_legal_sii_colocable ⟨[⟨5, 1⟩, ⟨3, 4⟩], [⟨1, 2⟩], []⟩ 1 2 (by decide)).1 0 ⟨5, 1⟩
      (by decide),
    (C29_legal_sii_colocable ⟨[⟨5, 1⟩, ⟨3, 4⟩], [⟨1, 2⟩], []⟩ 1 2 (by decide)).1 1 ⟨3, 4⟩
      (by decide)⟩

/-! ## C22: what scoring changes, and what a round leaves -/

theorem valorEn_asignar_ne (m : Mapa) {k k' : String} (v : Int) (h : k' ≠ k) :
    valorEn (asignar m k v) k' = valorEn m k' := by
  induction m with
  | nil => simp [asignar, valorEn, h]
  | cons kv resto ih =>
    obtain ⟨k0, v0⟩ := kv
    rw [asignar]
    by_cases h1 : claveMenor k k0
    · rw [if_pos h1, valorEn, if_neg h]
    · rw [if_neg h1]
      by_cases h2 : k = k0
      · rw [if_pos h2, valorEn, if_neg h, valorEn, if_neg (h2 ▸ h)]
      · rw [if_neg h2, valorEn, valorEn, ih]

/-- Scoring changes the cumulative totals only, and there only the total of the
name it returns, by the points of the round. -/
theorem procesarPuntuacion_marco (p : PartidaDomino) (w : String) :
    (procesarPuntuacion p w).2 =
      { p with puntuacionTotal := (procesarPuntuacion p w).2.puntuacionTotal } ∧
    (∀ x, x ≠ (procesarPuntuacion p w).1 →
      valorEn (procesarPuntuacion p w).2.puntuacionTotal x = valorEn p.puntuacionTotal x) ∧
    valorEn (procesarPuntuacion p w).2.puntuacionTotal (procesarPuntuacion p w).1 =
      valorEn p.puntuacionTotal (procesarPuntuacion p w).1 + puntosDeRonda p w := by
  unfold puntosDeRonda
  unfold procesarPuntuacion
  by_cases hw : w ≠ ""
  · rw [if_pos hw]
    refine ⟨rfl, ?_, ?_⟩
    · intro x hx
      exact valorEn_asignar_ne _ _ hx
    · exact valorEn_asignar _ _ _
  · rw [if_neg hw]
    refine ⟨rfl, ?_, ?_⟩
    · intro x hx
      exact valorEn_asignar_ne _ _ hx
    · exact valorEn_asignar _ _ _

/-- The calls of `realizarJugada` of a round leave the cumulative totals. -/
theorem puntuacion_paso (total : Mapa) (p : PartidaDomino) (turno : Nat) (j : Participante)
    (entradas : List Pasada) (b : Bool) (m : Mesa) (resto : List Pasada)
    (hinv : p.puntuacionTotal = total) (_hj : p.jugadores[turno]? = some j)
    (_h : realizarJugada ⟨j.piezasMano, p.tablero, p.pozo⟩ (extremos p.tablero).1
        (extremos p.tablero).2 entradas = some (b, m, resto)) :
    (trasJugada p turno j m).puntuacionTotal = total := hinv

/-- The method `ejecutarRonda` returns with the cumulative totals it found. -/
theorem ejecutarRonda_puntuacion {barajar : List PiezaDomino → List PiezaDomino}
    {p : PartidaDomino} {entradas : List Pasada} {f : FinRonda} {p' : PartidaDomino}
    {resto : List Pasada} (h : ejecutarRonda barajar p entradas = .fin f p' resto) :
    p'.puntuacionTotal = p.puntuacionTotal := by
  obtain ⟨t, r, ha, hp⟩ := (ejecutarRonda_fin_iff _ _ _ _ _ _).mp h
  have h0 : (rondaInicial barajar p entradas).partida.puntuacionTotal = p.puntuacionTotal := rfl
  have hr := avanzar_invariante (fun q => q.puntuacionTotal = p.puntuacionTotal)
    (puntuacion_paso p.puntuacionTotal) h0 ha
  exact pasoRonda_fin_invariante (fun q => q.puntuacionTotal = p.puntuacionTotal)
    (puntuacion_paso p.puntuacionTotal) hr hp

/-- After the rounds every total is the old total plus the points of the rounds
that returned that name. -/
theorem iniciarRondas_totales
    (rondas : List ((List PiezaDomino → List PiezaDomino) × List Pasada)) (p q : PartidaDomino)
    (creditos : List (String × Int)) (h : iniciarRondas rondas p = some (q, creditos)) :
    creditos.length = rondas.length ∧
    ∀ x, valorEn q.puntuacionTotal x =
      valorEn p.puntuacionTotal x + ((creditos.filter fun c => c.1 = x).map Prod.snd).sum := by
  induction rondas generalizing p creditos with
  | nil =>
    rw [iniciarRondas] at h
    simp only [Option.some.injEq, Prod.mk.injEq] at h
    obtain ⟨rfl, rfl⟩ := h
    exact ⟨rfl, fun x => by simp⟩
  | cons rd rondas ih =>
    obtain ⟨barajar, entradas⟩ := rd
    rw [iniciarRondas] at h
    cases he : ejecutarRonda barajar p entradas with
    | fin f p' resto =>
      rw [he] at h
      dsimp only at h
      cases hi : iniciarRondas rondas (procesarPuntuacion p' f.cadena).2 with
      | none => rw [hi] at h; cases h
      | some x =>
        obtain ⟨q', cr⟩ := x
        rw [hi] at h
        simp only [Option.some.injEq, Prod.mk.injEq] at h
        obtain ⟨rfl, rfl⟩ := h
        obtain ⟨hlen, hval⟩ := ih _ _ hi
        refine ⟨by rw [List.length_cons, List.length_cons, hlen], ?_⟩
        intro x
        obtain ⟨_, hotros, hgan⟩ := procesarPuntuacion_marco p' f.cadena
        have hp' := ejecutarRonda_puntuacion he
        rw [hval x]
        by_cases hx : (procesarPuntuacion p' f.cadena).1 = x
        · rw [List.filter_cons_of_pos (by simpa using hx), List.map_cons, List.sum_cons, ← hx,
            hgan, hp']
          omega
        · rw [List.filter_cons_of_neg (by simpa using hx), hotros x (Ne.symm hx), hp']
    | sigue r => rw [he] at h; cases h
    | espera => rw [he] at h; cases h
    | indefinido => rw [he] at h; cases h

theorem valorEn_reiniciar (m : Mapa) (x : String) :
    valorEn (m.map fun kv => (kv.1, (0 : Int))) x = 0 := by
  induction m with
  | nil => rfl
  | cons kv resto ih =>
    rw [List.map_cons, valorEn]
    split
    · rfl
    · exact ih

/-- C22: score persistence and frame.  One call of `procesarPuntuacion` leaves
the hands, the board, the pool and the tile factory, and in the cumulative
totals it changes the total of the returned name only, by the points of the
round; `ejecutarRonda` never touches the cumulative totals, neither on the way
nor at its return.  Hence after a run of rounds played with the scores kept
there is one credit per round and the total of every name is its total before
the run plus the points of the rounds credited to that name; the explicit reset
(option 2) puts every total to 0. -/
theorem C22_persistencia_y_marco
    (rondas : List ((List PiezaDomino → List PiezaDomino) × List Pasada)) (p q : PartidaDomino)
    (creditos : List (String × Int)) (h : iniciarRondas rondas p = some (q, creditos)) :
    (∀ (p0 : PartidaDomino) (w : String),
      (procesarPuntuacion p0 w).2.jugadores = p0.jugadores ∧
      (procesarPuntuacion p0 w).2.tablero = p0.tablero ∧
      (procesarPuntuacion p0 w).2.pozo = p0.pozo ∧
      (procesarPuntuacion p0 w).2.fabricaPiezas = p0.fabricaPiezas ∧
      (procesarPuntuacion p0 w).2.totalJugadores = p0.totalJugadores ∧
      (∀ x, x ≠ (procesarPuntuacion p0 w).1 →
        valorEn (procesarPuntuacion p0 w).2.puntuacionTotal x =
          valorEn p0.puntuacionTotal x) ∧
      valorEn (procesarPuntuacion p0 w).2.puntuacionTotal (procesarPuntuacion p0 w).1 =
        valorEn p0.puntuacionTotal (procesarPuntuacion p0 w).1 + puntosDeRonda p0 w) ∧
    (∀ (barajar : List PiezaDomino → List PiezaDomino) (p0 : PartidaDomino)
      (entradas : List Pasada),
      (∀ t r, avanzar t (rondaInicial barajar p0 entradas) = some r →
        r.partida.puntuacionTotal = p0.puntuacionTotal) ∧
      (∀ f p' resto, ejecutarRonda barajar p0 entradas = .fin f p' resto →
        p'.puntuacionTotal = p0.puntuacionTotal)) ∧
    creditos.length = rondas.length ∧
    (∀ x, valorEn q.puntuacionTotal x =
      valorEn p.puntuacionTotal x + ((creditos.filter fun c => c.1 = x).map Prod.snd).sum) ∧
    (∀ x, valorEn (reiniciarPuntajes q).puntuacionTotal x = 0) := by
  refine ⟨?_, ?_, (iniciarRondas_totales rondas p q creditos h).1,
    (iniciarRondas_totales rondas p q creditos h).2, fun x => valorEn_reiniciar _ x⟩
  · intro p0 w
    obtain ⟨h1, h2, h3⟩ := procesarPuntuacion_marco p0 w
    refine ⟨?_, ?_, ?_, ?_, ?_, h2, h3⟩ <;> rw [h1]
  · intro barajar p0 entradas
    refine ⟨?_, fun f p' resto he => ejecutarRonda_puntuacion he⟩
    intro t r ha
    exact avanzar_invariante (fun q => q.puntuacionTotal = p0.puntuacionTotal)
      (puntuacion_paso p0.puntuacionTotal) rfl ha

/-- C22 at a concrete session: two rounds of Ana and Luis with the identity
shuffle, each blocked by two voluntary passes; both rounds go to Luis with 61
points, and the total of Luis after the session is 122. -/
theorem C22_persistencia_y_marco_witness :
    ∃ q, iniciarRondas
        [(id, [⟨some 'x', none, none⟩, ⟨some 'x', none, none⟩]),
         (id, [⟨some 'x', none, none⟩, ⟨some 'x', none, none⟩])] partidaEjemplo =
        some (q, [("Luis", 61), ("Luis", 61)]) ∧
      valorEn q.puntuacionTotal "Luis" = valorEn partidaEjemplo.puntuacionTotal "Luis" +
        (([("Luis", (61 : Int)), ("Luis", 61)].filter fun c => c.1 = "Luis").map Prod.snd).sum ∧
      valorEn q.puntuacionTotal "Luis" = 122 :=
  ⟨_, rfl, (C22_persistencia_y_marco
      [(id, [⟨some 'x', none, none⟩, ⟨some 'x', none, none⟩]),
       (id, [⟨some 'x', none, none⟩, ⟨some 'x', none, none⟩])] partidaEjemplo _ _ rfl).2.2.2.1
      "Luis", by decide⟩

/-! ## C26: players of the same name in the map of pip sums -/

theorem clave_unica {m : Mapa} (h : m.Pairwise fun x y => x.1 < y.1) {x y : String × Int}
    (hx : x ∈ m) (hy : y ∈ m) (hxy : x.1 = y.1) : x = y := by
  induction m with
  | nil => cases hx
  | cons a resto ih =>
    rw [List.pairwise_cons] at h
    rcases List.mem_cons.mp hx with hxa | hx <;> rcases List.mem_cons.mp hy with hya | hy
    · rw [hxa, hya]
    · exact absurd hxy (ne_of_lt (hxa ▸ h.1 _ hy))
    · exact absurd hxy.symm (ne_of_lt (hya ▸ h.1 _ hx))
    · exact ih h.2 hx hy

theorem mem_asignar_mismo (m : Mapa) (k : String) (v : Int) : (k, v) ∈ asignar m k v := by
  induction m with
  | nil => simp [asignar]
  | cons kv resto ih =>
    obtain ⟨k0, v0⟩ := kv
    rw [asignar]
    split
    · exact List.mem_cons_self _ _
    · split
      · exact List.mem_cons_self _ _
      · exact List.mem_cons_of_mem _ ih

theorem mem_asignar_otro {m : Mapa} {x : String × Int} (k : String) (v : Int) (hx : x ∈ m)
    (hk : x.1 ≠ k) : x ∈ asignar m k v := by
  induction m with
  | nil => cases hx
  | cons kv resto ih =>
    obtain ⟨k0, v0⟩ := kv
    rw [asignar]
    split
    · exact List.mem_cons_of_mem _ hx
    · split
      · rename_i hkk
        rcases List.mem_cons.mp hx with rfl | hx
        · exact absurd hkk.symm hk
        · exact List.mem_cons_of_mem _ hx
      · rcases List.mem_cons.mp hx with rfl | hx
        · exact List.mem_cons_self _ _
        · exact List.mem_cons_of_mem _ (ih hx)

theorem sumasPips_concat (js : List Participante) (j : Participante) :
    sumasPips (js ++ [j]) = asignar (sumasPips js) j.nombre (sumaMano j) := by
  simp [sumasPips, List.foldl_append]

theorem sumasPips_append (pre post : List Participante) :
    sumasPips (pre ++ post) =
      post.foldl (fun m j => asignar m j.nombre (sumaMano j)) (sumasPips pre) := by
  simp [sumasPips, List.foldl_append]

theorem mem_foldl_asignar {x : String × Int} (post : List Participante) (m : Mapa) (hx : x ∈ m)
    (h : ∀ j ∈ post, j.nombre ≠ x.1) :
    x ∈ post.foldl (fun m j => asignar m j.nombre (sumaMano j)) m := by
  induction post generalizing m with
  | nil => exact hx
  | cons a post ih =>
    rw [List.foldl_cons]
    exact ih _ (mem_asignar_otro _ _ hx (Ne.symm (h a (List.mem_cons_self _ _))))
      fun j hj => h j (List.mem_cons_of_mem _ hj)

theorem mem_sumasPips_nombre {js : List Participante} {x : String × Int}
    (hx : x ∈ sumasPips js) : x.1 ∈ nombres js := by
  induction js using List.reverseRecOn with
  | nil => cases hx
  | append_singleton js j ih =>
    rw [sumasPips_concat] at hx
    rw [nombres, List.map_append, List.mem_append]
    rcases mem_asignar hx with rfl | hx
    · right; simp
    · left; exact ih hx

theorem ultimo_de_nombre {js : List Participante} {k : String} (hk : k ∈ nombres js) :
    ∃ pre j post, js = pre ++ j :: post ∧ j.nombre = k ∧ ∀ x ∈ post, x.nombre ≠ k := by
  induction js with
  | nil => cases hk
  | cons a js ih =>
    by_cases h : k ∈ nombres js
    · obtain ⟨pre, j, post, rfl, hj, hpost⟩ := ih h
      exact ⟨a :: pre, j, post, rfl, hj, hpost⟩
    · refine ⟨[], a, js, rfl, ?_, ?_⟩
      · rw [nombres, List.map_cons, List.mem_cons] at hk
        rcases hk with hk | hk
        · exact hk.symm
        · exact absurd hk h
      · intro x hx hxk
        exact h (hxk ▸ List.mem_map_of_mem _ hx)

/-- The entries of the map of pip sums: one for each name, with the pip sum of
the last player of that name. -/
theorem mem_sumasPips_iff (js : List Participante) (x : String × Int) :
    x ∈ sumasPips js ↔
      ∃ pre j post, js = pre ++ j :: post ∧ (∀ y ∈ post, y.nombre ≠ j.nombre) ∧
        x = (j.nombre, sumaMano j) := by
  have hvuelta : ∀ pre j post, js = pre ++ j :: post → (∀ y ∈ post, y.nombre ≠ j.nombre) →
      (j.nombre, sumaMano j) ∈ sumasPips js := by
    intro pre j post hjs hpost
    rw [hjs, show pre ++ j :: post = (pre ++ [j]) ++ post by simp, sumasPips_append,
      sumasPips_concat]
    exact mem_foldl_asignar post _ (mem_asignar_mismo _ _ _) hpost
  constructor
  · intro hx
    obtain ⟨pre, j, post, hjs, hj, hpost⟩ := ultimo_de_nombre (mem_sumasPips_nombre hx)
    refine ⟨pre, j, post, hjs, fun y hy => hj ▸ hpost y hy, ?_⟩
    exact clave_unica (sumasPips_ordenado js) hx
      (hvuelta pre j post hjs fun y hy => hj ▸ hpost y hy) hj.symm
  · rintro ⟨pre, j, post, hjs, hpost, rfl⟩
    exact hvuelta pre j post hjs hpost

/-- C26: duplicate player names collapse in scoring.  The map of pip sums of
`procesarPuntuacion` has one entry for each name (its keys are distinct), and
the entry of a name carries the pip sum of the last player of that name in the
list `jugadores`: hands of earlier players of the same name are not in the map;
the points of the round are the sum of the entries under another name than the
one returned.  In the game `partidaRepetida` (names Ana, Ana, Luis) the first
player, who emptied the hand, wins: the other players hold 10 and 3 pips, and
the points credited to the name Ana are 3. -/
theorem C26_nombres_repetidos :
    (∀ (js : List Participante) (x : String × Int), x ∈ sumasPips js ↔
      ∃ pre j post, js = pre ++ j :: post ∧ (∀ y ∈ post, y.nombre ≠ j.nombre) ∧
        x = (j.nombre, pipSum j)) ∧
    (∀ js : List Participante, ((sumasPips js).map Prod.fst).Nodup) ∧
    (∀ (p : PartidaDomino) (w : String), puntosDeRonda p w =
      (((sumasPips p.jugadores).filter fun kv => kv.1 ≠ (procesarPuntuacion p w).1).map
        Prod.snd).sum) ∧
    (¬ (nombres partidaRepetida.jugadores).Nodup ∧
      partidaRepetida.jugadores[0]? = some ⟨"Ana", []⟩ ∧
      (procesarPuntuacion partidaRepetida "Ana").1 = "Ana" ∧
      ((partidaRepetida.jugadores.eraseIdx 0).map pipSum).sum = 13 ∧
      puntosDeRonda partidaRepetida "Ana" = 3 ∧
      valorEn (procesarPuntuacion partidaRepetida "Ana").2.puntuacionTotal "Ana" =
        valorEn partidaRepetida.puntuacionTotal "Ana" + 3) := by
  refine ⟨?_, ?_, ?_, by decide, rfl, rfl, by decide, by decide, by decide⟩
  · intro js x
    rw [mem_sumasPips_iff]
    simp only [sumaMano_eq_pipSum]
  · intro js
    have h := sumasPips_ordenado js
    unfold List.Nodup
    rw [List.pairwise_map]
    exact h.imp fun hlt => ne_of_lt hlt
  · intro p w
    rw [puntosDeRonda, puntosSin_eq]

/-! ## C27: the tie-break of a blockage goes by name, not by seat -/

/-- The map of pip sums does not depend on the order of the players, when their
names are pairwise distinct. -/
theorem sumasPips_orden {js ks : List Participante} (hnodup : (nombres js).Nodup)
    (hperm : ks.Perm js) : sumasPips ks = sumasPips js := by
  have hnodup2 : (nombres ks).Nodup := (hperm.map _).nodup_iff.mpr hnodup
  have h1 : (sumasPips ks).Perm (sumasPips js) :=
    ((sumasPips_perm ks hnodup2).trans (hperm.map _)).trans (sumasPips_perm js hnodup).symm
  have hanti : IsAntisymm (String × Int) fun x y => x.1 < y.1 :=
    ⟨fun _ _ h1 h2 => absurd h1 (lt_asymm h2)⟩
  exact List.eq_of_perm_of_sorted h1 (sumasPips_ordenado ks) (sumasPips_ordenado js)

/-- C27: the tie-break of a blockage is by name order, not by seating order.
For players with pairwise distinct names (pip sums below `INT_MAX`),
`procesarPuntuacion("")` returns the name of a player with the smallest pip sum,
and every other player with that pip sum has a greater name in the key order of
the map; the map of pip sums and the returned name are the same for every other
order of the same players in `jugadores`. -/
theorem C27_desempate_por_orden_de_nombre (p q : PartidaDomino) (hne : p.jugadores ≠ [])
    (hnodup : (nombres p.jugadores).Nodup)
    (hcota : ∀ j ∈ p.jugadores, pipSum j < 2147483647)
    (hperm : q.jugadores.Perm p.jugadores) :
    (∃ g ∈ p.jugadores, (procesarPuntuacion p "").1 = g.nombre ∧
      (∀ j ∈ p.jugadores, pipSum g ≤ pipSum j) ∧
      ∀ j ∈ p.jugadores, pipSum j = pipSum g → j ≠ g → claveMenor g.nombre j.nombre) ∧
    sumasPips q.jugadores = sumasPips p.jugadores ∧
    (procesarPuntuacion q "").1 = (procesarPuntuacion p "").1 := by
  obtain ⟨g, hg, hres, hmin, hkey, _⟩ := bloqueo_ganador p hne hnodup hcota
  refine ⟨⟨g, hg, hres, hmin, ?_⟩, sumasPips_orden hnodup hperm, ?_⟩
  · intro j hj heq hjg
    rw [claveMenor_iff]
    refine lt_of_le_of_ne (hkey j hj heq) ?_
    intro hnom
    exact hjg (List.inj_on_of_nodup_map hnodup hj hg hnom.symm)
  · simp only [procesarPuntuacion, ne_eq, not_true_eq_false, if_false,
      sumasPips_orden hnodup hperm]

/-- C27 at a concrete blockage: Zoe, Bob and Ana hold 4, 9 and 4 pips; seated
Zoe, Bob, Ana or Ana, Zoe, Bob, the name returned is Ana. -/
theorem C27_desempate_por_orden_de_nombre_witness :
    (procesarPuntuacion ⟨[], [], [],
      [⟨"Ana", [⟨2, 2⟩]⟩, ⟨"Zoe", [⟨1, 3⟩]⟩, ⟨"Bob", [⟨4, 5⟩]⟩],
      [("Ana", 0), ("Bob", 0), ("Zoe", 0)], 3⟩ "").1 =
    (procesarPuntuacion ⟨[], [], [],
      [⟨"Zoe", [⟨1, 3⟩]⟩, ⟨"Bob", [⟨4, 5⟩]⟩, ⟨"Ana", [⟨2, 2⟩]⟩],
      [("Ana", 0), ("Bob", 0), ("Zoe", 0)], 3⟩ "").1 ∧
    (procesarPuntuacion ⟨[], [], [],
      [⟨"Zoe", [⟨1, 3⟩]⟩, ⟨"Bob", [⟨4, 5⟩]⟩, ⟨"Ana", [⟨2, 2⟩]⟩],
      [("Ana", 0), ("Bob", 0), ("Zoe", 0)], 3⟩ "").1 = "Ana" :=
  ⟨(C27_desempate_por_orden_de_nombre
    ⟨[], [], [], [⟨"Zoe", [⟨1, 3⟩]⟩, ⟨"Bob", [⟨4, 5⟩]⟩, ⟨"Ana", [⟨2, 2⟩]⟩],
      [("Ana", 0), ("Bob", 0), ("Zoe", 0)], 3⟩
    ⟨[], [], [], [⟨"Ana", [⟨2, 2⟩]⟩, ⟨"Zoe", [⟨1, 3⟩]⟩, ⟨"Bob", [⟨4, 5⟩]⟩],
      [("Ana", 0), ("Bob", 0), ("Zoe", 0)], 3⟩
    (by decide) (by decide) (by decide) (by decide)).2.2, by decide⟩

/-! ## C30: a blocked round always has a scored winner -/

/-- Hands drawn from the 28 tiles have pip sums of at most 168. -/
theorem pipSum_cota_de_manos {js : List Participante}
    (h : ((manos js).map PiezaDomino.canonica).Subperm conjuntoCompleto) :
    ∀ j ∈ js, pipSum j ≤ 168 := by
  intro j hj
  have hsub : (j.piezasMano.map PiezaDomino.canonica).Subperm conjuntoCompleto :=
    ((mano_sublist_manos hj).map _).subperm.trans h
  obtain ⟨l, hl, hl2⟩ := hsub
  have hnn : ∀ a ∈ conjuntoCompleto.map PiezaDomino.totalPuntos, 0 ≤ a := by
    intro a ha
    obtain ⟨t, ht, rfl⟩ := List.mem_map.mp ha
    obtain ⟨h0, h1, _⟩ := (mem_conjuntoCompleto _).mp ht
    rw [PiezaDomino.totalPuntos]
    omega
  have h1 := (hl2.map PiezaDomino.totalPuntos).sum_le_sum hnn
  have h2 : (conjuntoCompleto.map PiezaDomino.totalPuntos).sum = 168 := by decide
  have h3 := (hl.map PiezaDomino.totalPuntos).sum_eq
  rw [List.map_map, show PiezaDomino.totalPuntos ∘ PiezaDomino.canonica =
    PiezaDomino.totalPuntos from funext totalPuntos_canonica] at h3
  rw [h2, h3] at h1
  rw [← sumaMano_eq_pipSum, sumaMano_eq]
  exact h1

/-- With at least one player and pip sums below `INT_MAX` the search for the
smallest pip sum ends at an entry of the map, under the name of a player. -/
theorem menorEntrada_de_jugador {js : List Participante} (hne : js ≠ [])
    (hcota : ∀ j ∈ js, pipSum j < 2147483647) :
    menorEntrada (sumasPips js) ∈ sumasPips js ∧
    ∃ g ∈ js, (menorEntrada (sumasPips js)).1 = g.nombre := by
  have hmapa : sumasPips js ≠ [] := by
    obtain ⟨a, ha⟩ := List.exists_mem_of_ne_nil js hne
    obtain ⟨pre, j, post, hjs, hja, hpost⟩ := ultimo_de_nombre
      (show a.nombre ∈ nombres js from List.mem_map_of_mem _ ha)
    rw [← hja] at hpost
    have hmem : (j.nombre, sumaMano j) ∈ sumasPips js :=
      (mem_sumasPips_iff js _).mpr ⟨pre, j, post, hjs, hpost, rfl⟩
    exact List.ne_nil_of_mem hmem
  have hval : ∀ x ∈ sumasPips js, x.2 < 2147483647 := by
    intro x hx
    obtain ⟨pre, j, post, hjs, _, rfl⟩ := (mem_sumasPips_iff js x).mp hx
    rw [sumaMano_eq_pipSum]
    exact hcota j (by rw [hjs]; simp)
  have hmem := (menorEntrada_spec hmapa hval (sumasPips_ordenado js)).1
  refine ⟨hmem, ?_⟩
  obtain ⟨pre, j, post, hjs, _, hx⟩ := (mem_sumasPips_iff js _).mp hmem
  exact ⟨j, by rw [hjs]; simp, by rw [hx]⟩

/-- C30: a blocked round always gets a scored winner.  For a non-empty list of
players with non-empty names (equal names allowed) whose hands are, up to
orientation, distinct tiles of the 28, `procesarPuntuacion("")` returns the name
of one of the players, which is the key of an entry of the map of pip sums, and
not the empty string; so whatever name the round returned, the name that
`iniciar` tests with `ganadorFinal.empty()` is not empty. -/
theorem C30_bloqueo_con_ganador (p : PartidaDomino) (hne : p.jugadores ≠ [])
    (hnombres : ∀ j ∈ p.jugadores, j.nombre ≠ "")
    (hmanos : ((manos p.jugadores).map PiezaDomino.canonica).Subperm conjuntoCompleto) :
    (∃ g ∈ p.jugadores, (procesarPuntuacion p "").1 = g.nombre) ∧
    (procesarPuntuacion p "").1 ∈ (sumasPips p.jugadores).map Prod.fst ∧
    (procesarPuntuacion p "").1 ≠ "" ∧
    ∀ ganadorRonda, (procesarPuntuacion p ganadorRonda).1 ≠ "" := by
  have hcota : ∀ j ∈ p.jugadores, pipSum j < 2147483647 := by
    intro j hj
    have := pipSum_cota_de_manos hmanos j hj
    omega
  obtain ⟨hmem, g, hg, hnom⟩ := menorEntrada_de_jugador hne hcota
  have hres : (procesarPuntuacion p "").1 = (menorEntrada (sumasPips p.jugadores)).1 := by
    simp [procesarPuntuacion]
  have hvacio : (procesarPuntuacion p "").1 ≠ "" := by
    rw [hres, hnom]
    exact hnombres g hg
  refine ⟨⟨g, hg, hres.trans hnom⟩, ?_, hvacio, ?_⟩
  · rw [hres]
    exact List.mem_map_of_mem _ hmem
  · intro w
    by_cases hw : w = ""
    · rw [hw]
      exact hvacio
    · have : (procesarPuntuacion p w).1 = w := by
        simp [procesarPuntuacion, hw]
      rw [this]
      exact hw

/-- C30 at a concrete blockage: in `partidaRepetida` (Ana, Ana, Luis with the
hands none, `[5|5]` and `[1|2]`) the name returned for a blocked round is not
empty; it is Luis. -/
theorem C30_bloqueo_con_ganador_witness :
    (procesarPuntuacion partidaRepetida "").1 ≠ "" ∧
    (procesarPuntuacion partidaRepetida "").1 = "Luis" :=
  ⟨(C30_bloqueo_con_ganador partidaRepetida (by decide) (by decide) (by decide)).2.2.1,
    by decide⟩

/-! ## C28: every round terminates -/

/-- The game is conserved when the turn loop is entered, for a shuffle that
permutes the tiles. -/
theorem conserva_rondaInicial (barajar : List PiezaDomino → List PiezaDomino)
    (hbarajar : ∀ l, (barajar l).Perm l) (p : PartidaDomino) (entradas : List Pasada) :
    conserva (rondaInicial barajar p entradas).partida := by
  show conserva (distribuirPiezas (mezclarYPreparar barajar p))
  unfold conserva
  refine ((distribuirPiezas_perm _).map _).trans ?_
  have : (mezclarYPreparar barajar p).pozo = barajar conjuntoCompleto := rfl
  rw [this]
  refine ((hbarajar _).map _).trans ?_
  rw [conjuntoCompleto_canonica]

/-- During a round the turn index points at a player, when `jugadores` has
`totalJugadores` entries, at least one. -/
theorem jugador_en_turno {barajar : List PiezaDomino → List PiezaDomino} {p : PartidaDomino}
    {entradas : List Pasada} {t : Nat} {r : Ronda} (hT : 1 ≤ p.totalJugadores)
    (hjug : p.jugadores.length = p.totalJugadores)
    (ha : avanzar t (rondaInicial barajar p entradas) = some r) :
    r.turnoActual < r.partida.jugadores.length ∧ r.turnoActual < p.totalJugadores ∧
    r.partida.jugadores.length = p.totalJugadores := by
  have hturno := turno_avanzar
    (show (rondaInicial barajar p entradas).turnoActual = 0 from rfl) ha
  have hlen := jugadores_length_avanzar ha
  have hlen0 : (rondaInicial barajar p entradas).partida.jugadores.length =
      p.totalJugadores := by
    have := congrArg List.length (nombres_rondaInicial barajar p entradas).1
    simp only [nombres, List.length_map] at this
    rw [this, hjug]
  have hT0 : (rondaInicial barajar p entradas).partida.totalJugadores = p.totalJugadores := rfl
  rw [hT0] at hturno
  have hlt : t % p.totalJugadores < p.totalJugadores := Nat.mod_lt _ (by omega)
  refine ⟨?_, ?_, ?_⟩
  · rw [hlen, hlen0, hturno]; exact hlt
  · rw [hturno]; exact hlt
  · rw [hlen, hlen0]

/-- A menu that still has a voluntary pass to read returns, and leaves the
passes behind the one it may have read. -/
theorem menu_con_pases (eI eD : Int) (l : List Pasada) (k : Nat) (m : Mesa) :
    ∃ b m' l', menu eI eD (l ++ List.replicate (k + 1) ⟨some 'x', none, none⟩) m =
      some (b, m', l' ++ List.replicate k ⟨some 'x', none, none⟩) := by
  induction l generalizing m with
  | nil =>
    refine ⟨false, m, [], ?_⟩
    rw [List.nil_append, List.replicate_succ, menu]
    rfl
  | cons e l ih =>
    rw [List.cons_append, menu]
    cases hu : unaPasada eI eD e m with
    | mk ef m1 =>
      cases ef with
      | retorna b =>
        refine ⟨b, m1, l ++ [⟨some 'x', none, none⟩], ?_⟩
        simp only [List.replicate_succ, List.append_assoc, List.singleton_append]
      | continua => exact ih m1

theorem realizarJugada_con_pases (m : Mesa) (eI eD : Int) (l : List Pasada) (k : Nat) :
    ∃ b m' l', realizarJugada m eI eD (l ++ List.replicate (k + 1) ⟨some 'x', none, none⟩) =
      some (b, m', l' ++ List.replicate k ⟨some 'x', none, none⟩) := by
  unfold realizarJugada
  cases hr : robar m.tablero.isEmpty eI eD m.mano m.pozo with
  | mk b resto =>
    obtain ⟨mano, pozo⟩ := resto
    cases b with
    | false =>
      refine ⟨false, { m with mano := mano, pozo := pozo }, l ++ [⟨some 'x', none, none⟩], ?_⟩
      simp only [List.replicate_succ, List.append_assoc, List.singleton_append]
    | true => exact menu_con_pases eI eD l k _

/-- Passes behind the input are used up at most one per turn. -/
theorem entradas_con_pases {K t : Nat} {r0 r : Ronda} {l : List Pasada}
    (h0 : r0.entradas = l ++ List.replicate K ⟨some 'x', none, none⟩)
    (ha : avanzar t r0 = some r) (ht : t ≤ K) :
    ∃ l', r.entradas = l' ++ List.replicate (K - t) ⟨some 'x', none, none⟩ := by
  induction t generalizing r with
  | zero =>
    rw [avanzar] at ha
    injection ha with ha
    exact ⟨l, by rw [← ha, h0]; rfl⟩
  | succ t ih =>
    obtain ⟨r1, ha1, hp⟩ := avanzar_succ ha
    obtain ⟨l1, hl1⟩ := ih ha1 (by omega)
    obtain ⟨j, b, m, resto, _, hrj, _, _, hr⟩ := pasoRonda_sigue hp
    have hK : K - t = (K - (t + 1)) + 1 := by omega
    rw [hl1, hK] at hrj
    obtain ⟨b', m', l', hrj'⟩ := realizarJugada_con_pases
      ⟨j.piezasMano, r1.partida.tablero, r1.partida.pozo⟩ (extremos r1.partida.tablero).1
      (extremos r1.partida.tablero).2 l1 (K - (t + 1))
    rw [hrj'] at hrj
    simp only [Option.some.injEq, Prod.mk.injEq] at hrj
    exact ⟨l', by rw [hr]; exact hrj.2.2.symm⟩

/-- C28: every round terminates.  For `n ≥ 1` players (`jugadores` has
`totalJugadores = n` entries), a shuffle that permutes the tiles and any input:
while the round goes on the board has at most 27 tiles and fewer than `n` passes
have been made in a row, so that the turns taken are at most
`|board| * n + passes` and one more turn stays within `29 * n`; a turn that plays
makes the board one tile longer and a pass leaves it; `ejecutarRonda` either
returns, at a turn within `29 * n`, or the input has run out inside the menu of
such a turn; when the input goes on with voluntary passes the round returns; and
the draw loop of a turn takes `k ≤ |pool|` tiles from the pool. -/
theorem C28_toda_ronda_termina (barajar : List PiezaDomino → List PiezaDomino)
    (hbarajar : ∀ l, (barajar l).Perm l) (p : PartidaDomino) (entradas : List Pasada)
    (n : Nat) (hn : 1 ≤ n) (htotal : p.totalJugadores = n) (hjug : p.jugadores.length = n) :
    (∀ (t : Nat) (r : Ronda), avanzar t (rondaInicial barajar p entradas) = some r →
      r.partida.tablero.length ≤ 27 ∧ r.pasesConsecutivos < n ∧
      t ≤ r.partida.tablero.length * n + r.pasesConsecutivos ∧ t + 1 ≤ 29 * n) ∧
    (∀ (m : Mesa) (eI eD : Int) (ent : List Pasada) (b : Bool) (m' : Mesa) (resto : List Pasada),
      realizarJugada m eI eD ent = some (b, m', resto) →
      m'.tablero.length = m.tablero.length + (if b = true then 1 else 0)) ∧
    ((∃ f p' resto t r, t + 1 ≤ 29 * n ∧
        avanzar t (rondaInicial barajar p entradas) = some r ∧
        pasoRonda r = .fin f p' resto ∧
        ejecutarRonda barajar p entradas = .fin f p' resto) ∨
      (ejecutarRonda barajar p entradas = .espera ∧
        ∃ t r j, t + 1 ≤ 29 * n ∧ avanzar t (rondaInicial barajar p entradas) = some r ∧
          r.partida.jugadores[r.turnoActual]? = some j ∧
          realizarJugada ⟨j.piezasMano, r.partida.tablero, r.partida.pozo⟩
            (extremos r.partida.tablero).1 (extremos r.partida.tablero).2 r.entradas = none)) ∧
    (∃ f p' resto, ejecutarRonda barajar p
      (entradas ++ List.replicate (29 * n) ⟨some 'x', none, none⟩) = .fin f p' resto) ∧
    (∀ (v : Bool) (eI eD : Int) (mano pozo : List PiezaDomino), ∃ k, k ≤ pozo.length ∧
      robar v eI eD mano pozo =
        (hayJugable v eI eD (mano ++ pozo.reverse.take k), mano ++ pozo.reverse.take k,
          pozo.take (pozo.length - k))) := by
  have hT : 1 ≤ p.totalJugadores := by omega
  have hjug2 : p.jugadores.length = p.totalJugadores := by omega
  have hcota : ∀ (ent : List Pasada) (t : Nat) (r : Ronda),
      avanzar t (rondaInicial barajar p ent) = some r →
      r.partida.tablero.length ≤ 27 ∧ r.pasesConsecutivos < n ∧
      t ≤ r.partida.tablero.length * n + r.pasesConsecutivos ∧ t + 1 ≤ 28 * n := by
    intro ent t r h
    have h1 := turnos_cota (conserva_rondaInicial barajar hbarajar p ent) rfl rfl
      (show 1 ≤ (rondaInicial barajar p ent).partida.totalJugadores from hT) h
    have h2 := pases_lt (show (rondaInicial barajar p ent).pasesConsecutivos = 0 from rfl)
      (show 1 ≤ (rondaInicial barajar p ent).partida.totalJugadores from hT) h
    have hT0 : (rondaInicial barajar p ent).partida.totalJugadores = n := htotal
    rw [hT0] at h1 h2
    exact ⟨h1.1, h2, h1.2.1, h1.2.2⟩
  have hresultado : ∀ (ent : List Pasada) (x : Paso), ejecutarRonda barajar p ent = x →
      ∃ t r j, t + 1 ≤ 28 * n ∧ avanzar t (rondaInicial barajar p ent) = some r ∧
        r.partida.jugadores[r.turnoActual]? = some j ∧ pasoRonda r = x ∧
        ((∃ f p' resto, x = .fin f p' resto) ∨
          (x = .espera ∧
            realizarJugada ⟨j.piezasMano, r.partida.tablero, r.partida.pozo⟩
              (extremos r.partida.tablero).1 (extremos r.partida.tablero).2 r.entradas
              = none)) := by
    intro ent x he
    have hx : ∀ r, x ≠ .sigue r := fun r hr =>
      ejecutarRonda_termina barajar p ent r (he.trans hr)
    unfold ejecutarRonda at he
    obtain ⟨t, r, _, ha, hp⟩ := bucleRonda_resultado he hx
    obtain ⟨hlt, _, _⟩ := jugador_en_turno hT hjug2 ha
    refine ⟨t, r, r.partida.jugadores[r.turnoActual], (hcota ent t r ha).2.2.2, ha,
      List.getElem?_eq_getElem hlt, hp, ?_⟩
    rcases pasoRonda_casos r with ⟨hnone, _⟩ | ⟨j, hj, hrj, hc⟩ | ⟨_, _, _, _, _, _, hc⟩
    · rw [List.getElem?_eq_getElem hlt] at hnone
      cases hnone
    · right
      rw [List.getElem?_eq_getElem hlt] at hj
      injection hj with hj
      rw [hj]
      exact ⟨hp.symm.trans hc, hrj⟩
    · rcases hc with ⟨_, _, hc⟩ | ⟨_, _, hc⟩ | ⟨_, _, hc⟩
      · exact Or.inl ⟨_, _, _, hp.symm.trans hc⟩
      · exact Or.inl ⟨_, _, _, hp.symm.trans hc⟩
      · exact absurd (hp.symm.trans hc) (hx _)
  refine ⟨?_, ?_, ?_, ?_, ?_⟩
  · intro t r h
    obtain ⟨h1, h2, h3, h4⟩ := hcota entradas t r h
    exact ⟨h1, h2, h3, by omega⟩
  · intro m eI eD ent b m' resto h
    exact realizarJugada_tablero_length h
  · obtain ⟨t, r, j, ht, ha, hj, hp, hx⟩ := hresultado entradas _ rfl
    rcases hx with ⟨f, p', resto, hx⟩ | ⟨hx, hrj⟩
    · exact Or.inl ⟨f, p', resto, t, r, by omega, ha, hp.trans hx, hx⟩
    · exact Or.inr ⟨hx, t, r, j, by omega, ha, hj, hrj⟩
  · obtain ⟨t, r, j, ht, ha, hj, hp, hx⟩ := hresultado
      (entradas ++ List.replicate (29 * n) ⟨some 'x', none, none⟩) _ rfl
    rcases hx with hx | ⟨_, hrj⟩
    · exact hx
    · exfalso
      obtain ⟨l', hl'⟩ := entradas_con_pases
        (show (rondaInicial barajar p
          (entradas ++ List.replicate (29 * n) ⟨some 'x', none, none⟩)).entradas =
          entradas ++ List.replicate (29 * n) ⟨some 'x', none, none⟩ from rfl) ha (by omega)
      have hK : 29 * n - t = (29 * n - t - 1) + 1 := by omega
      rw [hl', hK] at hrj
      obtain ⟨b', m', l'', hrj'⟩ := realizarJugada_con_pases
        ⟨j.piezasMano, r.partida.tablero, r.partida.pozo⟩ (extremos r.partida.tablero).1
        (extremos r.partida.tablero).2 l' (29 * n - t - 1)
      rw [hrj'] at hrj
      cases hrj
  · intro v eI eD mano pozo
    obtain ⟨k, hk, hr, _⟩ := robar_spec v eI eD mano pozo
    exact ⟨k, hk, hr⟩

/-- C28 at a concrete round: Ana and Luis, the identity shuffle, no choices
typed but the voluntary passes: the round returns. -/
theorem C28_toda_ronda_termina_witness :
    ∃ f p' resto, ejecutarRonda id partidaEjemplo
      ([] ++ List.replicate (29 * 2) ⟨some 'x', none, none⟩) = .fin f p' resto :=
  (C28_toda_ronda_termina id (fun l => List.Perm.refl l) partidaEjemplo [] 2 (by decide) rfl
    rfl).2.2.2.1

/-! ## C24: dealing with any number of players -/

/-- One round of dealing, whatever the size of the pool: the pool loses its last
`n` tiles (all of them if there are fewer) and player `i` takes tile `i` from
the back, if there is one. -/
theorem repartirVuelta_general (js : List Participante) (pozoInv : List PiezaDomino) :
    (repartirVuelta js pozoInv).2 = pozoInv.drop js.length ∧
    (repartirVuelta js pozoInv).1.length = js.length ∧
    ∀ (i : Nat) (j : Participante), js[i]? = some j →
      (repartirVuelta js pozoInv).1[i]? =
        some ⟨j.nombre, j.piezasMano ++ pozoInv[i]?.toList⟩ := by
  induction js generalizing pozoInv with
  | nil =>
    refine ⟨rfl, rfl, ?_⟩
    intro i j hj
    cases hj
  | cons a js ih =>
    cases pozoInv with
    | nil =>
      refine ⟨rfl, rfl, ?_⟩
      intro i j hj
      rw [repartirVuelta]
      simp [hj]
    | cons t ts =>
      obtain ⟨h1, h2, h3⟩ := ih ts
      rw [repartirVuelta]
      refine ⟨h1, by simp [h2], ?_⟩
      intro i j hj
      cases i with
      | zero =>
        simp only [List.getElem?_cons_zero, Option.some.injEq] at hj
        subst hj
        simp [Participante.tomarPieza]
      | succ i =>
        simp only [List.getElem?_cons_succ] at hj ⊢
        exact h3 i j hj

/-- Dealing `vueltas` rounds, whatever the size of the pool: the pool loses its
last `vueltas * n` tiles (all of them if there are fewer) and player `i` gets,
after the tiles already in hand, those of the tiles `r * n + i`
(`r = 0, 1, ..`), counted from the back of the pool, that exist. -/
theorem repartir_general (vueltas : Nat) (js : List Participante)
    (pozoInv : List PiezaDomino) :
    (repartir vueltas js pozoInv).2 = pozoInv.drop (vueltas * js.length) ∧
    (repartir vueltas js pozoInv).1.length = js.length ∧
    ∀ (i : Nat) (j : Participante), js[i]? = some j →
      (repartir vueltas js pozoInv).1[i]? =
        some ⟨j.nombre, j.piezasMano ++
          (List.range vueltas).filterMap fun r => pozoInv[r * js.length + i]?⟩ := by
  induction vueltas generalizing js pozoInv with
  | zero =>
    refine ⟨by simp [repartir], rfl, ?_⟩
    intro i j hj
    simp [repartir, hj]
  | succ v ih =>
    obtain ⟨g1, g2, g3⟩ := repartirVuelta_general js pozoInv
    obtain ⟨h1, h2, h3⟩ := ih (repartirVuelta js pozoInv).1 (repartirVuelta js pozoInv).2
    rw [repartir]
    rw [g2] at h1 h2
    simp only [g2] at h3
    refine ⟨?_, h2, ?_⟩
    · rw [h1, g1, List.drop_drop]
      have : js.length + v * js.length = (v + 1) * js.length := by
        rw [Nat.succ_mul]; omega
      rw [this]
    · intro i j hj
      rw [h3 i _ (g3 i j hj)]
      congr 2
      simp only [List.append_assoc]
      congr 1
      rw [List.range_succ_eq_map, List.filterMap_cons, Nat.zero_mul, Nat.zero_add,
        List.filterMap_map, g1]
      have hcola : (List.range v).filterMap (fun r => (pozoInv.drop js.length)[r * js.length + i]?)
          = (List.range v).filterMap
              ((fun r => pozoInv[r * js.length + i]?) ∘ Nat.succ) := by
        refine List.filterMap_congr ?_
        intro r _
        simp only [Function.comp_apply, List.getElem?_drop]
        congr 1
        rw [Nat.succ_mul]
        omega
      rw [hcola]
      cases pozoInv[i]? <;> rfl

/-- How many of the positions `r * n + i`, `r < v`, lie in a pool of `L` tiles. -/
theorem filterMap_length_countP {α : Type} (l : List α) (n i v : Nat) :
    ((List.range v).filterMap fun r => l[r * n + i]?).length =
      (List.range v).countP fun r => decide (r * n + i < l.length) := by
  induction v with
  | zero => rfl
  | succ v ih =>
    rw [List.range_succ, List.filterMap_append, List.countP_append, List.length_append, ih]
    congr 1
    by_cases h : v * n + i < l.length
    · simp [List.filterMap_cons, List.getElem?_eq_getElem h, h]
    · simp [List.filterMap_cons, List.getElem?_eq_none (Nat.le_of_not_lt h), h]

/-- Counting an initial segment: when `P` is closed downwards, it holds below
`v` exactly for the first `countP P (range v)` numbers. -/
theorem countP_range_cerrado (P : Nat → Bool) (hP : ∀ r s, r ≤ s → P s = true → P r = true)
    (v : Nat) :
    (List.range v).countP P ≤ v ∧
    ∀ r, r < v → (P r = true ↔ r < (List.range v).countP P) := by
  induction v with
  | zero => exact ⟨Nat.le_refl _, fun r hr => absurd hr (Nat.not_lt_zero r)⟩
  | succ v ih =>
    obtain ⟨h1, h2⟩ := ih
    rw [List.range_succ, List.countP_append]
    by_cases hv : P v = true
    · have hc : (List.range v).countP P = v := by
        cases v with
        | zero => rfl
        | succ u =>
          have := (h2 u (by omega)).mp (hP u (u + 1) (by omega) hv)
          omega
      simp only [List.countP_cons, List.countP_nil, hv, if_true, hc]
      refine ⟨by omega, ?_⟩
      intro r hr
      exact ⟨fun _ => by omega, fun _ => hP r v (by omega) hv⟩
    · simp only [List.countP_cons, List.countP_nil, hv, Bool.false_eq_true, if_false,
        Nat.add_zero]
      refine ⟨by omega, ?_⟩
      intro r hr
      by_cases hrv : r < v
      · exact h2 r hrv
      · have : r = v := by omega
        subst this
        exact ⟨fun h => absurd h hv, fun h => by omega⟩

/-- C24: dealing with any number of players.  For `n ≥ 1` players and a pool of
28 tiles, whatever the hands were before, `distribuirPiezas` leaves the players
and their order, deals `min (7 n) 28` tiles in all and leaves the first
`28 - 7 n` tiles of the pool (none when `7 n ≥ 28`); the hand of player `i` is
made of the tiles at the positions `r * n + i` (`r < 7`) from the back of the
pool that exist; no hand has more than 7 tiles, an earlier player has at least
as many tiles as a later one and at most one more; hands and pool together are
a permutation of the pool dealt from. -/
theorem C24_reparto_general (p : PartidaDomino) (n : Nat) (hn : 1 ≤ n)
    (hjug : p.jugadores.length = n) (hpozo : p.pozo.length = 28) :
    (distribuirPiezas p).tablero = [] ∧
    nombres (distribuirPiezas p).jugadores = nombres p.jugadores ∧
    (distribuirPiezas p).jugadores.length = n ∧
    (manos (distribuirPiezas p).jugadores).length = min (7 * n) 28 ∧
    (distribuirPiezas p).pozo = p.pozo.take (28 - 7 * n) ∧
    (distribuirPiezas p).pozo.length = 28 - 7 * n ∧
    (28 ≤ 7 * n → (distribuirPiezas p).pozo = []) ∧
    (∀ (i : Nat) (j : Participante), (distribuirPiezas p).jugadores[i]? = some j →
      j.piezasMano = (List.range 7).filterMap fun r => p.pozo.reverse[r * n + i]?) ∧
    (∀ j ∈ (distribuirPiezas p).jugadores, j.piezasMano.length ≤ 7) ∧
    (∀ (i i' : Nat) (j j' : Participante), i ≤ i' →
      (distribuirPiezas p).jugadores[i]? = some j →
      (distribuirPiezas p).jugadores[i']? = some j' →
      j'.piezasMano.length ≤ j.piezasMano.length ∧
      j.piezasMano.length ≤ j'.piezasMano.length + 1) ∧
    (manos (distribuirPiezas p).jugadores ++ (distribuirPiezas p).pozo).Perm p.pozo := by
  have hlen : (p.jugadores.map Participante.limpiarMano).length = n := by
    rw [List.length_map, hjug]
  have hrev : p.pozo.reverse.length = 28 := by rw [List.length_reverse, hpozo]
  obtain ⟨h1, h2, h3⟩ := repartir_general 7 (p.jugadores.map Participante.limpiarMano)
    p.pozo.reverse
  rw [hlen] at h1 h2
  simp only [hlen] at h3
  have hjs : (distribuirPiezas p).jugadores =
      (repartir 7 (p.jugadores.map Participante.limpiarMano) p.pozo.reverse).1 := rfl
  have hpz : (distribuirPiezas p).pozo = p.pozo.take (28 - 7 * n) := by
    show (repartir 7 _ _).2.reverse = _
    rw [h1, List.drop_reverse, List.reverse_reverse, hpozo]
  have hpzlen : (distribuirPiezas p).pozo.length = 28 - 7 * n := by
    rw [hpz, List.length_take, hpozo]
    omega
  have hperm : (manos (distribuirPiezas p).jugadores ++ (distribuirPiezas p).pozo).Perm
      p.pozo := by
    refine List.Perm.trans ?_ (distribuirPiezas_perm p)
    have htab : (distribuirPiezas p).tablero = [] := rfl
    rw [todasLasPiezas, htab, List.append_nil]
    exact List.perm_append_comm
  have hmano : ∀ (i : Nat) (j : Participante), (distribuirPiezas p).jugadores[i]? = some j →
      j.piezasMano = (List.range 7).filterMap fun r => p.pozo.reverse[r * n + i]? := by
    intro i j hj
    rw [hjs] at hj
    have hi : i < p.jugadores.length := by
      by_contra hge
      rw [List.getElem?_eq_none (by omega)] at hj
      cases hj
    have hget : (p.jugadores.map Participante.limpiarMano)[i]? =
        some p.jugadores[i].limpiarMano := by
      rw [List.getElem?_map, List.getElem?_eq_getElem hi]
      rfl
    rw [h3 i _ hget] at hj
    injection hj with hj
    rw [← hj]
    simp only [Participante.limpiarMano, List.nil_append]
  have htam : ∀ (i : Nat) (j : Participante), (distribuirPiezas p).jugadores[i]? = some j →
      j.piezasMano.length = (List.range 7).countP fun r => decide (r * n + i < 28) := by
    intro i j hj
    rw [hmano i j hj, filterMap_length_countP, hrev]
  have hcerrado : ∀ i r s, r ≤ s → decide (s * n + i < 28) = true →
      decide (r * n + i < 28) = true := by
    intro i r s hrs hs
    have := Nat.mul_le_mul_right n hrs
    simp only [decide_eq_true_eq] at hs ⊢
    omega
  refine ⟨rfl, ?_, h2, ?_, hpz, hpzlen, ?_, hmano, ?_, ?_, hperm⟩
  · show nombres (repartir 7 _ _).1 = _
    rw [nombres_repartir]
    simp [nombres, Participante.limpiarMano]
  · have := hperm.length_eq
    rw [List.length_append, hpzlen, hpozo] at this
    omega
  · intro h
    rw [← List.length_eq_zero, hpzlen]
    omega
  · intro j hj
    obtain ⟨i, hi⟩ := List.getElem?_of_mem hj
    rw [htam i j hi]
    exact (List.countP_le_length _).trans (by simp)
  · intro i i' j j' hii hj hj'
    have hi' : i' < n := by
      by_contra hge
      have hdl : (distribuirPiezas p).jugadores.length = n := h2
      rw [List.getElem?_eq_none (by omega)] at hj'
      cases hj'
    rw [htam i j hj, htam i' j' hj']
    constructor
    · refine List.countP_mono_left ?_
      intro r _ hr
      simp only [decide_eq_true_eq] at hr ⊢
      omega
    · by_contra hgt
      obtain ⟨c1, c2⟩ := countP_range_cerrado (fun r => decide (r * n + i < 28))
        (hcerrado i) 7
      obtain ⟨d1, d2⟩ := countP_range_cerrado (fun r => decide (r * n + i' < 28))
        (hcerrado i') 7
      generalize hk : (List.range 7).countP (fun r => decide (r * n + i' < 28)) = k at *
      generalize hc : (List.range 7).countP (fun r => decide (r * n + i < 28)) = c at *
      have e1 := (c2 (k + 1) (by omega)).mpr (by omega)
      have e2 : ¬ (decide (k * n + i' < 28) = true) := fun h =>
        absurd ((d2 k (by omega)).mp h) (by omega)
      simp only [decide_eq_true_eq] at e1 e2
      rw [Nat.succ_mul] at e1
      omega

/-- C24 at a concrete deal: five players and the 28 tiles as generated; the
pool is used up, and the first three players get six tiles, the others five. -/
theorem C24_reparto_general_witness :
    (distribuirPiezas ⟨[], conjuntoCompleto, [],
      [⟨"A", []⟩, ⟨"B", []⟩, ⟨"C", []⟩, ⟨"D", []⟩, ⟨"E", []⟩], [], 5⟩).pozo = [] ∧
    (distribuirPiezas ⟨[], conjuntoCompleto, [],
      [⟨"A", []⟩, ⟨"B", []⟩, ⟨"C", []⟩, ⟨"D", []⟩, ⟨"E", []⟩], [], 5⟩).jugadores.map
        Participante.cantidadPiezas = [6, 6, 6, 5, 5] :=
  ⟨(C24_reparto_general ⟨[], conjuntoCompleto, [],
      [⟨"A", []⟩, ⟨"B", []⟩, ⟨"C", []⟩, ⟨"D", []⟩, ⟨"E", []⟩], [], 5⟩ 5 (by decide) rfl
      (by decide)).2.2.2.2.2.2.1 (by decide), by decide⟩

/-! ## C23: what a blockage means -/

/-- A forced pass: the turn returns `false`, reads no input, leaves the board,
empties the pool and ends with a hand that has no playable tile. -/
theorem turno_forzado {r : Ronda} {j : Participante} {b : Bool} {m : Mesa}
    {resto : List Pasada} (ht : turnoDe r = some (j, b, m, resto))
    (hf : paseForzado r = true) :
    b = false ∧ resto = r.entradas ∧ m.tablero = r.partida.tablero ∧ m.pozo = [] ∧
    hayJugable r.partida.tablero.isEmpty (extremos r.partida.tablero).1
      (extremos r.partida.tablero).2 m.mano = false := by
  obtain ⟨hj, hrj⟩ := turnoDe_some.mp ht
  unfold paseForzado at hf
  rw [hj] at hf
  simp only [Bool.not_eq_true'] at hf
  obtain ⟨k, _, hr, _, hk⟩ := robar_spec r.partida.tablero.isEmpty (extremos r.partida.tablero).1
    (extremos r.partida.tablero).2 j.piezasMano r.partida.pozo
  rw [hr] at hf
  simp only at hf
  have hk' := hk hf
  unfold realizarJugada at hrj
  simp only at hrj
  rw [hr, hf] at hrj
  simp only [Option.some.injEq, Prod.mk.injEq] at hrj
  obtain ⟨hb, hm, hres⟩ := hrj
  refine ⟨hb.symm, hres.symm, ?_, ?_, ?_⟩
  · rw [← hm]
  · rw [← hm, hk']
    simp
  · rw [← hm]
    exact hf

/-- After a forced pass of the player in turn: the pool is empty, the board is
the same, the player in turn has no playable tile, and whoever had none before
still has none. -/
theorem trasJugada_forzado {r : Ronda} {j : Participante} {b : Bool} {m : Mesa}
    {resto : List Pasada} (ht : turnoDe r = some (j, b, m, resto))
    (hf : paseForzado r = true) :
    (trasJugada r.partida r.turnoActual j m).pozo = [] ∧
    (trasJugada r.partida r.turnoActual j m).tablero = r.partida.tablero ∧
    sinJugada (trasJugada r.partida r.turnoActual j m) r.turnoActual = true ∧
    ∀ x, sinJugada r.partida x = true →
      sinJugada (trasJugada r.partida r.turnoActual j m) x = true := by
  obtain ⟨_, _, h3, h4, h5⟩ := turno_forzado ht hf
  obtain ⟨hj, _⟩ := turnoDe_some.mp ht
  have hlt : r.turnoActual < r.partida.jugadores.length := by
    by_contra hge
    rw [List.getElem?_eq_none (by omega)] at hj
    cases hj
  have hmismo : sinJugada (trasJugada r.partida r.turnoActual j m) r.turnoActual = true := by
    unfold sinJugada trasJugada
    simp only [List.getElem?_set_self hlt, h3, h5, Bool.not_false]
  refine ⟨h4, h3, hmismo, ?_⟩
  intro x hx
  by_cases hxt : x = r.turnoActual
  · rw [hxt]
    exact hmismo
  · unfold sinJugada trasJugada
    unfold sinJugada at hx
    simp only [List.getElem?_set_ne (Ne.symm hxt), h3]
    exact hx

/-- Going back one seat in the rotation. -/
theorem asiento_anterior {n x d c : Nat} (hc : c < n) (hd : 1 ≤ d)
    (h : (x + d) % n = (c + 1) % n) : (x + (d - 1)) % n = c := by
  have h1 : (x + (d - 1) + 1) % n = (c + 1) % n := by
    rw [← h]
    congr 1
    omega
  have h2 : x + (d - 1) ≡ c [MOD n] := Nat.ModEq.add_right_cancel' 1 h1
  rw [Nat.ModEq, Nat.mod_eq_of_lt hc] at h2
  exact h2

/-- Every other seat is at most `n - 1` seats back in the rotation. -/
theorem asiento_alcanzado {n x c : Nat} (hx : x < n) (hc : c < n) (hxc : x ≠ c) :
    ∃ d, 1 ≤ d ∧ d ≤ n - 1 ∧ (x + d) % n = c := by
  by_cases h : x < c
  · refine ⟨c - x, by omega, by omega, ?_⟩
    rw [show x + (c - x) = c by omega, Nat.mod_eq_of_lt hc]
  · refine ⟨c + n - x, by omega, by omega, ?_⟩
    rw [show x + (c + n - x) = c + n by omega, Nat.add_mod_right, Nat.mod_eq_of_lt hc]

/-- The state after `k` forced passes in a row: the pool is empty (if `k ≥ 1`)
and the players of the last `k` turns hold no playable tile. -/
theorem tras_pases_forzados {r0 : Ronda} {n s0 t : Nat} (hn : 1 ≤ n)
    (htotal : r0.partida.totalJugadores = n) (hturno : r0.turnoActual < n)
    (hforzados : ∀ s rs, s0 ≤ s → s ≤ t → avanzar s r0 = some rs → paseForzado rs = true)
    (k : Nat) (rs : Ronda) (hk : s0 + k ≤ t + 1) (ha : avanzar (s0 + k) r0 = some rs) :
    rs.turnoActual < n ∧ (1 ≤ k → rs.partida.pozo = []) ∧
    ∀ x d, x < n → 1 ≤ d → d ≤ k → (x + d) % n = rs.turnoActual →
      sinJugada rs.partida x = true := by
  have hturnos : ∀ t r, avanzar t r0 = some r → r.turnoActual < n := by
    intro t
    induction t with
    | zero =>
      intro r h
      rw [avanzar] at h
      injection h with h
      rw [← h]
      exact hturno
    | succ t _ =>
      intro r h
      obtain ⟨r1, ha1, hp⟩ := avanzar_succ h
      obtain ⟨_, _, _, _, _, _, _, _, hr⟩ := pasoRonda_sigue hp
      have hT := (medida_avanzar ha1).2
      rw [hr]
      show (r1.turnoActual + 1) % r1.partida.totalJugadores < n
      rw [hT, htotal]
      exact Nat.mod_lt _ (by omega)
  induction k generalizing rs with
  | zero =>
    refine ⟨hturnos _ _ ha, fun h => absurd h (by omega), ?_⟩
    intro x d _ h1 h2
    omega
  | succ k ih =>
    obtain ⟨r1, ha1, hp⟩ := avanzar_succ (show avanzar (s0 + k + 1) r0 = some rs from ha)
    obtain ⟨hc1, _, hprev⟩ := ih r1 (by omega) ha1
    obtain ⟨j, b, m, resto, hj, hrj, _, _, hr⟩ := pasoRonda_sigue hp
    have ht : turnoDe r1 = some (j, b, m, resto) := turnoDe_some.mpr ⟨hj, hrj⟩
    obtain ⟨f1, _, f3, f4⟩ := trasJugada_forzado ht (hforzados _ r1 (by omega) (by omega) ha1)
    have hT := (medida_avanzar ha1).2
    have hpart : rs.partida = trasJugada r1.partida r1.turnoActual j m := by rw [hr]
    have hturn : rs.turnoActual = (r1.turnoActual + 1) % n := by
      rw [hr]
      show (r1.turnoActual + 1) % r1.partida.totalJugadores = _
      rw [hT, htotal]
    refine ⟨hturnos _ _ ha, fun _ => by rw [hpart]; exact f1, ?_⟩
    intro x d hxn hd1 hd2 hx
    rw [hturn] at hx
    have hback := asiento_anterior hc1 hd1 hx
    rw [hpart]
    by_cases hd : d = 1
    · subst hd
      have hx0 : x = r1.turnoActual := by
        rw [Nat.sub_self, Nat.add_zero, Nat.mod_eq_of_lt hxn] at hback
        exact hback
      rw [hx0]
      exact f3
    · exact f4 x (hprev x (d - 1) hxn (by omega) (by omega) hback)

theorem pases_le_turnos {t : Nat} {r0 r : Ronda} (h0 : r0.pasesConsecutivos = 0)
    (h : avanzar t r0 = some r) : r.pasesConsecutivos ≤ t := by
  induction t generalizing r with
  | zero =>
    rw [avanzar] at h
    injection h with h
    rw [← h, h0]
  | succ t ih =>
    obtain ⟨r1, ha1, hp⟩ := avanzar_succ h
    have h1 := ih ha1
    obtain ⟨_, b, _, _, _, _, _, _, hr⟩ := pasoRonda_sigue hp
    rw [hr]
    show (if b = true then 0 else r1.pasesConsecutivos + 1) ≤ t + 1
    split <;> omega

/-- C23, as the code has it: what a blockage means when the passes were forced.
If the round ends as blocked at turn `t` and the last `totalJugadores` turns
were forced passes (the draw loop of each returned `false`; `jugadores` has
`totalJugadores = n ≥ 1` entries), then `ejecutarRonda` returns the blockage
with an empty pool and no player holds a tile that `esJugable` accepts on the
final board. -/
theorem C23_bloqueo_por_pases_forzados (barajar : List PiezaDomino → List PiezaDomino)
    (p : PartidaDomino) (entradas : List Pasada) (n t : Nat) (r : Ronda) (p' : PartidaDomino)
    (resto : List Pasada) (hn : 1 ≤ n) (htotal : p.totalJugadores = n)
    (hjug : p.jugadores.length = n)
    (ha : avanzar t (rondaInicial barajar p entradas) = some r)
    (hp : pasoRonda r = .fin .bloqueo p' resto)
    (hforzados : ∀ s rs, t + 1 ≤ s + n → s ≤ t →
      avanzar s (rondaInicial barajar p entradas) = some rs → paseForzado rs = true) :
    ejecutarRonda barajar p entradas = .fin .bloqueo p' resto ∧
    p'.pozo = [] ∧
    ∀ j ∈ p'.jugadores, ∀ pieza ∈ j.piezasMano,
      esJugable p'.tablero.isEmpty (extremos p'.tablero).1 (extremos p'.tablero).2 pieza
        = false := by
  obtain ⟨j, b, m, ht, hp', _, hpases⟩ := (pasoRonda_bloqueo_iff r p' resto).mp hp
  have hf := hforzados t r (by omega) (Nat.le_refl _) ha
  obtain ⟨hb, _, _, _, _⟩ := turno_forzado ht hf
  have hT : r.partida.totalJugadores = n := (medida_avanzar ha).2.trans htotal
  have hle := pases_le_turnos
    (show (rondaInicial barajar p entradas).pasesConsecutivos = 0 from rfl) ha
  have hnt : n ≤ t + 1 := by
    rw [hb, hT] at hpases
    simp only [Bool.false_eq_true, if_false, ge_iff_le] at hpases
    omega
  obtain ⟨hc, _, hprev⟩ := tras_pases_forzados
    (show 1 ≤ n from hn)
    (show (rondaInicial barajar p entradas).partida.totalJugadores = n from htotal)
    (show (rondaInicial barajar p entradas).turnoActual < n from hn)
    (fun s rs h1 h2 h3 => hforzados s rs (by omega) h2 h3)
    (n - 1) r (show t + 1 - n + (n - 1) ≤ t + 1 by omega)
    (by rw [show t + 1 - n + (n - 1) = t by omega]; exact ha)
  obtain ⟨f1, f2, f3, f4⟩ := trasJugada_forzado ht hf
  rw [← hp'] at f1 f2 f3 f4
  have htodos : ∀ x, x < n → sinJugada p' x = true := by
    intro x hx
    by_cases hxc : x = r.turnoActual
    · rw [hxc]
      exact f3
    · obtain ⟨d, hd1, hd2, hd3⟩ := asiento_alcanzado hx hc hxc
      exact f4 x (hprev x d hx hd1 hd2 hd3)
  have hlen : p'.jugadores.length = n := by
    rw [hp']
    show (r.partida.jugadores.set _ _).length = n
    rw [List.length_set, (jugador_en_turno (by omega) (by omega) ha).2.2, htotal]
  refine ⟨(ejecutarRonda_fin_iff _ _ _ _ _ _).mpr ⟨t, r, ha, hp⟩, f1, ?_⟩
  intro j' hj' pieza hpieza
  obtain ⟨i, hi⟩ := List.getElem?_of_mem hj'
  have hin : i < n := by
    by_contra hge
    rw [List.getElem?_eq_none (by omega)] at hi
    cases hi
  have hs := htodos i hin
  unfold sinJugada at hs
  rw [hi] at hs
  simp only [Bool.not_eq_true', hayJugable, List.any_eq_false] at hs
  simpa using hs pieza hpieza

/-- C23 at a concrete round: Ana and Luis, the shuffle `mezclaBloqueo`, ten
plays that build the train of ten tiles with 0 at both ends; then Ana draws the
14 tiles of the pool and passes, Luis passes, and the round is blocked with the
pool empty and no tile with a 0 in any hand. -/
theorem C23_bloqueo_por_pases_forzados_witness :
    ∃ p', ejecutarRonda (fun _ => mezclaBloqueo) partidaEjemplo
        (List.replicate 10 ⟨some 'p', some 0, some 'D'⟩) = .fin .bloqueo p' [] ∧
      p'.pozo = [] ∧
      ∀ j ∈ p'.jugadores, ∀ pieza ∈ j.piezasMano,
        esJugable p'.tablero.isEmpty (extremos p'.tablero).1 (extremos p'.tablero).2 pieza
          = false :=
  ⟨_, C23_bloqueo_por_pases_forzados (fun _ => mezclaBloqueo) partidaEjemplo
    (List.replicate 10 ⟨some 'p', some 0, some 'D'⟩) 2 11 _ _ [] (by decide) rfl rfl rfl rfl
    (by
      intro s rs h1 h2 h3
      have hs : s = 10 ∨ s = 11 := by omega
      rcases hs with rfl | rfl
      · obtain rfl := Option.some.inj (h3.symm.trans rfl)
        rfl
      · obtain rfl := Option.some.inj (h3.symm.trans rfl)
        rfl)⟩

/-- C23 as stated fails: Ana and Luis, the identity shuffle; Ana plays `[6|6]`
and then both pass voluntarily.  `ejecutarRonda` returns the blockage (the empty
string) with 14 tiles in the pool, while Luis holds `[5|6]`, which `esJugable`
accepts on the board `[6|6]`. -/
theorem C23_contraejemplo_pases_voluntarios :
    ∃ p', ejecutarRonda id partidaEjemplo
        [⟨some 'p', some 0, none⟩, ⟨some 'x', none, none⟩, ⟨some 'x', none, none⟩] =
        .fin .bloqueo p' [] ∧
      FinRonda.cadena .bloqueo = "" ∧
      p'.tablero = [⟨6, 6⟩] ∧ p'.pozo.length = 14 ∧
      ∃ j ∈ p'.jugadores, j.nombre = "Luis" ∧ (⟨5, 6⟩ : PiezaDomino) ∈ j.piezasMano ∧
        esJugable p'.tablero.isEmpty (extremos p'.tablero).1 (extremos p'.tablero).2 ⟨5, 6⟩
          = true :=
  ⟨_, rfl, rfl, rfl, rfl,
    ⟨"Luis", [⟨5, 6⟩, ⟨4, 6⟩, ⟨4, 4⟩, ⟨3, 5⟩, ⟨3, 3⟩, ⟨2, 5⟩, ⟨2, 3⟩]⟩, by decide, rfl,
    by decide, rfl⟩

/-! ## C25: no access out of range -/

theorem accesosRepartirVuelta_enRango (js : List Participante) (pozoInv : List PiezaDomino) :
    ∀ a ∈ accesosRepartirVuelta js pozoInv, a.enRango = true := by
  induction js generalizing pozoInv with
  | nil => intro a ha; cases ha
  | cons j js ih =>
    cases pozoInv with
    | nil => intro a ha; cases ha
    | cons t ts =>
      intro a ha
      rw [accesosRepartirVuelta] at ha
      rcases List.mem_cons.mp ha with rfl | ha
      · simp [Acceso.enRango]
      · exact ih ts a ha

theorem accesosRepartir_enRango (v : Nat) (js : List Participante)
    (pozoInv : List PiezaDomino) : ∀ a ∈ accesosRepartir v js pozoInv, a.enRango = true := by
  induction v generalizing js pozoInv with
  | zero => intro a ha; cases ha
  | succ v ih =>
    intro a ha
    rw [accesosRepartir] at ha
    rcases List.mem_append.mp ha with ha | ha
    · exact accesosRepartirVuelta_enRango js pozoInv a ha
    · exact ih _ _ a ha

theorem accesosMostrarMano_enRango (mano : List PiezaDomino) :
    ∀ a ∈ accesosMostrarMano mano, a.enRango = true := by
  intro a ha
  unfold accesosMostrarMano at ha
  rw [List.mem_map] at ha
  obtain ⟨i, hi, rfl⟩ := ha
  have := List.mem_range.mp hi
  simp only [Acceso.enRango, decide_eq_true_eq]
  omega

theorem accesosRobarDesde_enRango (v : Bool) (eI eD : Int) (mano inv : List PiezaDomino) :
    ∀ a ∈ accesosRobarDesde v eI eD mano inv, a.enRango = true := by
  induction inv generalizing mano with
  | nil => intro a ha; cases ha
  | cons t ts ih =>
    intro a ha
    rw [accesosRobarDesde] at ha
    split at ha
    · cases ha
    · rcases List.mem_cons.mp ha with rfl | ha
      · simp [Acceso.enRango]
      · exact ih _ a ha

theorem accesosPasada_enRango (eI eD : Int) (e : Pasada) (m : Mesa) :
    ∀ a ∈ accesosPasada eI eD e m, a.enRango = true := by
  have hmano : ∀ idx : Int, ¬(idx < 0 ∨ idx ≥ (m.mano.length : Int)) →
      (Acceso.manoIdx idx m.mano.length).enRango = true := by
    intro idx h
    simp only [Acceso.enRango, decide_eq_true_eq]
    omega
  have htab : (Acceso.tableroExtremo (m.tablero.length + 1)).enRango = true := by
    simp [Acceso.enRango]
  have hmostrar : (accesosMostrarMano m.mano).all Acceso.enRango = true :=
    List.all_eq_true.mpr (accesosMostrarMano_enRango m.mano)
  have htodos : (accesosPasada eI eD e m).all Acceso.enRango = true := by
    unfold accesosPasada
    dsimp only
    repeat' split
    all_goals first
      | rfl
      | exact hmostrar
      | simp_all [Acceso.enRango]
  exact List.all_eq_true.mp htodos

theorem accesosMenu_enRango (eI eD : Int) (entradas : List Pasada) (m : Mesa) :
    ∀ a ∈ accesosMenu eI eD entradas m, a.enRango = true := by
  induction entradas generalizing m with
  | nil => intro a ha; cases ha
  | cons e es ih =>
    intro a ha
    rw [accesosMenu] at ha
    rcases List.mem_append.mp ha with ha | ha
    · exact accesosPasada_enRango eI eD e m a ha
    · split at ha
      · cases ha
      · exact ih _ a ha

theorem accesosJugada_enRango (m : Mesa) (eI eD : Int) (entradas : List Pasada) :
    ∀ a ∈ accesosJugada m eI eD entradas, a.enRango = true := by
  intro a ha
  unfold accesosJugada at ha
  rcases List.mem_append.mp ha with ha | ha
  · rcases List.mem_append.mp ha with ha | ha
    · exact accesosMostrarMano_enRango _ a ha
    · exact accesosRobarDesde_enRango _ _ _ _ _ a ha
  · split at ha
    · cases ha
    · exact accesosMenu_enRango _ _ _ _ a ha

/-- The accesses of a turn are in range when the turn index points at a player. -/
theorem accesosTurno_enRango (r : Ronda) (h : r.turnoActual < r.partida.jugadores.length) :
    ∀ a ∈ accesosTurno r, a.enRango = true := by
  intro a ha
  unfold accesosTurno at ha
  rcases List.mem_cons.mp ha with rfl | ha
  · simp only [Acceso.enRango, decide_eq_true_eq]
    omega
  · split at ha
    · cases ha
    · rcases List.mem_append.mp ha with ha | ha
      · split at ha
        · cases ha
        · rename_i hvacio
          have hpos : 0 < r.partida.tablero.length := by
            cases htab : r.partida.tablero with
            | nil => rw [htab] at hvacio; exact absurd rfl hvacio
            | cons x xs => simp
          simp only [List.mem_cons, List.mem_singleton, List.not_mem_nil, or_false,
            or_self] at ha
          rw [ha]
          simp [Acceso.enRango, hpos]
      · exact accesosJugada_enRango _ _ _ _ a ha

/-- The accesses of the turn loop are those of the turns it goes through. -/
theorem accesosBucle_mem {n : Nat} {r0 : Ronda} {a : Acceso} (ha : a ∈ accesosBucle n r0) :
    ∃ t r, t < n ∧ avanzar t r0 = some r ∧ a ∈ accesosTurno r := by
  induction n generalizing r0 with
  | zero => cases ha
  | succ n ih =>
    rw [accesosBucle] at ha
    rcases List.mem_append.mp ha with ha | ha
    · exact ⟨0, r0, by omega, rfl, ha⟩
    · cases hp : pasoRonda r0 with
      | sigue r1 =>
        rw [hp] at ha
        obtain ⟨t, r, ht, hav, hmem⟩ := ih ha
        refine ⟨t + 1, r, by omega, ?_, hmem⟩
        rw [avanzar_succ_primero, hp]
        exact hav
      | fin f p resto => rw [hp] at ha; cases ha
      | espera => rw [hp] at ha; cases ha
      | indefinido => rw [hp] at ha; cases ha

/-- C25: no out-of-range access in the core.  Every access of `distribuirPiezas`
and every access of `realizarJugada` is in range, in any state and on any input
(the index typed is tested before it is used): `pozo.back()` with `pop_back()`
only on a pool that is not empty, `piezasMano[idx]` and `sacarPieza(idx)` only
with `0 ≤ idx < size`, `tablero.front()` and `back()` only on a board that is not
empty.  When `jugadores` has `totalJugadores = n ≥ 1` entries, at every turn of a
round `turnoActual < totalJugadores`, and every access of `ejecutarRonda`,
`jugadores[turnoActual]` included, is in range. -/
theorem C25_accesos_en_rango (barajar : List PiezaDomino → List PiezaDomino)
    (p : PartidaDomino) (entradas : List Pasada) (n : Nat) (hn : 1 ≤ n)
    (htotal : p.totalJugadores = n) (hjug : p.jugadores.length = n) :
    (∀ q : PartidaDomino, ∀ a ∈ accesosDistribuir q, a.enRango = true) ∧
    (∀ (m : Mesa) (eI eD : Int) (ent : List Pasada),
      ∀ a ∈ accesosJugada m eI eD ent, a.enRango = true) ∧
    (∀ (t : Nat) (r : Ronda), avanzar t (rondaInicial barajar p entradas) = some r →
      r.turnoActual < n ∧ r.partida.jugadores.length = n ∧
      ∀ a ∈ accesosTurno r, a.enRango = true) ∧
    (∀ a ∈ accesosEjecutarRonda barajar p entradas, a.enRango = true) := by
  have hturno : ∀ (t : Nat) (r : Ronda),
      avanzar t (rondaInicial barajar p entradas) = some r →
      r.turnoActual < n ∧ r.partida.jugadores.length = n ∧
      ∀ a ∈ accesosTurno r, a.enRango = true := by
    intro t r ha
    obtain ⟨h1, h2, h3⟩ := jugador_en_turno (by omega) (by omega) ha
    exact ⟨by omega, by omega, accesosTurno_enRango r h1⟩
  refine ⟨fun q => accesosRepartir_enRango _ _ _, accesosJugada_enRango, hturno, ?_⟩
  intro a ha
  unfold accesosEjecutarRonda at ha
  rcases List.mem_append.mp ha with ha | ha
  · exact accesosRepartir_enRango _ _ _ a ha
  · obtain ⟨t, r, _, hav, hmem⟩ := accesosBucle_mem ha
    exact (hturno t r hav).2.2 a hmem

/-- C25 at a concrete round: Ana and Luis, the shuffle `mezclaBloqueo`, ten plays
and two forced passes, the first of which draws the 14 tiles of the pool; the
round makes 154 accesses, all of them in range. -/
theorem C25_accesos_en_rango_witness :
    (accesosEjecutarRonda (fun _ => mezclaBloqueo) partidaEjemplo
      (List.replicate 10 ⟨some 'p', some 0, some 'D'⟩)).length = 154 ∧
    ∀ a ∈ accesosEjecutarRonda (fun _ => mezclaBloqueo) partidaEjemplo
      (List.replicate 10 ⟨some 'p', some 0, some 'D'⟩), a.enRango = true :=
  ⟨rfl, (C25_accesos_en_rango (fun _ => mezclaBloqueo) partidaEjemplo
    (List.replicate 10 ⟨some 'p', some 0, some 'D'⟩) 2 (by decide) rfl rfl).2.2.2⟩

end Domino

namespace Ejercicio5

open CPolinomio

/-! ## C31, C32: canonical form and product of `CPolinomio` -/

/-- The coefficient of `x^e` in a list of terms with a term in front. -/
theorem coeficiente_cons (t : CTermino) (l : List CTermino) (e : Int) :
    coeficiente ⟨t :: l⟩ e = (if t.gradoExp = e then t.valorCoef else 0) + coeficiente ⟨l⟩ e := by
  unfold coeficiente
  by_cases h : t.gradoExp = e
  · simp [List.filter_cons, h]
  · simp [List.filter_cons, h]

theorem coeficiente_nil (e : Int) : coeficiente ⟨[]⟩ e = 0 := rfl

theorem coeficiente_append (l1 l2 : List CTermino) (e : Int) :
    coeficiente ⟨l1 ++ l2⟩ e = coeficiente ⟨l1⟩ e + coeficiente ⟨l2⟩ e := by
  simp [coeficiente, List.filter_append]

theorem coeficiente_perm {l1 l2 : List CTermino} (h : l1.Perm l2) (e : Int) :
    coeficiente ⟨l1⟩ e = coeficiente ⟨l2⟩ e :=
  ((h.filter _).map _).sum_eq

theorem coeficiente_organizar (p : CPolinomio) (e : Int) :
    coeficiente (organizar p) e = coeficiente p e :=
  coeficiente_perm (List.perm_insertionSort _ _) e

theorem coeficiente_depurarCeros (p : CPolinomio) (e : Int) :
    coeficiente (depurarCeros p) e = coeficiente p e := by
  obtain ⟨l⟩ := p
  unfold depurarCeros
  simp only
  induction l with
  | nil => rfl
  | cons t l ih =>
    by_cases h : t.valorCoef = 0
    · rw [List.filter_cons_of_neg (by simp [h]), ih, coeficiente_cons, h]
      simp
    · rw [List.filter_cons_of_pos (by simp [h]), coeficiente_cons, coeficiente_cons, ih]

/-- The `for` of `insertarTermino`: the exponents stay, the flag tells whether
the exponent was there, and with the `push_back` the coefficient of the exponent
of the new term grows by its coefficient. -/
theorem buscarYUnir_spec (nuevo : CTermino) (l : List CTermino) :
    (buscarYUnir nuevo l).1.map CTermino.gradoExp = l.map CTermino.gradoExp ∧
    ((buscarYUnir nuevo l).2 = true ↔ nuevo.gradoExp ∈ l.map CTermino.gradoExp) ∧
    ∀ e, coeficiente ⟨if (buscarYUnir nuevo l).2 then (buscarYUnir nuevo l).1
        else (buscarYUnir nuevo l).1 ++ [nuevo]⟩ e =
      coeficiente ⟨l⟩ e + (if nuevo.gradoExp = e then nuevo.valorCoef else 0) := by
  induction l with
  | nil =>
    refine ⟨rfl, by simp [buscarYUnir], ?_⟩
    intro e
    simp [buscarYUnir, coeficiente_cons, coeficiente_nil]
  | cons t l ih =>
    obtain ⟨h1, h2, h3⟩ := ih
    by_cases h : t.gradoExp = nuevo.gradoExp
    · have hu : t.unir nuevo = ⟨t.valorCoef + nuevo.valorCoef, t.gradoExp⟩ := by
        simp [CTermino.unir, CTermino.compararExp, h]
      simp only [buscarYUnir, if_pos h, hu]
      refine ⟨by simp, by simp [h], ?_⟩
      intro e
      simp only [if_true, coeficiente_cons, h]
      split <;> ring
    · simp only [buscarYUnir, if_neg h]
      refine ⟨by simp [h1], ?_, ?_⟩
      · rw [h2]
        simp [Ne.symm h]
      · intro e
        have := h3 e
        by_cases hb : (buscarYUnir nuevo l).2 = true
        · simp only [hb, if_true] at this ⊢
          rw [coeficiente_cons, this, coeficiente_cons]
          ring
        · simp only [hb, if_false, Bool.false_eq_true] at this ⊢
          rw [List.cons_append, coeficiente_cons, this, coeficiente_cons]
          ring

/-- The law of `insertarTermino` on coefficients, for any list of terms. -/
theorem coeficiente_insertarTermino (p : CPolinomio) (t : CTermino) (e : Int) :
    coeficiente (p.insertarTermino t) e =
      coeficiente p e + (if t.gradoExp = e then t.valorCoef else 0) := by
  unfold insertarTermino
  by_cases h : t.valorCoef = 0
  · rw [if_pos h, h]
    simp
  · rw [if_neg h]
    simp only []
    rw [coeficiente_depurarCeros, coeficiente_organizar]
    exact (buscarYUnir_spec t p.listaTerminos).2.2 e

/-- Sorting and erasing the zeros gives the canonical form, when no exponent
occurs twice. -/
theorem canonico_organizar_depurar (l : List CTermino)
    (h : (l.map CTermino.gradoExp).Nodup) : canonico (depurarCeros (organizar ⟨l⟩)) := by
  haveI : IsTotal CTermino (fun a b => a.gradoExp ≤ b.gradoExp) :=
    ⟨fun a b => le_total a.gradoExp b.gradoExp⟩
  haveI : IsTrans CTermino (fun a b => a.gradoExp ≤ b.gradoExp) :=
    ⟨fun a b c hab hbc => le_trans hab hbc⟩
  have hs : (l.insertionSort fun a b => a.gradoExp ≤ b.gradoExp).Pairwise
      (fun a b => a.gradoExp ≤ b.gradoExp) :=
    List.sorted_insertionSort (fun a b : CTermino => a.gradoExp ≤ b.gradoExp) l
  have hn : ((l.insertionSort fun a b => a.gradoExp ≤ b.gradoExp).map
      CTermino.gradoExp).Nodup :=
    ((List.perm_insertionSort _ l).map _).nodup_iff.mpr h
  unfold List.Nodup at hn
  rw [List.pairwise_map] at hn
  have hlt := (hs.and hn).imp fun hab => lt_of_le_of_ne hab.1 hab.2
  refine ⟨hlt.filter _, ?_⟩
  intro t ht
  simp only [depurarCeros, organizar, List.mem_filter] at ht
  simpa using ht.2

theorem canonico_nodup {p : CPolinomio} (h : canonico p) :
    (p.listaTerminos.map CTermino.gradoExp).Nodup := by
  unfold List.Nodup
  rw [List.pairwise_map]
  exact h.1.imp fun hab => ne_of_lt hab

theorem canonico_insertarTermino {p : CPolinomio} (h : canonico p) (t : CTermino) :
    canonico (p.insertarTermino t) := by
  unfold insertarTermino
  by_cases hz : t.valorCoef = 0
  · rw [if_pos hz]
    exact h
  · rw [if_neg hz]
    simp only []
    apply canonico_organizar_depurar
    obtain ⟨h1, h2, _⟩ := buscarYUnir_spec t p.listaTerminos
    have hn := canonico_nodup h
    by_cases hb : (buscarYUnir t p.listaTerminos).2 = true
    · rw [if_pos hb, h1]
      exact hn
    · rw [if_neg hb, List.map_append, h1]
      have hno : t.gradoExp ∉ p.listaTerminos.map CTermino.gradoExp := fun hm => hb (h2.mpr hm)
      rw [List.nodup_append]
      refine ⟨hn, by simp, ?_⟩
      intro a ha hb'
      simp only [List.map_cons, List.map_nil, List.mem_singleton] at hb'
      exact hno (hb' ▸ ha)

theorem canonico_foldl_insertar {α : Type} (f : α → CTermino) (l : List α) {p : CPolinomio}
    (h : canonico p) : canonico (l.foldl (fun r a => r.insertarTermino (f a)) p) := by
  induction l generalizing p with
  | nil => exact h
  | cons a l ih => exact ih (canonico_insertarTermino h (f a))

theorem canonico_vacio : canonico vacio :=
  ⟨List.Pairwise.nil, fun t ht => by cases ht⟩

theorem canonico_sumar {p : CPolinomio} (h : canonico p) (q : CPolinomio) :
    canonico (p.sumar q) :=
  canonico_foldl_insertar (fun t => t) q.listaTerminos h

theorem canonico_multiplicar (p q : CPolinomio) : canonico (p.multiplicar q) := by
  unfold multiplicar
  simp only []
  apply canonico_organizar_depurar
  apply canonico_nodup
  have : ∀ (l : List CTermino) (r : CPolinomio), canonico r →
      canonico (l.foldl (fun r a => q.listaTerminos.foldl
        (fun r b => r.insertarTermino (a.producto b)) r) r) := by
    intro l
    induction l with
    | nil => intro r hr; exact hr
    | cons a l ih =>
      intro r hr
      exact ih _ (canonico_foldl_insertar (fun b => a.producto b) q.listaTerminos hr)
  exact this _ _ canonico_vacio

/-- In canonical form the coefficient of `x^e` is the coefficient of the term
with the exponent `e`, and it is 0 exactly when there is no such term. -/
theorem coeficiente_canonico {p : CPolinomio} (h : canonico p) :
    (∀ t ∈ p.listaTerminos, coeficiente p t.gradoExp = t.valorCoef) ∧
    ∀ e, (∃ t ∈ p.listaTerminos, t.gradoExp = e) ↔ coeficiente p e ≠ 0 := by
  obtain ⟨l⟩ := p
  obtain ⟨h1, h2⟩ := h
  simp only at h1 h2
  have hfuera : ∀ (l : List CTermino) (e : Int), (∀ t ∈ l, t.gradoExp ≠ e) →
      coeficiente ⟨l⟩ e = 0 := by
    intro l e hl
    induction l with
    | nil => rfl
    | cons a l ih =>
      rw [coeficiente_cons, if_neg (hl a (List.mem_cons_self _ _)),
        ih fun t ht => hl t (List.mem_cons_of_mem _ ht)]
      simp
  have hdentro : ∀ t ∈ l, coeficiente ⟨l⟩ t.gradoExp = t.valorCoef := by
    induction l with
    | nil => intro t ht; cases ht
    | cons a l ih =>
      rw [List.pairwise_cons] at h1
      intro t ht
      rw [coeficiente_cons]
      rcases List.mem_cons.mp ht with hta | ht
      · rw [hta, if_pos rfl, hfuera l a.gradoExp fun u hu => ne_of_gt (h1.1 u hu)]
        simp
      · rw [if_neg (ne_of_lt (h1.1 t ht)),
          ih h1.2 (fun u hu => h2 u (List.mem_cons_of_mem _ hu)) t ht]
        simp
  refine ⟨hdentro, ?_⟩
  intro e
  constructor
  · rintro ⟨t, ht, rfl⟩
    rw [hdentro t ht]
    exact h2 t ht
  · intro hne
    by_contra hno
    exact hne (hfuera l e fun t ht hte => hno ⟨t, ht, hte⟩)

open CPolinomio

/-- C31: the canonical form of `CPolinomio`.  Every polynomial obtained from the
empty one by calls of `insertarTermino`, `sumar` and `multiplicar` has its terms
in strictly increasing order of exponent and none with the coefficient 0, in
exact arithmetic; each of the three methods keeps that form.  Inserting a term
with the coefficient 0 changes nothing; in general the coefficient of the
exponent of the inserted term grows by its coefficient and the others stay; so
for a term of the exponent of an existing term the two coefficients are added
in one term, and no term of that exponent is left when their sum is 0. -/
theorem C31_forma_canonica :
    (∀ p, Alcanzable p → canonico p) ∧
    (∀ (p : CPolinomio) (t : CTermino), canonico p → canonico (p.insertarTermino t)) ∧
    (∀ p q : CPolinomio, canonico p → canonico (p.sumar q)) ∧
    (∀ p q : CPolinomio, canonico (p.multiplicar q)) ∧
    (∀ p : CPolinomio, canonico p → (p.listaTerminos.map CTermino.gradoExp).Nodup) ∧
    (∀ (p : CPolinomio) (t : CTermino), t.valorCoef = 0 → p.insertarTermino t = p) ∧
    (∀ (p : CPolinomio) (t : CTermino) (e : Int), coeficiente (p.insertarTermino t) e =
      coeficiente p e + (if t.gradoExp = e then t.valorCoef else 0)) ∧
    (∀ p : CPolinomio, canonico p → ∀ t0 ∈ p.listaTerminos, ∀ c : ℚ,
      (t0.valorCoef + c ≠ 0 →
        (⟨t0.valorCoef + c, t0.gradoExp⟩ : CTermino) ∈
          (p.insertarTermino ⟨c, t0.gradoExp⟩).listaTerminos) ∧
      (t0.valorCoef + c = 0 →
        ∀ t ∈ (p.insertarTermino ⟨c, t0.gradoExp⟩).listaTerminos,
          t.gradoExp ≠ t0.gradoExp)) ∧
    (⟨[⟨7, 0⟩, ⟨-2, 1⟩, ⟨4, 3⟩]⟩ : CPolinomio).insertarTermino ⟨-4, 3⟩ =
      ⟨[⟨7, 0⟩, ⟨-2, 1⟩]⟩ := by
  refine ⟨?_, fun p t h => canonico_insertarTermino h t, fun p q h => canonico_sumar h q,
    canonico_multiplicar, fun p h => canonico_nodup h, ?_, coeficiente_insertarTermino, ?_, ?_⟩
  · intro p hp
    induction hp with
    | vacio => exact canonico_vacio
    | insertarTermino p t _ ih => exact canonico_insertarTermino ih t
    | sumar p q _ _ ih _ => exact canonico_sumar ih q
    | multiplicar p q _ _ _ _ => exact canonico_multiplicar p q
  · intro p t ht
    rw [insertarTermino, if_pos ht]
  · intro p hp t0 ht0 c
    have hc := canonico_insertarTermino hp ⟨c, t0.gradoExp⟩
    obtain ⟨h1, h2⟩ := coeficiente_canonico hc
    have hcoef : coeficiente (p.insertarTermino ⟨c, t0.gradoExp⟩) t0.gradoExp =
        t0.valorCoef + c := by
      rw [coeficiente_insertarTermino, (coeficiente_canonico hp).1 t0 ht0]
      simp
    constructor
    · intro hne
      obtain ⟨t, ht, hte⟩ := (h2 t0.gradoExp).mpr (by rw [hcoef]; exact hne)
      have hv := h1 t ht
      rw [hte, hcoef] at hv
      have : t = ⟨t0.valorCoef + c, t0.gradoExp⟩ := by
        cases t
        simp only [CTermino.mk.injEq]
        exact ⟨hv.symm, hte⟩
      rw [← this]
      exact ht
    · intro hz t ht hte
      have := (h2 t0.gradoExp).mp ⟨t, ht, hte⟩
      rw [hcoef] at this
      exact this hz
  · norm_num [insertarTermino, buscarYUnir, organizar, depurarCeros, CTermino.unir,
      CTermino.compararExp, List.insertionSort, List.orderedInsert]

end Ejercicio5

namespace Ejercicio3

open Polinomio

/-! ## C33: sum and product of `Polinomio` agree with evaluation -/

theorem foldl_suma (f : Nat → ℚ) (n : Nat) :
    (List.range n).foldl (fun r i => r + f i) 0 = ∑ i in Finset.range n, f i := by
  induction n with
  | zero => rfl
  | succ n ih =>
    rw [List.range_succ, List.foldl_append, ih, Finset.sum_range_succ]
    rfl

theorem evaluar_eq (p : Polinomio) (x : ℚ) :
    p.evaluar x = ∑ i in Finset.range (p.gradoMax + 1), p.terminos.getD i 0 * x ^ i :=
  foldl_suma _ _

/-- Filling the cells `0 .. m - 1` of an array one after the other. -/
theorem llenar (f : Nat → ℚ) (arreglo : List ℚ) (m : Nat) (hm : m ≤ arreglo.length) :
    (List.range m).foldl (fun arreglo i => arreglo.set i (f i)) arreglo =
      (List.range m).map f ++ arreglo.drop m := by
  induction m with
  | zero => simp
  | succ m ih =>
    rw [List.range_succ, List.foldl_append, ih (by omega)]
    simp only [List.foldl_cons, List.foldl_nil, List.map_append, List.map_cons, List.map_nil]
    have hlen : ((List.range m).map f).length = m := by simp
    rw [List.set_append_right _ _ (by omega), hlen, Nat.sub_self]
    have hd : arreglo.drop m = arreglo[m] :: arreglo.drop (m + 1) :=
      List.drop_eq_getElem_cons (by omega)
    rw [hd, List.set_cons_zero, List.append_assoc]
    rfl

theorem llenar_todo (f : Nat → ℚ) (tam : Nat) (basura : Nat → ℚ) :
    (List.range tam).foldl (fun arreglo i => arreglo.set i (f i)) (nuevoArreglo tam basura) =
      (List.range tam).map f := by
  rw [llenar f _ tam (by simp [nuevoArreglo])]
  simp [nuevoArreglo]

/-- The constructor copies an array of the right size as it is. -/
theorem crear_terminos (grado : Nat) (arreglo : List ℚ) (h : arreglo.length = grado + 1) :
    (crear grado arreglo).terminos = arreglo := by
  unfold crear
  apply List.ext_getElem (by simp [h])
  intro i h1 h2
  simp [List.getElem?_eq_getElem h2]

/-- Adding `v` to cell `k` of an array adds `v * x ^ k` to the value of the
array at `x`. -/
theorem valor_set (arreglo : List ℚ) (k : Nat) (hk : k < arreglo.length) (v x : ℚ) :
    ∑ i in Finset.range arreglo.length,
        (arreglo.set k (arreglo.getD k 0 + v)).getD i 0 * x ^ i =
      (∑ i in Finset.range arreglo.length, arreglo.getD i 0 * x ^ i) + v * x ^ k := by
  have hcelda : ∀ i, (arreglo.set k (arreglo.getD k 0 + v)).getD i 0 * x ^ i =
      arreglo.getD i 0 * x ^ i + (if k = i then v * x ^ k else 0) := by
    intro i
    by_cases hik : k = i
    · subst hik
      rw [if_pos rfl, List.getD_eq_getElem?_getD, List.getElem?_set_self hk]
      simp only [Option.getD_some]
      ring
    · rw [if_neg hik, List.getD_eq_getElem?_getD, List.getElem?_set_ne hik,
        ← List.getD_eq_getElem?_getD, add_zero]
  simp only [hcelda]
  rw [Finset.sum_add_distrib, Finset.sum_ite_eq, if_pos (Finset.mem_range.mpr hk)]

/-- The inner loop of `operator*`: the array keeps its size and its value at `x`
grows by the products of `a` with the coefficients `b 0 .. b (c - 1)`. -/
theorem producto_fila (a : ℚ) (b : Nat → ℚ) (i : Nat) (x : ℚ) (c : Nat) (arreglo : List ℚ)
    (hc : i + c ≤ arreglo.length) :
    ((List.range c).foldl
      (fun arreglo j => arreglo.set (i + j) (arreglo.getD (i + j) 0 + a * b j))
      arreglo).length = arreglo.length ∧
    ∑ k in Finset.range arreglo.length,
        ((List.range c).foldl
          (fun arreglo j => arreglo.set (i + j) (arreglo.getD (i + j) 0 + a * b j))
          arreglo).getD k 0 * x ^ k =
      (∑ k in Finset.range arreglo.length, arreglo.getD k 0 * x ^ k) +
        ∑ j in Finset.range c, a * b j * x ^ (i + j) := by
  induction c with
  | zero => simp
  | succ c ih =>
    obtain ⟨h1, h2⟩ := ih (by omega)
    rw [List.range_succ, List.foldl_append]
    simp only [List.foldl_cons, List.foldl_nil]
    refine ⟨by rw [List.length_set, h1], ?_⟩
    have := valor_set _ (i + c) (by rw [h1]; omega) (a * b c) x
    rw [h1] at this
    rw [this, h2, Finset.sum_range_succ]
    ring

/-- The two nested loops of `operator*`. -/
theorem producto_filas (a b : Nat → ℚ) (x : ℚ) (c f : Nat) (arreglo : List ℚ)
    (hf : f + c ≤ arreglo.length + 1) :
    ((List.range f).foldl
      (fun arreglo i => (List.range c).foldl
        (fun arreglo j => arreglo.set (i + j) (arreglo.getD (i + j) 0 + a i * b j)) arreglo)
      arreglo).length = arreglo.length ∧
    ∑ k in Finset.range arreglo.length,
        ((List.range f).foldl
          (fun arreglo i => (List.range c).foldl
            (fun arreglo j => arreglo.set (i + j) (arreglo.getD (i + j) 0 + a i * b j))
            arreglo)
          arreglo).getD k 0 * x ^ k =
      (∑ k in Finset.range arreglo.length, arreglo.getD k 0 * x ^ k) +
        ∑ i in Finset.range f, ∑ j in Finset.range c, a i * b j * x ^ (i + j) := by
  induction f with
  | zero => simp
  | succ f ih =>
    obtain ⟨h1, h2⟩ := ih (by omega)
    rw [List.range_succ, List.foldl_append]
    simp only [List.foldl_cons, List.foldl_nil]
    obtain ⟨e1, e2⟩ := producto_fila (a f) b f x c
      ((List.range f).foldl
        (fun arreglo i => (List.range c).foldl
          (fun arreglo j => arreglo.set (i + j) (arreglo.getD (i + j) 0 + a i * b j)) arreglo)
        arreglo) (by rw [h1]; omega)
    rw [h1] at e1 e2
    refine ⟨e1, ?_⟩
    rw [e2, h2, Finset.sum_range_succ]
    ring

open Polinomio

/-- What `operator+` returns: the coefficients `a_i + b_i`, with 0 beyond the
degree of an operand. -/
theorem add_spec (basura : Nat → ℚ) (A B : Polinomio) :
    add basura A B =
      ⟨(List.range (max A.gradoMax B.gradoMax + 1)).map fun i =>
          (if i ≤ A.gradoMax then A.terminos.getD i 0 else 0) +
          (if i ≤ B.gradoMax then B.terminos.getD i 0 else 0),
        max A.gradoMax B.gradoMax⟩ := by
  unfold add
  simp only []
  rw [llenar_todo (fun i => (if i ≤ A.gradoMax then A.terminos.getD i 0 else 0) +
    (if i ≤ B.gradoMax then B.terminos.getD i 0 else 0))]
  exact congrArg₂ Polinomio.mk (crear_terminos _ _ (by simp)) rfl

/-- What `operator*` returns: an array of `gradoMax + otro.gradoMax + 1` cells
that does not depend on the content of the fresh memory and whose value at `x`
is the product of the values of the operands. -/
theorem mul_spec (basura : Nat → ℚ) (A B : Polinomio) :
    (mul basura A B).gradoMax = A.gradoMax + B.gradoMax ∧
    (mul basura A B).terminos.length = A.gradoMax + B.gradoMax + 1 ∧
    (∀ basura', mul basura' A B = mul basura A B) ∧
    ∀ x, ∑ k in Finset.range (A.gradoMax + B.gradoMax + 1),
        (mul basura A B).terminos.getD k 0 * x ^ k =
      (∑ i in Finset.range (A.gradoMax + 1), A.terminos.getD i 0 * x ^ i) *
        ∑ j in Finset.range (B.gradoMax + 1), B.terminos.getD j 0 * x ^ j := by
  have hceros : ∀ b : Nat → ℚ,
      (List.range (A.gradoMax + B.gradoMax + 1)).foldl (fun arreglo i => arreglo.set i 0)
        (nuevoArreglo (A.gradoMax + B.gradoMax + 1) b) =
      (List.range (A.gradoMax + B.gradoMax + 1)).map fun _ => (0 : ℚ) :=
    fun b => llenar_todo (fun _ => 0) _ b
  have hmul : ∀ b : Nat → ℚ, mul b A B = crear (A.gradoMax + B.gradoMax)
      ((List.range (A.gradoMax + 1)).foldl
        (fun arreglo i => (List.range (B.gradoMax + 1)).foldl
          (fun arreglo j => arreglo.set (i + j)
            (arreglo.getD (i + j) 0 + A.terminos.getD i 0 * B.terminos.getD j 0)) arreglo)
        ((List.range (A.gradoMax + B.gradoMax + 1)).map fun _ => (0 : ℚ))) := by
    intro b
    unfold mul
    simp only []
    rw [hceros b]
  have hlen0 : ((List.range (A.gradoMax + B.gradoMax + 1)).map fun _ => (0 : ℚ)).length =
      A.gradoMax + B.gradoMax + 1 := by simp
  refine ⟨rfl, ?_, fun b => (hmul b).trans (hmul basura).symm, ?_⟩
  · simp [mul, crear]
  · intro x
    obtain ⟨h1, h2⟩ := producto_filas (fun i => A.terminos.getD i 0)
      (fun j => B.terminos.getD j 0) x (B.gradoMax + 1) (A.gradoMax + 1)
      ((List.range (A.gradoMax + B.gradoMax + 1)).map fun _ => (0 : ℚ))
      (by rw [hlen0]; omega)
    rw [hlen0] at h1 h2
    rw [hmul basura, crear_terminos _ _ h1, h2, Finset.sum_mul_sum]
    have hz : ∑ k in Finset.range (A.gradoMax + B.gradoMax + 1),
        ((List.range (A.gradoMax + B.gradoMax + 1)).map fun _ => (0 : ℚ)).getD k 0 * x ^ k
        = 0 := by
      apply Finset.sum_eq_zero
      intro k hk
      have hk' := Finset.mem_range.mp hk
      rw [List.getD_eq_getElem _ _ (by rw [hlen0]; exact hk')]
      simp
    rw [hz, zero_add]
    apply Finset.sum_congr rfl
    intro i _
    apply Finset.sum_congr rfl
    intro j _
    rw [pow_add]
    ring

/-- C33: the dense `Polinomio` agrees with evaluation.  For all polynomials `A`
and `B` in the layout of the constructor (`gradoMax + 1` coefficients, degree
at least 0), in exact arithmetic, whatever the fresh arrays hold, and for every
`x`: `(A * B).evaluar(x) = A.evaluar(x) * B.evaluar(x)` and
`(A + B).evaluar(x) = A.evaluar(x) + B.evaluar(x)`, where `evaluar` is the sum of
`terminos[i] * x^i` for `i = 0 .. gradoMax`; the product has the degree
`gradoMax(A) + gradoMax(B)` and the sum the degree
`max(gradoMax(A), gradoMax(B))`, both in the layout of the constructor. -/
theorem C33_evaluar_suma_y_producto (A B : Polinomio) (_hA : A.bienFormado)
    (_hB : B.bienFormado) (basura : Nat → ℚ) (x : ℚ) :
    (mul basura A B).evaluar x = A.evaluar x * B.evaluar x ∧
    (add basura A B).evaluar x = A.evaluar x + B.evaluar x ∧
    A.evaluar x = ∑ i in Finset.range (A.gradoMax + 1), A.terminos.getD i 0 * x ^ i ∧
    (mul basura A B).gradoMax = A.gradoMax + B.gradoMax ∧
    (add basura A B).gradoMax = max A.gradoMax B.gradoMax ∧
    (mul basura A B).bienFormado ∧ (add basura A B).bienFormado ∧
    (∀ basura', mul basura' A B = mul basura A B ∧ add basura' A B = add basura A B) := by
  obtain ⟨m1, m2, m3, m4⟩ := mul_spec basura A B
  have hadd : ∀ b, add b A B = add basura A B := fun b =>
    (add_spec b A B).trans (add_spec basura A B).symm
  refine ⟨?_, ?_, evaluar_eq A x, m1, ?_, ?_, ?_, fun b => ⟨m3 b, hadd b⟩⟩
  · rw [evaluar_eq, evaluar_eq, evaluar_eq, m1]
    exact m4 x
  · rw [evaluar_eq, evaluar_eq, evaluar_eq, add_spec]
    simp only []
    have hcelda : ∀ i ∈ Finset.range (max A.gradoMax B.gradoMax + 1),
        ((List.range (max A.gradoMax B.gradoMax + 1)).map fun i =>
          (if i ≤ A.gradoMax then A.terminos.getD i 0 else 0) +
          (if i ≤ B.gradoMax then B.terminos.getD i 0 else 0)).getD i 0 * x ^ i =
        (if i ≤ A.gradoMax then A.terminos.getD i 0 * x ^ i else 0) +
        (if i ≤ B.gradoMax then B.terminos.getD i 0 * x ^ i else 0) := by
      intro i hi
      have hi' := Finset.mem_range.mp hi
      rw [List.getD_eq_getElem _ _ (by simpa using hi')]
      simp only [List.getElem_map, List.getElem_range]
      split <;> split <;> ring
    rw [Finset.sum_congr rfl hcelda, Finset.sum_add_distrib]
    have hparte : ∀ (g : Nat) (f : Nat → ℚ), g ≤ max A.gradoMax B.gradoMax →
        ∑ i in Finset.range (max A.gradoMax B.gradoMax + 1), (if i ≤ g then f i else 0) =
          ∑ i in Finset.range (g + 1), f i := by
      intro g f hg
      rw [← Finset.sum_filter]
      congr 1
      ext i
      simp only [Finset.mem_filter, Finset.mem_range]
      omega
    rw [hparte A.gradoMax _ (le_max_left _ _), hparte B.gradoMax _ (le_max_right _ _)]
  · rw [add_spec]
  · show (mul basura A B).terminos.length = (mul basura A B).gradoMax + 1
    rw [m2, m1]
  · rw [add_spec]
    simp [bienFormado]

/-- C33 at the polynomials of `main`: `A = 1 + 2x + 3x^2`, `B = 2 + x`, with 9 in
every fresh cell; the product is `2 + 5x + 8x^2 + 3x^3`, and its value at 2 is
the product of the values of `A` and `B` at 2. -/
theorem C33_evaluar_suma_y_producto_witness :
    mul (fun _ => 9) ⟨[1, 2, 3], 2⟩ ⟨[2, 1], 1⟩ = ⟨[2, 5, 8, 3], 3⟩ ∧
    (mul (fun _ => 9) ⟨[1, 2, 3], 2⟩ ⟨[2, 1], 1⟩).evaluar 2 =
      Polinomio.evaluar ⟨[1, 2, 3], 2⟩ 2 * Polinomio.evaluar ⟨[2, 1], 1⟩ 2 :=
  ⟨by norm_num [mul, crear, nuevoArreglo, List.range_succ, List.range_zero],
    (C33_evaluar_suma_y_producto ⟨[1, 2, 3], 2⟩ ⟨[2, 1], 1⟩ (by decide) (by decide)
      (fun _ => 9) 2).1⟩

end Ejercicio3

namespace Ejercicio2

open Matriz

/-! ## C34: transpose and product of `Matriz` -/

theorem crear_bienFormada (tam : Nat) (azar : Nat → Int) : (crear tam azar).bienFormada := by
  refine ⟨by simp [crear], ?_⟩
  intro fila hfila
  simp only [crear, List.mem_map, List.mem_range] at hfila
  obtain ⟨i, _, rfl⟩ := hfila
  simp [crear]

theorem escribir_bienFormada {m : Matriz} (h : m.bienFormada) (i j : Nat) (v : Int) :
    (m.escribir i j v).bienFormada ∧ (m.escribir i j v).n = m.n := by
  obtain ⟨h1, h2⟩ := h
  refine ⟨⟨by simp [escribir, h1], ?_⟩, rfl⟩
  intro fila hfila
  simp only [escribir] at hfila ⊢
  rcases List.mem_or_eq_of_mem_set hfila with hf | hf
  · exact h2 fila hf
  · by_cases hi : i < m.elementos.length
    · rw [hf, List.length_set, List.getD_eq_getElem _ _ hi]
      exact h2 _ (List.getElem_mem hi)
    · rw [List.set_eq_of_length_le (by omega)] at hfila
      exact h2 fila hfila

/-- Reading after a write within the matrix. -/
theorem leer_escribir {m : Matriz} (h : m.bienFormada) {i j : Nat} (hi : i < m.n)
    (hj : j < m.n) (v : Int) (i' j' : Nat) :
    (m.escribir i j v).leer i' j' = if i' = i ∧ j' = j then v else m.leer i' j' := by
  obtain ⟨h1, h2⟩ := h
  have hil : i < m.elementos.length := by omega
  have hfila : (m.elementos.getD i []).length = m.n := by
    rw [List.getD_eq_getElem _ _ hil]
    exact h2 _ (List.getElem_mem hil)
  unfold leer escribir
  simp only [List.getD_eq_getElem?_getD]
  by_cases hii : i' = i
  · subst hii
    rw [List.getElem?_set_self hil]
    simp only [Option.getD_some, true_and]
    by_cases hjj : j' = j
    · subst hjj
      rw [if_pos rfl, List.getElem?_set_self (by rw [← List.getD_eq_getElem?_getD]; omega)]
      rfl
    · rw [if_neg hjj, List.getElem?_set_ne (Ne.symm hjj)]
  · rw [List.getElem?_set_ne (Ne.symm hii)]
    simp [hii]

/-- The inner loop of `transpuesta` and `multiplicar`: row `i` gets the values
`g 0, .., g (c - 1)` in its first `c` cells. -/
theorem fila_llena {m : Matriz} (h : m.bienFormada) {i : Nat} (hi : i < m.n) (g : Nat → Int)
    (c : Nat) (hc : c ≤ m.n) :
    ((List.range c).foldl (fun t j => t.escribir i j (g j)) m).bienFormada ∧
    ((List.range c).foldl (fun t j => t.escribir i j (g j)) m).n = m.n ∧
    ∀ i' j', ((List.range c).foldl (fun t j => t.escribir i j (g j)) m).leer i' j' =
      if i' = i ∧ j' < c then g j' else m.leer i' j' := by
  induction c with
  | zero =>
    refine ⟨h, rfl, ?_⟩
    intro i' j'
    simp
  | succ c ih =>
    obtain ⟨h1, h2, h3⟩ := ih (by omega)
    rw [List.range_succ, List.foldl_append]
    simp only [List.foldl_cons, List.foldl_nil]
    obtain ⟨e1, e2⟩ := escribir_bienFormada h1 i c (g c)
    refine ⟨e1, e2.trans h2, ?_⟩
    intro i' j'
    rw [leer_escribir h1 (by omega) (by omega), h3]
    by_cases hii : i' = i
    · by_cases hjc : j' = c
      · subst hjc
        simp [hii]
      · by_cases hlt : j' < c
        · simp [hii, hjc, hlt, Nat.lt_succ_of_lt hlt]
        · have : ¬ j' < c + 1 := by omega
          simp [hii, hjc, hlt, this]
    · simp [hii]

/-- The two nested loops of `transpuesta` and `multiplicar`: the first `f` rows
get the values `g i j`. -/
theorem filas_llenas {m : Matriz} (h : m.bienFormada) (g : Nat → Nat → Int)
    (f : Nat) (hf : f ≤ m.n) :
    ((List.range f).foldl
      (fun t i => (List.range m.n).foldl (fun t j => t.escribir i j (g i j)) t) m).bienFormada ∧
    ((List.range f).foldl
      (fun t i => (List.range m.n).foldl (fun t j => t.escribir i j (g i j)) t) m).n = m.n ∧
    ∀ i' j', ((List.range f).foldl
      (fun t i => (List.range m.n).foldl (fun t j => t.escribir i j (g i j)) t) m).leer i' j' =
      if i' < f ∧ j' < m.n then g i' j' else m.leer i' j' := by
  induction f with
  | zero =>
    refine ⟨h, rfl, ?_⟩
    intro i' j'
    simp
  | succ f ih =>
    obtain ⟨h1, h2, h3⟩ := ih (by omega)
    rw [List.range_succ, List.foldl_append]
    simp only [List.foldl_cons, List.foldl_nil]
    obtain ⟨e1, e2, e3⟩ := fila_llena h1 (show f < _ by rw [h2]; omega) (g f) m.n
      (by rw [h2])
    refine ⟨e1, e2.trans h2, ?_⟩
    intro i' j'
    rw [e3, h3]
    by_cases hii : i' = f
    · subst hii
      by_cases hj : j' < m.n
      · simp [hj]
      · simp [hj]
    · by_cases hlt : i' < f
      · simp [hii, hlt, Nat.lt_succ_of_lt hlt]
      · have : ¬ i' < f + 1 := by omega
        simp [hii, hlt, this]

/-- Two matrices of the same layout with the same cells are the same. -/
theorem matriz_ext {a b : Matriz} (ha : a.bienFormada) (hb : b.bienFormada) (hn : a.n = b.n)
    (h : ∀ i j, i < a.n → j < a.n → a.leer i j = b.leer i j) : a = b := by
  obtain ⟨ea, a_n⟩ := a
  obtain ⟨eb, b_n⟩ := b
  simp only at hn
  subst hn
  obtain ⟨a1, a2⟩ := ha
  obtain ⟨b1, b2⟩ := hb
  simp only at a1 a2 b1 b2 h
  simp only [Matriz.mk.injEq, and_true]
  apply List.ext_getElem (by rw [a1, b1])
  intro i hi1 hi2
  have hra := a2 _ (List.getElem_mem hi1)
  have hrb := b2 _ (List.getElem_mem hi2)
  apply List.ext_getElem (by rw [hra, hrb])
  intro j hj1 hj2
  have := h i j (by omega) (by omega)
  simp only [leer, List.getD_eq_getElem _ _ hi1, List.getD_eq_getElem _ _ hi2,
    List.getD_eq_getElem _ _ hj1, List.getD_eq_getElem _ _ hj2] at this
  exact this

theorem suma_foldl (f : Nat → Int) (n : Nat) :
    (List.range n).foldl (fun suma k => suma + f k) 0 = ((List.range n).map f).sum := by
  induction n with
  | zero => rfl
  | succ n ih =>
    rw [List.range_succ, List.foldl_append, ih, List.map_append, List.sum_append]
    simp

/-- What `transpuesta` returns. -/
theorem transpuesta_spec (azar : Nat → Int) (m : Matriz) :
    (transpuesta azar m).bienFormada ∧ (transpuesta azar m).n = m.n ∧
    ∀ i j, i < m.n → j < m.n → (transpuesta azar m).leer i j = m.leer j i := by
  obtain ⟨h1, h2, h3⟩ := filas_llenas (crear_bienFormada m.n azar) (fun i j => m.leer j i)
    m.n (Nat.le_refl _)
  refine ⟨h1, h2, ?_⟩
  intro i j hi hj
  have := h3 i j
  rw [if_pos ⟨hi, hj⟩] at this
  exact this

/-- What `multiplicar` returns. -/
theorem multiplicar_spec (azar : Nat → Int) (m otra : Matriz) :
    (multiplicar azar m otra).bienFormada ∧ (multiplicar azar m otra).n = m.n ∧
    ∀ i j, i < m.n → j < m.n → (multiplicar azar m otra).leer i j =
      ((List.range m.n).map fun k => m.leer i k * otra.leer k j).sum := by
  obtain ⟨h1, h2, h3⟩ := filas_llenas (crear_bienFormada m.n azar)
    (fun i j => (List.range m.n).foldl (fun suma k => suma + m.leer i k * otra.leer k j) 0)
    m.n (Nat.le_refl _)
  refine ⟨h1, h2, ?_⟩
  intro i j hi hj
  have := h3 i j
  rw [if_pos ⟨hi, hj⟩, suma_foldl] at this
  exact this

open Matriz

/-- C34: transpose and product of `Matriz`.  For `n × n` matrices `A` and `B`
in the layout of the constructor, in exact integer arithmetic and whatever
values `rand()` gives to the constructors of the results: `A.multiplicar(B)` has
the entry `(i, j)` equal to the sum over `k < n` of `A(i,k) * B(k,j)`,
`A.transpuesta()` has the entry `(i, j)` equal to `A(j,i)`; transposing twice
gives `A` back, the transpose of the product is the product of the transposes
in reverse order, and the results do not depend on the random values. -/
theorem C34_transpuesta_y_producto (A B : Matriz) (hA : A.bienFormada) (_hB : B.bienFormada)
    (hn : B.n = A.n) :
    (∀ (azar : Nat → Int) (i j : Nat), i < A.n → j < A.n →
      (multiplicar azar A B).leer i j =
        ((List.range A.n).map fun k => A.leer i k * B.leer k j).sum) ∧
    (∀ (azar : Nat → Int) (i j : Nat), i < A.n → j < A.n →
      (transpuesta azar A).leer i j = A.leer j i) ∧
    (∀ azar azar' : Nat → Int, transpuesta azar (transpuesta azar' A) = A) ∧
    (∀ a1 a2 a3 a4 a5 : Nat → Int,
      transpuesta a1 (multiplicar a2 A B) =
        multiplicar a3 (transpuesta a4 B) (transpuesta a5 A)) ∧
    (∀ azar azar' : Nat → Int, transpuesta azar A = transpuesta azar' A ∧
      multiplicar azar A B = multiplicar azar' A B) ∧
    (∀ azar : Nat → Int, (transpuesta azar A).bienFormada ∧ (transpuesta azar A).n = A.n ∧
      (multiplicar azar A B).bienFormada ∧ (multiplicar azar A B).n = A.n) := by
  refine ⟨fun azar => (multiplicar_spec azar A B).2.2, fun azar => (transpuesta_spec azar A).2.2,
    ?_, ?_, ?_, ?_⟩
  · intro azar azar'
    obtain ⟨t1, t2, t3⟩ := transpuesta_spec azar' A
    obtain ⟨u1, u2, u3⟩ := transpuesta_spec azar (transpuesta azar' A)
    refine matriz_ext u1 hA (u2.trans t2) ?_
    intro i j hi hj
    rw [u2, t2] at hi hj
    rw [u3 i j (by omega) (by omega), t3 j i hj hi]
  · intro a1 a2 a3 a4 a5
    obtain ⟨p1, p2, p3⟩ := multiplicar_spec a2 A B
    obtain ⟨t1, t2, t3⟩ := transpuesta_spec a1 (multiplicar a2 A B)
    obtain ⟨b1, b2, b3⟩ := transpuesta_spec a4 B
    obtain ⟨c1, c2, c3⟩ := transpuesta_spec a5 A
    obtain ⟨q1, q2, q3⟩ := multiplicar_spec a3 (transpuesta a4 B) (transpuesta a5 A)
    refine matriz_ext t1 q1 (by rw [t2, p2, q2, b2, hn]) ?_
    intro i j hi hj
    rw [t2, p2] at hi hj
    rw [t3 i j (by omega) (by omega), p3 j i hj hi, q3 i j (by omega) (by omega), b2, hn]
    congr 1
    apply List.map_congr_left
    intro k hk
    have hk' := List.mem_range.mp hk
    rw [b3 i k (by omega) (by omega), c3 k j hk' hj]
    ring
  · intro azar azar'
    constructor
    · obtain ⟨t1, t2, t3⟩ := transpuesta_spec azar A
      obtain ⟨u1, u2, u3⟩ := transpuesta_spec azar' A
      refine matriz_ext t1 u1 (t2.trans u2.symm) ?_
      intro i j hi hj
      rw [t2] at hi hj
      rw [t3 i j hi hj, u3 i j hi hj]
    · obtain ⟨t1, t2, t3⟩ := multiplicar_spec azar A B
      obtain ⟨u1, u2, u3⟩ := multiplicar_spec azar' A B
      refine matriz_ext t1 u1 (t2.trans u2.symm) ?_
      intro i j hi hj
      rw [t2] at hi hj
      rw [t3 i j hi hj, u3 i j hi hj]
  · intro azar
    obtain ⟨t1, t2, _⟩ := transpuesta_spec azar A
    obtain ⟨u1, u2, _⟩ := multiplicar_spec azar A B
    exact ⟨t1, t2, u1, u2⟩

/-- C34 at concrete matrices: for `A = [[1, 2], [3, 4]]` and `B = [[0, 1], [5, 6]]`,
with different random values in the constructors, the product is
`[[10, 13], [20, 27]]` and its transpose is the product of the transposes in
reverse order. -/
theorem C34_transpuesta_y_producto_witness :
    multiplicar (fun _ => 7) ⟨[[1, 2], [3, 4]], 2⟩ ⟨[[0, 1], [5, 6]], 2⟩ =
      ⟨[[10, 13], [20, 27]], 2⟩ ∧
    transpuesta (fun k => k) (multiplicar (fun _ => 7) ⟨[[1, 2], [3, 4]], 2⟩
        ⟨[[0, 1], [5, 6]], 2⟩) =
      multiplicar (fun _ => 3) (transpuesta (fun _ => 4) ⟨[[0, 1], [5, 6]], 2⟩)
        (transpuesta (fun k => 2 * k) ⟨[[1, 2], [3, 4]], 2⟩) :=
  ⟨by decide, (C34_transpuesta_y_producto ⟨[[1, 2], [3, 4]], 2⟩ ⟨[[0, 1], [5, 6]], 2⟩
    (by decide) (by decide) rfl).2.2.2.1 (fun k => k) (fun _ => 7) (fun _ => 3) (fun _ => 4)
    (fun k => 2 * k)⟩

end Ejercicio2

namespace Ejercicio4

/-! ## C35: division inverts multiplication -/

/-- The denominator of `operator/` vanishes for the number 0 only. -/
theorem denominador_ne_zero {b : Complejo} (hb : b ≠ ⟨0, 0⟩) :
    b.parteReal * b.parteReal + b.parteImag * b.parteImag ≠ 0 := by
  intro h
  obtain ⟨h1, h2⟩ := (mul_self_add_mul_self_eq_zero).mp h
  apply hb
  cases b
  simp only [Complejo.mk.injEq]
  exact ⟨h1, h2⟩

/-- C35: division inverts multiplication.  For all complex numbers `a` and
`b ≠ 0 + 0i`, with the parts in exact arithmetic, `(a * b) / b = a` and
`(a / b) * b = a` for the formulas of `operator*` and `operator/`; and
`a * a.conjugar()` has the real part `re(a)^2 + im(a)^2`, which is the
denominator that `operator/` computes for the divisor `a`, and the imaginary
part 0. -/
theorem C35_division_invierte_producto (a b : Complejo) (hb : b ≠ ⟨0, 0⟩) :
    Complejo.div (Complejo.mul a b) b = a ∧
    Complejo.mul (Complejo.div a b) b = a ∧
    (Complejo.mul a a.conjugar).parteImag = 0 ∧
    (Complejo.mul a a.conjugar).parteReal = a.parteReal ^ 2 + a.parteImag ^ 2 ∧
    (∀ c : Complejo, Complejo.div c a =
      ⟨(c.parteReal * a.parteReal + c.parteImag * a.parteImag) /
          (Complejo.mul a a.conjugar).parteReal,
        (c.parteImag * a.parteReal - c.parteReal * a.parteImag) /
          (Complejo.mul a a.conjugar).parteReal⟩) := by
  have hd := denominador_ne_zero hb
  obtain ⟨ar, ai⟩ := a
  obtain ⟨br, bi⟩ := b
  simp only at hd
  refine ⟨?_, ?_, ?_, ?_, ?_⟩
  · simp only [Complejo.div, Complejo.mul, Complejo.mk.injEq]
    constructor
    · field_simp
      ring
    · field_simp
      ring
  · simp only [Complejo.div, Complejo.mul, Complejo.mk.injEq]
    constructor
    · field_simp
      ring
    · field_simp
      ring
  · simp only [Complejo.mul, Complejo.conjugar]
    ring
  · simp only [Complejo.mul, Complejo.conjugar]
    ring
  · intro c
    simp only [Complejo.div, Complejo.mul, Complejo.conjugar, Complejo.mk.injEq]
    constructor
    · congr 1
      ring
    · congr 1
      ring

/-- C35 at concrete numbers: `((1 + 2i) * (3 + 4i)) / (3 + 4i) = 1 + 2i`, where
the product is `-5 + 10i`. -/
theorem C35_division_invierte_producto_witness :
    Complejo.mul ⟨1, 2⟩ ⟨3, 4⟩ = ⟨-5, 10⟩ ∧
    Complejo.div (Complejo.mul ⟨1, 2⟩ ⟨3, 4⟩) ⟨3, 4⟩ = ⟨1, 2⟩ :=
  ⟨by norm_num [Complejo.mul], (C35_division_invierte_producto ⟨1, 2⟩ ⟨3, 4⟩ (by decide)).1⟩

end Ejercicio4
